import Mathlib

/-!
Shallow embedding of the rule evaluation, failure attribution and fuzzy
sampling engine of the dataframely library (modules `_rule.py`,
`schema.py`, `_base_schema.py`, `config.py`; the modules `_validation.py`,
`failure.py` and `random.py` are not among the sources and the parts of
them that decide a claim are modelled from the specification, as marked).

Data frames are embedded as lists of rows; a row is an association list
from column names to nullable cells.  Polars `with_columns` replaces an
existing column of the same name, which the embedding mirrors by reading
the *last* binding of a name in a row.
-/

namespace Dataframely

/-- A subset of the polars data types, sufficient for the development. -/
inductive DType
  | int
  | str
  | boolean
deriving DecidableEq, Repr

/-- A non-null value stored in a cell of a data frame. -/
inductive Val
  | int (i : Int)
  | str (s : String)
  | bool (b : Bool)
deriving DecidableEq, Repr

/-- The data type of a value. -/
def Val.dtype : Val → DType
  | .int _ => .int
  | .str _ => .str
  | .bool _ => .boolean

/-- A cell of a data frame; `none` is the polars `null`. -/
abbrev Cell := Option Val

/-- Read a cell of a boolean column. -/
def cellBool : Cell → Option Bool
  | some (.bool b) => some b
  | _ => none

/-- A row of a data frame: an association list from column names to cells.
Later bindings shadow earlier ones (polars `with_columns` replaces columns). -/
abbrev Row := List (String × Cell)

/-- The last binding of a column in a row, or `none` if the column is absent.
Polars distinguishes a missing column from a null cell; the embedding checks
column presence separately where the distinction matters. -/
def getCol (r : Row) (name : String) : Cell :=
  (List.lookup name r.reverse).getD none

/-- Whether a row has a binding for the given column. -/
def hasCol (r : Row) (n : String) : Bool :=
  r.any (fun p => p.1 == n)

/-- Drop all columns with one of the given names from a row. -/
def dropCols (r : Row) (names : List String) : Row :=
  r.filter (fun p => !(names.contains p.1))

/-- A data frame: a schema (column names with data types, in order) and rows. -/
structure Frame where
  schema : List (String × DType)
  rows : List Row

/-- String suffix test, used for the `"|dtype"` and `"__orig_null__"` name
patterns that `Schema._filter_raw` matches with `name.endswith` / regexes. -/
def strEndsWith (s sfx : String) : Bool :=
  decide (sfx.data <:+ s.data)

/-! ### Rules (`_rule.py`)

`Rule` wraps either a precomputed expression or a lazy validation function;
`GroupRule` additionally carries the columns to group by.  A polars
expression in row context is embedded as a function of the whole frame
(the evaluation context, needed e.g. for `is_duplicated`) and the row; an
expression in aggregation context is a function of the rows of one group.
A lazy validation function cannot be resolved without a schema class; all
call sites relevant here pass no schema class, so lazy rules only need a
marker. -/

inductive Rule
  | simple (expr : List Row → Row → Option Bool)
  | group (groupColumns : List String) (agg : List Row → Option Bool)
  | lazySimple
  | lazyGroup (groupColumns : List String)

/-- Whether the rule is backed by a lazy validation function rather than an
expression (`not isinstance(rule.expr_or_validation_fn, pl.Expr)`). -/
def Rule.isLazy : Rule → Bool
  | .lazySimple => true
  | .lazyGroup _ => true
  | _ => false

/-- The group columns of a `GroupRule`, `none` for simple rules. -/
def Rule.groupColumnsOf : Rule → Option (List String)
  | .group cols _ => some cols
  | .lazyGroup cols => some cols
  | _ => none

/-! ### Rule evaluation (`_rule.with_evaluation_rules`) -/

/-- Whether two rows agree on all of the given columns.  This is the join /
group-by key equality of `_with_group_rules`; the join is performed with
`nulls_equal=True`, so null cells compare equal. -/
def sameGroup (cols : List String) (r1 r2 : Row) : Bool :=
  cols.all (fun c => getCol r1 c == getCol r2 c)

/-- The rows of the frame belonging to the same group as `r` (the group-by
bucket of `r`, in frame order, as polars `group_by` collects them). -/
def groupRows (cols : List String) (rows : List Row) (r : Row) : List Row :=
  rows.filter (fun r2 => sameGroup cols r2 r)

/-- A named aggregation expression with its `fill_null(True)` already applied
(`_with_group_rules` fills immediately after aggregation: a null aggregate
counts as valid). -/
abbrev GroupAgg := String × (List Row → Bool)

/-- Add a group rule to the bucket of rules sharing the same *set* of group
columns (the source keys the buckets by `frozenset(rule.group_columns)`). -/
def addToBuckets (bs : List (List String × List GroupAgg)) (cols : List String)
    (item : GroupAgg) : List (List String × List GroupAgg) :=
  match bs with
  | [] => [(cols, [item])]
  | (c, items) :: rest =>
    if c.toFinset = cols.toFinset then (c, items ++ [item]) :: rest
    else (c, items) :: addToBuckets rest cols item

/-- Partition the group rules by their set of group columns, minimizing the
number of `group_by` calls and joins.  Lazy group rules are skipped because
no schema class is supplied at the relevant call sites. -/
def bucketGroupRules (rules : List (String × Rule)) :
    List (List String × List GroupAgg) :=
  rules.foldl
    (fun bs nr =>
      match nr.2 with
      | .group cols agg => addToBuckets bs cols (nr.1, fun rs => (agg rs).getD true)
      | _ => bs)
    []

/-- The cells appended to row `r` by the sequence of `group_by` + left-join
operations of `_with_group_rules`: one boolean column per group rule.  The
left join is on the group columns with `nulls_equal=True`; since the joined
frame is the `group_by` aggregation of the same frame, every row finds
exactly one matching group, so the join preserves row count and order and
the appended cell is the (null-filled) aggregate of the row's own group. -/
def enrichGroup (rows : List Row) (rules : List (String × Rule)) (r : Row) : Row :=
  r ++ (bucketGroupRules rules).flatMap
    (fun b => b.2.map (fun na =>
      (na.1, (some (Val.bool (na.2 (groupRows b.1 rows r))) : Cell))))

/-- Embedding of `_rule._with_group_rules`. -/
def withGroupRules (rows : List Row) (rules : List (String × Rule)) : List Row :=
  rows.map (enrichGroup rows rules)

/-- The simple (row-wise) rules that resolve to an expression; lazy simple
rules are omitted because no schema class is supplied at the call sites. -/
def simpleExprs (rules : List (String × Rule)) :
    List (String × (List Row → Row → Option Bool)) :=
  rules.filterMap (fun nr =>
    match nr.2 with
    | .simple e => some (nr.1, e)
    | _ => none)

/-- The cells appended to a row of the group-joined frame by the final
`with_columns` of `with_evaluation_rules`: one boolean column per simple
rule, with `fill_null(True)` applied (a null row-rule result is valid). -/
def enrichSimple (joined : List Row) (rules : List (String × Rule)) (r : Row) : Row :=
  r ++ (simpleExprs rules).map (fun ne =>
    (ne.1, (some (Val.bool ((ne.2 joined r).getD true)) : Cell)))

/-- Embedding of `_rule.with_evaluation_rules` (called without a schema
class, as `Schema._filter_raw` does): group rules are evaluated by
group-by + aggregate + left join, then the simple rule columns are added. -/
def withEvaluationRules (rows : List Row) (rules : List (String × Rule)) : List Row :=
  let joined := withGroupRules rows rules
  joined.map (enrichSimple joined rules)

/-! ### Column and schema validation (`schema.Schema._validate_schema`) -/

/-- Errors of the structural schema check (the `ValidationError` hierarchy of
`exc.py` raised by `_validation.py`). -/
inductive SchemaError
  | missingColumns (cols : List String)
  | dtypeMismatch (cols : List String)
  | columnNotFound (cols : List String)
deriving DecidableEq, Repr

/-- The projection of a row onto the given columns, in the given order. -/
def projRow (names : List String) (r : Row) : Row :=
  names.map (fun n => (n, getCol r n))

/-- Modelled from the spec: `_validation.validate_columns` is not among the
sources.  Per §4.3 step 1, it confirms that every expected column is present
(raising a structural error otherwise) and silently drops extra columns.
The surviving rows keep only the expected columns, in schema order. -/
def validateColumns (expected : List String) (f : Frame) : Except SchemaError Frame :=
  let missing := expected.filter (fun n => (f.schema.lookup n).isNone)
  if missing.isEmpty then
    .ok ⟨expected.map (fun n => (n, (f.schema.lookup n).getD .int)),
         f.rows.map (projRow expected)⟩
  else .error (.missingColumns missing)

/-- The `DtypeCasting` mode of `_validation.py`: `"none"` or `"lenient"`. -/
inductive DtypeCasting
  | nocast
  | lenient
deriving DecidableEq

/-- An abstract best-effort cast of a single value between data types.
Modelled from the spec: the column-type system is an external collaborator
and §4.3 step 2 only requires that casts that are not representable become
null.  The embedding is parameterized over this function. -/
abbrev CastFn := DType → DType → Val → Option Val

/-- Lenient cast of a cell: a cast to the column's own dtype is the
identity, any other cast is best-effort per value, and a null cell stays
null (so a changed null-mask means "cast failed"). -/
def castCell (castFn : CastFn) (src dst : DType) (c : Cell) : Cell :=
  if src = dst then c else c.bind (castFn src dst)

/-- The lenient cast of a single cell of column `n`: expected columns are
cast from their actual to their expected dtype, other columns (the
null-mask snapshots) are untouched. -/
def castLookup (castFn : CastFn) (schema expected : List (String × DType))
    (n : String) (c : Cell) : Cell :=
  match expected.lookup n with
  | some dst => castCell castFn ((schema.lookup n).getD dst) dst c
  | none => c

/-- Modelled from the spec: `_validation.validate_dtypes` is not among the
sources.  With casting `"none"` it fails fast listing every column whose
dtype mismatches the expected dtype; with `"lenient"` it casts every
expected column best-effort (unconvertible values become null) and leaves
other columns (the null-mask snapshots) untouched. -/
def validateDtypes (castFn : CastFn) (expected : List (String × DType))
    (casting : DtypeCasting) (f : Frame) : Except SchemaError Frame :=
  match casting with
  | .nocast =>
    let bad := expected.filter (fun nd => (f.schema.lookup nd.1) ≠ some nd.2)
    if bad.isEmpty then .ok f else .error (.dtypeMismatch (bad.map (·.1)))
  | .lenient =>
    .ok ⟨f.schema.map (fun nd => (nd.1, (expected.lookup nd.1).getD nd.2)),
         f.rows.map (fun r => r.map (fun p =>
           (p.1, castLookup castFn f.schema expected p.1 p.2)))⟩

/-- Suffix of the null-mask snapshot columns (`_ORIGINAL_NULL_SUFFIX`). -/
def origNullSuffix : String := "__orig_null__"

/-- The null-mask snapshot columns of a row. -/
def origNullCells (colNames : List String) (r : Row) : Row :=
  colNames.map (fun n =>
    (n ++ origNullSuffix, (some (Val.bool (getCol r n).isNone) : Cell)))

/-- Keep the original null-mask of each schema column around as suffixed
boolean marker columns (`Schema._validate_schema`, lenient branch). -/
def addOrigNullCols (colNames : List String) (f : Frame) : Frame :=
  ⟨f.schema ++ colNames.map (fun n => (n ++ origNullSuffix, DType.boolean)),
   f.rows.map (fun r => r ++ origNullCells colNames r)⟩

/-- Embedding of `Schema._validate_schema`: column check, null-mask snapshot
when casting leniently, then the dtype check / cast. -/
def validateSchema (castFn : CastFn) (columns : List (String × DType))
    (casting : DtypeCasting) (f : Frame) : Except SchemaError Frame :=
  match validateColumns (columns.map (·.1)) f with
  | .error e => .error e
  | .ok f1 =>
    let f2 := if casting = .lenient then addOrigNullCols (columns.map (·.1)) f1 else f1
    validateDtypes castFn columns casting f2

/-! ### Filtering (`schema.Schema._filter_raw` and `Schema.filter`) -/

/-- Polars equality of two cells: null if either operand is null. -/
def polarsEq (a b : Cell) : Option Bool :=
  match a, b with
  | some x, some y => some (x == y)
  | _, _ => none

/-- Name of the synthesized dtype-cast-success rule for a column. -/
def dtypeRuleName (c : String) : String := c ++ "|dtype"

/-- The synthesized `"<col>|dtype"` rules of `_filter_raw`: true iff the
null-ness of the column did not change during lenient casting
(`pl.col(col).is_null() == pl.col(col + _ORIGINAL_NULL_SUFFIX)`). -/
def dtypeRules (colNames : List String) : List (String × Rule) :=
  colNames.map (fun c =>
    (dtypeRuleName c,
     Rule.simple (fun _ r =>
       polarsEq (some (Val.bool (getCol r c).isNone)) (getCol r (c ++ origNullSuffix)))))

/-- Python `dict.update`: keys already present keep their position with the
new value, new keys are appended in update order. -/
def dictUpdate (base upd : List (String × α)) : List (String × α) :=
  base.map (fun p => (p.1, (upd.lookup p.1).getD p.2)) ++
    upd.filter (fun p => (base.lookup p.1).isNone)

/-- The rule set `_filter_raw` actually evaluates: the given rules, updated
with the synthesized dtype rules when casting (`rules.update(dtype_rules)`;
the source mutates the caller's dict in place, which `Schema.filter` relies
on when listing the rule columns of the failure info). -/
def effectiveRules (colNames : List String) (rules : List (String × Rule))
    (cast : Bool) : List (String × Rule) :=
  if cast then dictUpdate rules (dtypeRules colNames) else rules

/-- Kleene conjunction of two nullable booleans: false dominates, then
null, else true. -/
def kleeneAnd2 (a b : Option Bool) : Option Bool :=
  match a, b with
  | some false, _ => some false
  | _, some false => some false
  | none, _ => none
  | _, none => none
  | _, _ => some true

/-- Kleene conjunction of nullable booleans (polars `all_horizontal`). -/
def kleeneAll : List (Option Bool) → Option Bool
  | [] => some true
  | c :: rest => kleeneAnd2 c (kleeneAll rest)

/-- The `pl.all_horizontal(pl.col(r"^.*\|dtype$"))` condition of
`_filter_raw`: conjunction of all columns whose name ends in `"|dtype"`. -/
def allDtypeCastsValid (r : Row) : Option Bool :=
  kleeneAll ((r.filter (fun p => strEndsWith p.1 "|dtype")).map (fun p => cellBool p.2))

/-- The cast postprocessing of `_filter_raw`: drop the null-mask snapshot
columns, then force every non-dtype rule evaluation to null on rows where
any dtype cast failed (those evaluations are unreliable, and a cast failure
is reported once, not cascaded). -/
def castPostprocess (ruleNames : List String) (rows : List Row) : List Row :=
  let nonDtype := ruleNames.filter (fun n => !(strEndsWith n "|dtype"))
  rows.map (fun r =>
    let kept := r.filter (fun p => !(strEndsWith p.1 origNullSuffix))
    kept ++ nonDtype.map (fun n =>
      (n, if allDtypeCastsValid kept = some true then getCol kept n else (none : Cell))))

/-- Fill a null rule evaluation with `true` (the final-validity conjunction
treats a null rule column as "rule does not apply, assume valid"). -/
def fillNullTrue (c : Cell) : Bool :=
  match c with
  | some (.bool b) => b
  | _ => true

/-- The derived overall-validity value of a row:
`pl.all_horizontal(pl.col(rule_columns).fill_null(True))`. -/
def finalValid (ruleNames : List String) (r : Row) : Bool :=
  ruleNames.all (fun n => fillNullTrue (getCol r n))

/-- Name of the derived overall-validity column. -/
def finalValidName : String := "__final_valid__"

/-- The evaluated frame built by `_filter_raw`: the validated rows with one
boolean column per rule (cast postprocessing applied when casting) plus the
derived `__final_valid__` column. -/
def evaluatedFrame (er : List (String × Rule)) (cast : Bool)
    (lfRows : List Row) : List Row :=
  let we := withEvaluationRules lfRows er
  let we := if cast then castPostprocess (er.map (·.1)) we else we
  we.map (fun r =>
    r ++ [(finalValidName, (some (Val.bool (finalValid (er.map (·.1)) r)) : Cell))])

/-- The valid partition of the evaluated frame: rows whose
`__final_valid__` is true, with the validity and rule columns dropped. -/
def validSubset (ruleNames : List String) (evaluated : List Row) : List Row :=
  (evaluated.filter (fun r => getCol r finalValidName == some (Val.bool true))).map
    (fun r => dropCols r (finalValidName :: ruleNames))

/-- Embedding of `Schema._filter_raw`.  Returns the valid subset and, when
any rule was evaluated, the full evaluated frame (original columns plus one
boolean column per rule plus `__final_valid__`).  An unresolved lazy rule
has no materialized column, so selecting its rule column raises at collect
time (polars `ColumnNotFoundError`), embedded as the `columnNotFound` error. -/
def filterRaw (castFn : CastFn) (columns : List (String × DType))
    (rules : List (String × Rule)) (f : Frame) (cast : Bool) :
    Except SchemaError (List Row × Option (List Row)) :=
  match validateSchema castFn columns (if cast then .lenient else .nocast) f with
  | .error e => .error e
  | .ok lf =>
    let er := effectiveRules (columns.map (·.1)) rules cast
    if er.isEmpty then .ok (lf.rows, none)
    else if !(er.filter (fun nr => nr.2.isLazy)).isEmpty then
      .error (.columnNotFound ((er.filter (fun nr => nr.2.isLazy)).map (·.1)))
    else
      let evaluated := evaluatedFrame er cast lf.rows
      .ok (validSubset (er.map (·.1)) evaluated, some evaluated)

/-- The failure info handle: the failing rows with their original data and
per-rule outcome columns, plus the ordered rule column names. -/
structure FailureInfo where
  rows : List Row
  ruleColumns : List String

/-- Embedding of `Schema.filter`: split `_filter_raw`'s evaluated frame
into the valid subset and the failure info (rows with
`__final_valid__ == false`, rule columns intact, validity column dropped). -/
def filterMethod (castFn : CastFn) (columns : List (String × DType))
    (rules : List (String × Rule)) (f : Frame) (cast : Bool) :
    Except SchemaError (List Row × FailureInfo) :=
  match filterRaw castFn columns rules f cast with
  | .error e => .error e
  | .ok (dfFiltered, some ev) =>
    let failureRows := (ev.filter
        (fun r => getCol r finalValidName == some (Val.bool false))).map
      (fun r => dropCols r [finalValidName])
    .ok (dfFiltered, ⟨failureRows, (effectiveRules (columns.map (·.1)) rules cast).map (·.1)⟩)
  | .ok (dfFiltered, none) => .ok (dfFiltered, ⟨[], []⟩)

/-- Whether a failing row failed the given rule (its outcome column holds
`false`; a null outcome is "rule inapplicable", not a failure). -/
def rowFails (r : Row) (n : String) : Bool :=
  getCol r n == some (Val.bool false)

/-- Modelled from the spec: `failure.py` is not among the sources.  Per
§4.4, `counts()` maps each rule name to the number of rows where that rule
evaluated false; rules that no row failed are not reported. -/
def FailureInfo.counts (fi : FailureInfo) : List (String × Nat) :=
  (fi.ruleColumns.map (fun n => (n, fi.rows.countP (fun r => rowFails r n)))).filter
    (fun p => p.2 ≠ 0)

/-- The exact set of rules a failing row failed, canonically ordered by the
rule column order. -/
def failingRuleSet (ruleColumns : List String) (r : Row) : List String :=
  ruleColumns.filter (fun n => rowFails r n)

/-- Modelled from the spec: `failure.py` is not among the sources.  Per
§4.4, `cooccurrence_counts()` groups the failing rows by their exact set of
simultaneously-failing rules. -/
def FailureInfo.cooccurrenceCounts (fi : FailureInfo) : List (List String × Nat) :=
  ((fi.rows.map (failingRuleSet fi.ruleColumns)).dedup).map
    (fun s => (s, fi.rows.countP (fun r => failingRuleSet fi.ruleColumns r == s)))

/-- Failure of `Schema.validate`: either the structural schema check failed
or at least one row failed a rule (`RuleValidationError(failures.counts())`). -/
inductive ValidationFailure
  | schema (e : SchemaError)
  | rules (counts : List (String × Nat))

/-- Embedding of `Schema.validate`: dispatch to `filter` and raise iff any
row could not be validated, passing the per-rule failure counts. -/
def validateMethod (castFn : CastFn) (columns : List (String × DType))
    (rules : List (String × Rule)) (f : Frame) (cast : Bool) :
    Except ValidationFailure (List Row) :=
  match filterMethod castFn columns rules f cast with
  | .error e => .error (.schema e)
  | .ok (dfValid, failures) =>
    if failures.rows.length > 0 then .error (.rules failures.counts)
    else .ok dfValid

/-! ### Schema definition (`_base_schema.py`) -/

/-- A column specification, as consumed from the external column-type
collaborator (§6 of the spec): a dtype, a primary-key flag, named
validation-rule expressions over the column (each receives the column's
cells in frame order as context plus the cell of the current row), and a
random sampler (a function of a sampling round and a row count; the round
models the advancing state of the random generator). -/
structure Column where
  dtype : DType
  primaryKey : Bool
  validationRules : List (String × (List Cell → Cell → Option Bool))
  sampler : Nat → Nat → List Cell

/-- The primary key columns of a schema, in declaration order. -/
def primaryKeys (columns : List (String × Column)) : List String :=
  (columns.filter (fun nc => nc.2.primaryKey)).map (·.1)

/-- The synthesized primary-key rule:
`~pl.struct(primary_keys).is_duplicated()` — a row is valid iff the tuple
of its primary-key cells occurs exactly once in the frame. -/
def primaryKeyRule (pks : List String) : Rule :=
  .simple (fun ctx r => some (!(decide (2 ≤ ctx.countP (fun r2 => sameGroup pks r2 r)))))

/-- Name of a per-column validation rule in the compiled rule set. -/
def columnRuleName (c r : String) : String := c ++ "|" ++ r

/-- The per-column rules contributed by each column's validation-rule
generator, named `"<column>|<rule>"`. -/
def columnRules (columns : List (String × Column)) : List (String × Rule) :=
  columns.flatMap (fun nc =>
    nc.2.validationRules.map (fun nr =>
      (columnRuleName nc.1 nr.1,
       Rule.simple (fun ctx r => nr.2 (ctx.map (fun r2 => getCol r2 nc.1)) (getCol r nc.1)))))

/-- Embedding of `_base_schema._build_rules`: the custom rules (copied, the
caller's mapping is never mutated), the synthesized `primary_key` rule when
any primary-key column exists, and the per-column rules. -/
def buildRules (custom : List (String × Rule)) (columns : List (String × Column)) :
    List (String × Rule) :=
  let rules := custom
  let rules :=
    if (primaryKeys columns).isEmpty then rules
    else dictUpdate rules [("primary_key", primaryKeyRule (primaryKeys columns))]
  dictUpdate rules (columnRules columns)

/-- The `ImplementationError`s raised by `SchemaMeta.__new__` at schema
definition time. -/
inductive ImplError
  | reservedRuleName
  | nameCollision (names : List String)
  | badGroupRule (rule : String) (missing : List String)
deriving DecidableEq, Repr

/-- Embedding of the definition-time consistency checks of
`SchemaMeta.__new__` (with the reserved-name check that
`SchemaMeta._get_metadata` performs while collecting the class body):
a custom rule must not be named `primary_key`, column names must not
collide with any rule name (including the forced `"<col>|dtype"` names),
and group rules may only reference columns of the schema. -/
def checkSchemaDefinition (columns : List (String × Column))
    (custom : List (String × Rule)) : Except ImplError Unit :=
  if custom.any (fun nr => nr.1 == "primary_key") then
    .error .reservedRuleName
  else
    let colNames := columns.map (·.1)
    let allRuleNames :=
      (buildRules custom columns).map (·.1) ++ colNames.map dtypeRuleName
    let common := colNames.filter (fun n => allRuleNames.contains n)
    if !common.isEmpty then
      .error (.nameCollision common)
    else
      match custom.findSome? (fun nr =>
        match nr.2.groupColumnsOf with
        | some gcols =>
          let missing := gcols.filter (fun c => !(colNames.contains c))
          if missing.isEmpty then none else some (nr.1, missing)
        | none => none) with
      | some nm => .error (.badGroupRule nm.1 nm.2)
      | none => .ok ()

/-! ### Fuzzy sampling (`schema.Schema.sample` and `Schema._sample_filter`) -/

/-- The default `max_sampling_iterations` of `config.default_options`. -/
def defaultMaxSamplingIterations : Nat := 10000

/-- The message of the resource-exhaustion error raised by `Schema.sample`
when the iteration budget is exceeded. -/
def exhaustedMessage (maxIter : Nat) : String :=
  "Sampling exceeded " ++ toString maxIter ++ " iterations. Consider increasing " ++
  "the maximum number of sampling iterations via `dy.Config` or implement " ++
  "your custom sampling logic. Alternatively, passing predefined value to " ++
  "`overrides` or implementing `_sampling_overrides` for your schema can " ++
  "also help the sampling procedure find a valid data frame."

/-- The `ValueError`s / propagated failures of `Schema.sample`. -/
inductive SampleError
  | invalidOverrides (extra : List String)
  | numRowsMismatch
  | exhausted (message : String)
  | schemaFailure (e : SchemaError)

/-- Name of the synthetic row index tagged onto the user overrides. -/
def rowIndexName : String := "__row_index__"

/-- Filter a list by a positional boolean mask, as polars
`DataFrame.filter` does when given a boolean series. -/
def maskFilter (l : List α) (mask : List Bool) : List α :=
  ((l.zip mask).filter (fun p => p.2)).map (·.1)

/-- The frame sampled by one round of `_sample_filter`: for every schema
column not covered by a remaining override, `k` fresh values from the
column's sampler; covered columns reuse the remaining override values
verbatim. -/
def sampledRows (columns : List (String × Column)) (ovCols : List String)
    (round k : Nat) (remaining : List Row) : List Row :=
  (List.range k).map (fun j =>
    columns.map (fun nc =>
      (nc.1,
       if ovCols.contains nc.1 then getCol (remaining.getD j []) nc.1
       else (nc.2.sampler round k).getD j none)))

/-- The frame handed to `filter` by the sampler, with the schema's declared
dtypes (the sampled values are correctly typed by construction). -/
def mkFrame (columns : List (String × Column)) (rows : List Row) : Frame :=
  ⟨columns.map (fun nc => (nc.1, nc.2.dtype)), rows⟩

/-- Embedding of `Schema._sample_filter`: sample the shortfall, concatenate
with the previous result, filter with `cast=False` (`_sampling_overrides`
is the base-class default, i.e. no pre-processing), and split the override
bookkeeping by the same validity mask. -/
def sampleFilterStep (castFn : CastFn) (columns : List (String × Column))
    (custom : List (String × Rule)) (ovCols : List String) (round k : Nat)
    (previous used remaining : List Row) :
    Except SchemaError (List Row × List Row × List Row) :=
  match filterRaw castFn (columns.map (fun nc => (nc.1, nc.2.dtype)))
      (buildRules custom columns)
      (mkFrame columns (previous ++ sampledRows columns ovCols round k remaining))
      false with
  | .error e => .error e
  | .ok (filtered, none) => .ok (filtered, remaining, [])
  | .ok (filtered, some ev) =>
    if (used ++ remaining).length = 0 then
      .ok (filtered, used ++ remaining, used ++ remaining)
    else
      .ok (filtered,
        maskFilter (used ++ remaining) (ev.map
          (fun q => getCol q finalValidName == some (Val.bool true))),
        maskFilter (used ++ remaining) ((ev.map
          (fun q => getCol q finalValidName == some (Val.bool true))).map (!·)))

/-- The retry loop of `Schema.sample`: stop as soon as the accumulated
result reaches the target row count; otherwise raise the exhaustion error
once the iteration counter reaches the configured maximum, else run one
more sampling round.  The fuel is the number of rounds the counter still
allows, so the recursion is structural. -/
def sampleWhileLoop (castFn : CastFn) (columns : List (String × Column))
    (custom : List (String × Rule)) (ovCols : List String)
    (numRows maxIter : Nat) :
    Nat → Nat → List Row → List Row → List Row →
    Except SampleError (List Row × List Row)
  | 0, _rounds, result, used, _remaining =>
    if result.length = numRows then .ok (result, used)
    else .error (.exhausted (exhaustedMessage maxIter))
  | fuel' + 1, rounds, result, used, remaining =>
    if result.length = numRows then .ok (result, used)
    else
      match sampleFilterStep castFn columns custom ovCols rounds
          (numRows - result.length) result used remaining with
      | .error e => .error (.schemaFailure e)
      | .ok (r, u, rem) =>
        sampleWhileLoop castFn columns custom ovCols numRows maxIter
          fuel' (rounds + 1) r u rem

/-- Comparison key used when restoring the override order: the synthetic
integer row index. -/
def cellIdx : Cell → Int
  | some (.int i) => i
  | _ => 0

/-- The reordering at the end of `Schema.sample`: horizontally attach the
used overrides' row indexes to the result, sort by the index and drop it. -/
def restoreOverrideOrder (result used : List Row) : List Row :=
  if used.length > 0 then
    (List.insertionSort (fun p q : Row × Cell => cellIdx p.2 ≤ cellIdx q.2)
      (result.zip (used.map (fun r => getCol r rowIndexName)))).map (·.1)
  else result

/-- The sampling loop of `Schema.sample` after the precondition checks: the
initial `_sample_filter` call, the retry loop, and the override re-ordering. -/
def sampleRun (castFn : CastFn) (columns : List (String × Column))
    (custom : List (String × Rule)) (ovCols : List String)
    (maxIter numRows : Nat) (values : List Row) :
    Except SampleError (List Row) :=
  match sampleFilterStep castFn columns custom ovCols 0 numRows [] [] values with
  | .error e => .error (.schemaFailure e)
  | .ok (result0, used0, remaining0) =>
    match sampleWhileLoop castFn columns custom ovCols numRows maxIter
        (maxIter - 1) 1 result0 used0 remaining0 with
    | .error e => .error e
    | .ok (result, used) => .ok (restoreOverrideOrder result used)

/-- Embedding of `Schema.sample`.  Overrides are given as the list of
override column names together with the override rows (the `values` data
frame); `maxIter` is `Config.options["max_sampling_iterations"]`.  On
success the result is re-ordered to the caller's override order via the
synthetic row index. -/
def sample (castFn : CastFn) (columns : List (String × Column))
    (custom : List (String × Rule)) (maxIter : Nat)
    (numRowsArg : Option Nat)
    (overrides : Option (List String × List Row)) :
    Except SampleError (List Row) :=
  match overrides with
  | some ov =>
    if !(ov.1.filter (fun c => !((columns.map (·.1)).contains c))).isEmpty then
      .error (.invalidOverrides (ov.1.filter (fun c => !((columns.map (·.1)).contains c))))
    else if numRowsArg.any (fun n => n ≠ ov.2.length) then .error .numRowsMismatch
    else
      sampleRun castFn columns custom ov.1 maxIter ov.2.length
        (ov.2.enum.map (fun ir =>
          (rowIndexName, (some (Val.int ir.1) : Cell)) :: ir.2))
  | none =>
    sampleRun castFn columns custom [] maxIter (numRowsArg.getD 1) []

/-! ## Lemmas about rows -/

theorem lookup_append_cell (n : String) (l1 l2 : List (String × Cell)) :
    List.lookup n (l1 ++ l2) =
      if (List.lookup n l1).isSome then List.lookup n l1 else List.lookup n l2 := by
  induction l1 with
  | nil => simp
  | cons p l ih =>
    rcases p with ⟨k, c⟩
    by_cases h : n = k
    · subst h; simp [List.lookup_cons]
    · have hk : (n == k) = false := by simpa using h
      simp only [List.cons_append, List.lookup_cons, hk]
      exact ih

theorem isSome_lookup_eq_hasCol (n : String) (l : List (String × Cell)) :
    (List.lookup n l).isSome = hasCol l n := by
  induction l with
  | nil => simp [hasCol]
  | cons p l ih =>
    rcases p with ⟨k, c⟩
    by_cases h : n = k
    · subst h; simp [hasCol, List.lookup_cons]
    · have hk : (n == k) = false := by simpa using h
      have hk2 : (k == n) = false := by simpa using Ne.symm h
      simp [hasCol, List.lookup_cons, hk, hk2] at ih ⊢
      exact ih

theorem hasCol_reverse (r : Row) (n : String) : hasCol r.reverse n = hasCol r n := by
  simp [hasCol, List.any_reverse]

theorem getCol_append (r s : Row) (n : String) :
    getCol (r ++ s) n = if hasCol s n then getCol s n else getCol r n := by
  unfold getCol
  rw [List.reverse_append, lookup_append_cell, isSome_lookup_eq_hasCol, hasCol_reverse]
  by_cases h : hasCol s n <;> simp [h]

theorem getCol_append_of_hasCol {s : Row} {n : String} (h : hasCol s n = true)
    (r : Row) : getCol (r ++ s) n = getCol s n := by
  rw [getCol_append, h]; rfl

theorem getCol_append_of_not_hasCol {s : Row} {n : String} (h : hasCol s n = false)
    (r : Row) : getCol (r ++ s) n = getCol r n := by
  rw [getCol_append, h]; rfl

theorem getCol_append_single (r : Row) (n : String) (c : Cell) :
    getCol (r ++ [(n, c)]) n = c := by
  rw [getCol_append_of_hasCol (by simp [hasCol])]
  simp [getCol]

theorem getCol_append_single_ne {m n : String} (h : m ≠ n) (r : Row) (c : Cell) :
    getCol (r ++ [(n, c)]) m = getCol r m := by
  refine getCol_append_of_not_hasCol ?_ r
  simp [hasCol, Ne.symm h]

theorem lookup_map_pairs (n : String) (f : String → Cell) (l : List String) :
    List.lookup n (l.map (fun m => (m, f m))) =
      if n ∈ l then some (f n) else none := by
  induction l with
  | nil => simp
  | cons k l ih =>
    by_cases h : n = k
    · subst h; simp [List.lookup_cons]
    · have hk : (n == k) = false := by simpa using h
      simp [List.lookup_cons, hk, ih, h]

theorem getCol_map_names (names : List String) (f : String → Cell) (n : String) :
    getCol (names.map (fun m => (m, f m))) n = if n ∈ names then f n else none := by
  unfold getCol
  rw [← List.map_reverse, lookup_map_pairs]
  by_cases h : n ∈ names <;> simp [h]

theorem getCol_projRow (names : List String) (r : Row) (n : String) :
    getCol (projRow names r) n = if n ∈ names then getCol r n else none :=
  getCol_map_names names _ n

theorem hasCol_append (r s : Row) (n : String) :
    hasCol (r ++ s) n = (hasCol r n || hasCol s n) := by
  simp [hasCol]

theorem hasCol_map_names (names : List String) (f : String → Cell) (n : String) :
    hasCol (names.map (fun m => (m, f m))) n = decide (n ∈ names) := by
  induction names with
  | nil => simp [hasCol]
  | cons k l ih =>
    by_cases h : k = n
    · subst h; simp [hasCol]
    · have hk : (k == n) = false := by simpa using h
      have hn : ¬ n = k := fun hh => h hh.symm
      simp only [List.map_cons, hasCol, List.any_cons, hk, Bool.false_or, hn] at ih ⊢
      simp [ih, hn]

theorem lookup_filter_keep {n : String} {p : String × Cell → Bool}
    (l : List (String × Cell)) (h : ∀ c, p (n, c) = true) :
    List.lookup n (l.filter p) = List.lookup n l := by
  induction l with
  | nil => simp
  | cons q l ih =>
    rcases q with ⟨k, c⟩
    by_cases hk : n = k
    · subst hk; simp [List.filter_cons, h c, List.lookup_cons]
    · have hkb : (n == k) = false := by simpa using hk
      by_cases hp : p (k, c) = true
      · simp [List.filter_cons, hp, List.lookup_cons, hkb, ih]
      · simp only [Bool.not_eq_true] at hp
        simp [List.filter_cons, hp, List.lookup_cons, hkb, ih]

theorem getCol_dropCols_of_not_mem {n : String} {names : List String}
    (h : n ∉ names) (r : Row) :
    getCol (dropCols r names) n = getCol r n := by
  unfold getCol dropCols
  rw [← List.filter_reverse]
  rw [lookup_filter_keep]
  intro c
  simp [h]

theorem dropCols_append (r s : Row) (names : List String) :
    dropCols (r ++ s) names = dropCols r names ++ dropCols s names := by
  simp [dropCols, List.filter_append]

theorem dropCols_eq_self {r : Row} {names : List String}
    (h : ∀ p ∈ r, ¬ names.contains p.1) : dropCols r names = r := by
  unfold dropCols
  rw [List.filter_eq_self]
  intro p hp
  simpa using h p hp

theorem dropCols_eq_nil {r : Row} {names : List String}
    (h : ∀ p ∈ r, names.contains p.1) : dropCols r names = [] := by
  unfold dropCols
  rw [List.filter_eq_nil_iff]
  intro p hp
  simpa using h p hp

theorem length_filter_bool_split (l : List α) (q : α → Bool) :
    (l.filter q).length + (l.filter (fun a => !(q a))).length = l.length :=
  (List.length_eq_length_filter_add q).symm

theorem lookup_map_valfun (g : String → Cell → Cell) (l : List (String × Cell))
    (n : String) :
    List.lookup n (l.map (fun p => (p.1, g p.1 p.2))) =
      (List.lookup n l).map (g n) := by
  induction l with
  | nil => simp
  | cons p l ih =>
    rcases p with ⟨k, c⟩
    by_cases h : n = k
    · subst h; simp [List.lookup_cons]
    · have hk : (n == k) = false := by simpa using h
      simp [List.lookup_cons, hk, ih]

theorem getCol_map_valfun (g : String → Cell → Cell) (r : Row) (n : String) :
    getCol (r.map (fun p => (p.1, g p.1 p.2))) n =
      if hasCol r n then g n (getCol r n) else none := by
  unfold getCol
  rw [← List.map_reverse, lookup_map_valfun]
  have hs : (List.lookup n r.reverse).isSome = hasCol r n := by
    rw [isSome_lookup_eq_hasCol, hasCol_reverse]
  cases hl : List.lookup n r.reverse with
  | none => rw [hl] at hs; simp [← hs]
  | some c => rw [hl] at hs; simp [← hs]

/-! ## Lemmas about the validation pipeline -/

theorem validateColumns_ok_rows {expected : List String} {f lf : Frame}
    (h : validateColumns expected f = .ok lf) :
    lf.rows = f.rows.map (projRow expected) := by
  unfold validateColumns at h
  dsimp only at h
  split at h
  · cases h; rfl
  · exact absurd h (by simp)

theorem validateDtypes_nocast_ok {castFn : CastFn} {expected : List (String × DType)}
    {f lf : Frame} (h : validateDtypes castFn expected .nocast f = .ok lf) :
    lf = f := by
  unfold validateDtypes at h
  dsimp only at h
  split at h
  · cases h; rfl
  · exact absurd h (by simp)

theorem validateDtypes_lenient_rows {castFn : CastFn} {expected : List (String × DType)}
    {f lf : Frame} (h : validateDtypes castFn expected .lenient f = .ok lf) :
    lf.rows = f.rows.map (fun r => r.map (fun p =>
      (p.1, castLookup castFn f.schema expected p.1 p.2))) := by
  unfold validateDtypes at h
  cases h; rfl

theorem validateSchema_nocast_rows {castFn : CastFn} {cols : List (String × DType)}
    {f lf : Frame} (h : validateSchema castFn cols .nocast f = .ok lf) :
    lf.rows = f.rows.map (projRow (cols.map (·.1))) := by
  unfold validateSchema at h
  split at h
  · exact absurd h (by simp)
  · next f1 heq =>
    rw [if_neg (by simp)] at h
    rw [validateDtypes_nocast_ok h]
    exact validateColumns_ok_rows heq

theorem validateSchema_lenient_rows {castFn : CastFn} {cols : List (String × DType)}
    {f lf : Frame} (h : validateSchema castFn cols .lenient f = .ok lf) :
    ∃ schemaMid : List (String × DType),
      lf.rows = f.rows.map (fun r0 =>
        (projRow (cols.map (·.1)) r0 ++
            origNullCells (cols.map (·.1)) (projRow (cols.map (·.1)) r0)).map
          (fun p => (p.1, castLookup castFn schemaMid cols p.1 p.2))) := by
  unfold validateSchema at h
  split at h
  · exact absurd h (by simp)
  · next f1 heq =>
    rw [if_pos rfl] at h
    refine ⟨(addOrigNullCols (cols.map (·.1)) f1).schema, ?_⟩
    rw [validateDtypes_lenient_rows h]
    have hrows : (addOrigNullCols (cols.map (·.1)) f1).rows
        = f1.rows.map (fun r => r ++ origNullCells (cols.map (·.1)) r) := rfl
    rw [hrows, validateColumns_ok_rows heq]
    simp [List.map_map]

theorem validateSchema_ok_length {castFn : CastFn} {cols : List (String × DType)}
    {casting : DtypeCasting} {f lf : Frame}
    (h : validateSchema castFn cols casting f = .ok lf) :
    lf.rows.length = f.rows.length := by
  cases casting
  · rw [validateSchema_nocast_rows h]; simp
  · obtain ⟨sm, hr⟩ := validateSchema_lenient_rows h
    rw [hr]; simp

theorem withEvaluationRules_eq_map (rows : List Row) (rules : List (String × Rule)) :
    withEvaluationRules rows rules =
      rows.map (fun r =>
        enrichSimple (withGroupRules rows rules) rules (enrichGroup rows rules r)) := by
  unfold withEvaluationRules withGroupRules
  simp [List.map_map]

theorem length_withEvaluationRules (rows : List Row) (rules : List (String × Rule)) :
    (withEvaluationRules rows rules).length = rows.length := by
  rw [withEvaluationRules_eq_map]; simp

theorem length_castPostprocess (ruleNames : List String) (rows : List Row) :
    (castPostprocess ruleNames rows).length = rows.length := by
  unfold castPostprocess; simp

theorem length_evaluatedFrame (er : List (String × Rule)) (cast : Bool)
    (lfRows : List Row) :
    (evaluatedFrame er cast lfRows).length = lfRows.length := by
  unfold evaluatedFrame
  cases cast <;>
    simp [length_withEvaluationRules, length_castPostprocess]

theorem mem_evaluatedFrame {er : List (String × Rule)} {cast : Bool}
    {lfRows : List Row} {r : Row} (h : r ∈ evaluatedFrame er cast lfRows) :
    ∃ w, r = w ++
      [(finalValidName, (some (Val.bool (finalValid (er.map (·.1)) w)) : Cell))] := by
  unfold evaluatedFrame at h
  simp only [List.mem_map] at h
  obtain ⟨w, hw, rfl⟩ := h
  exact ⟨w, rfl⟩

theorem getCol_finalValid_of_mem {er : List (String × Rule)} {cast : Bool}
    {lfRows : List Row} {r : Row} (h : r ∈ evaluatedFrame er cast lfRows) :
    ∃ b : Bool, getCol r finalValidName = some (Val.bool b) := by
  obtain ⟨w, rfl⟩ := mem_evaluatedFrame h
  exact ⟨_, getCol_append_single _ _ _⟩

/-- Every row of the evaluated frame carries a non-null boolean
`__final_valid__` cell, so the valid/failing split is a partition. -/
theorem evaluatedFrame_partition (er : List (String × Rule)) (cast : Bool)
    (lfRows : List Row) :
    ((evaluatedFrame er cast lfRows).filter
        (fun r => getCol r finalValidName == some (Val.bool true))).length +
      ((evaluatedFrame er cast lfRows).filter
        (fun r => getCol r finalValidName == some (Val.bool false))).length =
      lfRows.length := by
  rw [← length_evaluatedFrame er cast lfRows]
  rw [← length_filter_bool_split (evaluatedFrame er cast lfRows)
    (fun r => getCol r finalValidName == some (Val.bool true))]
  congr 2
  apply List.filter_congr
  intro r hr
  obtain ⟨b, hb⟩ := getCol_finalValid_of_mem hr
  rw [hb]
  cases b <;> rfl

theorem filterRaw_ok_none {castFn : CastFn} {cols : List (String × DType)}
    {rules : List (String × Rule)} {f : Frame} {cast : Bool} {v : List Row}
    (h : filterRaw castFn cols rules f cast = .ok (v, none)) :
    ∃ lf, validateSchema castFn cols (if cast then .lenient else .nocast) f = .ok lf ∧
      (effectiveRules (cols.map (·.1)) rules cast).isEmpty = true ∧ v = lf.rows := by
  unfold filterRaw at h
  split at h
  · exact absurd h (by simp)
  · next lf heq =>
    dsimp only at h
    by_cases he : (effectiveRules (cols.map (·.1)) rules cast).isEmpty
    · rw [if_pos he] at h
      cases h
      exact ⟨lf, heq, he, rfl⟩
    · rw [if_neg he] at h
      split at h
      · exact absurd h (by simp)
      · exact absurd h (by simp)

theorem filterRaw_ok_some {castFn : CastFn} {cols : List (String × DType)}
    {rules : List (String × Rule)} {f : Frame} {cast : Bool} {v ev : List Row}
    (h : filterRaw castFn cols rules f cast = .ok (v, some ev)) :
    ∃ lf, validateSchema castFn cols (if cast then .lenient else .nocast) f = .ok lf ∧
      (effectiveRules (cols.map (·.1)) rules cast).isEmpty = false ∧
      ((effectiveRules (cols.map (·.1)) rules cast).filter
        (fun nr => nr.2.isLazy)).isEmpty = true ∧
      ev = evaluatedFrame (effectiveRules (cols.map (·.1)) rules cast) cast lf.rows ∧
      v = validSubset ((effectiveRules (cols.map (·.1)) rules cast).map (·.1)) ev := by
  unfold filterRaw at h
  split at h
  · exact absurd h (by simp)
  · next lf heq =>
    dsimp only at h
    by_cases he : (effectiveRules (cols.map (·.1)) rules cast).isEmpty
    · rw [if_pos he] at h
      exact absurd h (by simp)
    · rw [if_neg he] at h
      split at h
      · exact absurd h (by simp)
      · next hlazy =>
        cases h
        refine ⟨lf, heq, by simpa using he, by simpa using hlazy, rfl, rfl⟩

theorem filterMethod_ok_cases {castFn : CastFn} {cols : List (String × DType)}
    {rules : List (String × Rule)} {f : Frame} {cast : Bool}
    {valid : List Row} {fi : FailureInfo}
    (h : filterMethod castFn cols rules f cast = .ok (valid, fi)) :
    (filterRaw castFn cols rules f cast = .ok (valid, none) ∧
      fi.rows = [] ∧ fi.ruleColumns = []) ∨
    (∃ ev, filterRaw castFn cols rules f cast = .ok (valid, some ev) ∧
      fi.rows = (ev.filter
        (fun r => getCol r finalValidName == some (Val.bool false))).map
        (fun r => dropCols r [finalValidName]) ∧
      fi.ruleColumns = (effectiveRules (cols.map (·.1)) rules cast).map (·.1)) := by
  unfold filterMethod at h
  split at h
  · exact absurd h (by simp)
  · next dfF ev heq =>
    cases h
    exact .inr ⟨ev, heq, rfl, rfl⟩
  · next dfF heq =>
    cases h
    exact .inl ⟨heq, rfl, rfl⟩

theorem length_validSubset_add (ruleNames : List String)
    (er : List (String × Rule)) (cast : Bool) (lfRows : List Row) :
    (validSubset ruleNames (evaluatedFrame er cast lfRows)).length +
      ((evaluatedFrame er cast lfRows).filter
        (fun r => getCol r finalValidName == some (Val.bool false))).length =
      lfRows.length := by
  unfold validSubset
  rw [List.length_map]
  exact evaluatedFrame_partition er cast lfRows

/-! ## Lemmas about rule evaluation cells -/

theorem lookup_eq_of_mem_nodup {l : List (String × Cell)} {n : String} {c : Cell}
    (hnd : (l.map Prod.fst).Nodup) (h : (n, c) ∈ l) :
    List.lookup n l = some c := by
  induction l with
  | nil => cases h
  | cons p l ih =>
    rcases p with ⟨k, d⟩
    simp only [List.map_cons, List.nodup_cons] at hnd
    rcases List.mem_cons.1 h with heq | hmem
    · cases heq
      simp [List.lookup_cons]
    · have hk : ¬ n = k := by
        intro hnk
        subst hnk
        exact hnd.1 (List.mem_map.2 ⟨(n, c), hmem, rfl⟩)
      have hkb : (n == k) = false := by simpa using hk
      simp [List.lookup_cons, hkb, ih hnd.2 hmem]

theorem getCol_of_mem_nodup {l : List (String × Cell)} {n : String} {c : Cell}
    (hnd : (l.map Prod.fst).Nodup) (h : (n, c) ∈ l) :
    getCol l n = c := by
  unfold getCol
  have hnd2 : (l.reverse.map Prod.fst).Nodup := by
    rw [List.map_reverse]
    exact (List.nodup_reverse).2 hnd
  rw [lookup_eq_of_mem_nodup hnd2 (List.mem_reverse.2 h)]
  rfl

theorem keyval_unique {α : Type _} {l : List (String × α)} {n : String} {v1 v2 : α}
    (hnd : (l.map Prod.fst).Nodup) (h1 : (n, v1) ∈ l) (h2 : (n, v2) ∈ l) :
    v1 = v2 := by
  induction l with
  | nil => cases h1
  | cons p l ih =>
    simp only [List.map_cons, List.nodup_cons] at hnd
    rcases List.mem_cons.1 h1 with he1 | hm1 <;> rcases List.mem_cons.1 h2 with he2 | hm2
    · rw [← he2] at he1
      exact congrArg Prod.snd he1
    · cases he1; exact absurd (List.mem_map.2 ⟨(n, v2), hm2, rfl⟩) hnd.1
    · cases he2; exact absurd (List.mem_map.2 ⟨(n, v1), hm1, rfl⟩) hnd.1
    · exact ih hnd.2 hm1 hm2

/-- The items collected in the group-rule buckets, in bucket order. -/
def bucketItems (bs : List (List String × List GroupAgg)) : List GroupAgg :=
  bs.flatMap (·.2)

/-- The group rules with their `fill_null(True)` aggregates, in rule order. -/
def groupAggList (rules : List (String × Rule)) : List GroupAgg :=
  rules.filterMap (fun nr =>
    match nr.2 with
    | .group _ agg => some (nr.1, fun rs => (agg rs).getD true)
    | _ => none)

theorem addToBuckets_items_perm (bs : List (List String × List GroupAgg))
    (cols : List String) (it : GroupAgg) :
    (bucketItems (addToBuckets bs cols it)).Perm (bucketItems bs ++ [it]) := by
  induction bs with
  | nil => simp [addToBuckets, bucketItems]
  | cons b rest ih =>
    rcases b with ⟨c, items⟩
    unfold addToBuckets
    by_cases hc : c.toFinset = cols.toFinset
    · rw [if_pos hc]
      simp only [bucketItems, List.flatMap_cons, List.append_assoc, List.singleton_append]
      exact (List.perm_append_singleton it _).symm.append_left items
    · rw [if_neg hc]
      simp only [bucketItems, List.flatMap_cons] at ih ⊢
      refine (ih.append_left items).trans ?_
      rw [← List.append_assoc]

theorem addToBuckets_mem {bs : List (List String × List GroupAgg)}
    {cols : List String} {it : GroupAgg} {b : List String × List GroupAgg}
    {x : GroupAgg} (hb : b ∈ addToBuckets bs cols it) (hx : x ∈ b.2) :
    (∃ b0 ∈ bs, b.1 = b0.1 ∧ x ∈ b0.2) ∨
      (x = it ∧ b.1.toFinset = cols.toFinset) := by
  induction bs with
  | nil =>
    simp only [addToBuckets, List.mem_singleton] at hb
    subst hb
    simp only [List.mem_singleton] at hx
    exact .inr ⟨hx, rfl⟩
  | cons b1 rest ih =>
    rcases b1 with ⟨c, items⟩
    unfold addToBuckets at hb
    by_cases hc : c.toFinset = cols.toFinset
    · rw [if_pos hc] at hb
      rcases List.mem_cons.1 hb with he | hm
      · subst he
        simp only [List.mem_append, List.mem_singleton] at hx
        rcases hx with hx | hx
        · exact .inl ⟨(c, items), (List.mem_cons_self _ _), rfl, hx⟩
        · exact .inr ⟨hx, hc⟩
      · exact .inl (by
          obtain ⟨b0, hb0, h1, h2⟩ :=
            (by exact ⟨b, hm, rfl, hx⟩ : ∃ b0 ∈ rest, b.1 = b0.1 ∧ x ∈ b0.2)
          exact ⟨b0, List.mem_cons_of_mem _ hb0, h1, h2⟩)
    · rw [if_neg hc] at hb
      rcases List.mem_cons.1 hb with he | hm
      · subst he
        exact .inl ⟨(c, items), (List.mem_cons_self _ _), rfl, hx⟩
      · rcases ih hm with ⟨b0, hb0, h1, h2⟩ | hr
        · exact .inl ⟨b0, List.mem_cons_of_mem _ hb0, h1, h2⟩
        · exact .inr hr

theorem foldl_buckets_items_perm (rules : List (String × Rule)) :
    ∀ bs, (bucketItems (rules.foldl
      (fun bs nr =>
        match nr.2 with
        | .group cols agg => addToBuckets bs cols (nr.1, fun rs => (agg rs).getD true)
        | _ => bs) bs)).Perm (bucketItems bs ++ groupAggList rules) := by
  induction rules with
  | nil => intro bs; simp [groupAggList]
  | cons nr rules ih =>
    intro bs
    rcases nr with ⟨n, rule⟩
    cases rule with
    | group cols agg =>
      rw [List.foldl_cons]
      have hgal : groupAggList (⟨n, .group cols agg⟩ :: rules)
          = (n, fun rs => (agg rs).getD true) :: groupAggList rules := by
        simp [groupAggList]
      rw [hgal]
      refine (ih _).trans ?_
      have h1 := (addToBuckets_items_perm bs cols
        (n, fun rs => (agg rs).getD true)).append_right (groupAggList rules)
      refine h1.trans ?_
      rw [List.append_assoc, List.singleton_append]
    | simple e => simpa [groupAggList] using ih bs
    | lazySimple => simpa [groupAggList] using ih bs
    | lazyGroup cols => simpa [groupAggList] using ih bs

theorem bucketGroupRules_items_perm (rules : List (String × Rule)) :
    (bucketItems (bucketGroupRules rules)).Perm (groupAggList rules) := by
  simpa [bucketGroupRules, bucketItems] using foldl_buckets_items_perm rules []

theorem foldl_buckets_mem (rules : List (String × Rule)) :
    ∀ bs b x, b ∈ (rules.foldl
      (fun bs nr =>
        match nr.2 with
        | .group cols agg => addToBuckets bs cols (nr.1, fun rs => (agg rs).getD true)
        | _ => bs) bs) → x ∈ b.2 →
      (∃ b0 ∈ bs, b.1 = b0.1 ∧ x ∈ b0.2) ∨
      (∃ cols agg, (x.1, Rule.group cols agg) ∈ rules ∧
        (x.2 = fun rs => (agg rs).getD true) ∧ b.1.toFinset = cols.toFinset) := by
  induction rules with
  | nil => exact fun bs b x hb hx => .inl ⟨b, hb, rfl, hx⟩
  | cons nr rules ih =>
    intro bs b x hb hx
    rcases nr with ⟨n, rule⟩
    cases rule with
    | group cols agg =>
      rw [List.foldl_cons] at hb
      rcases ih _ b x hb hx with ⟨b0, hb0, hbeq, hxb0⟩ | ⟨cols', agg', hmem, hfe, hfs⟩
      · rcases addToBuckets_mem hb0 hxb0 with ⟨b1, hb1, hbeq1, hxb1⟩ | ⟨hxit, hfs⟩
        · exact .inl ⟨b1, hb1, hbeq.trans hbeq1, hxb1⟩
        · subst hxit
          exact .inr ⟨cols, agg, (List.mem_cons_self _ _), rfl, hbeq ▸ hfs⟩
      · exact .inr ⟨cols', agg', List.mem_cons_of_mem _ hmem, hfe, hfs⟩
    | simple e =>
      rw [List.foldl_cons] at hb
      rcases ih bs b x hb hx with h1 | ⟨cols', agg', hmem, hfe, hfs⟩
      · exact .inl h1
      · exact .inr ⟨cols', agg', List.mem_cons_of_mem _ hmem, hfe, hfs⟩
    | lazySimple =>
      rw [List.foldl_cons] at hb
      rcases ih bs b x hb hx with h1 | ⟨cols', agg', hmem, hfe, hfs⟩
      · exact .inl h1
      · exact .inr ⟨cols', agg', List.mem_cons_of_mem _ hmem, hfe, hfs⟩
    | lazyGroup cols =>
      rw [List.foldl_cons] at hb
      rcases ih bs b x hb hx with h1 | ⟨cols', agg', hmem, hfe, hfs⟩
      · exact .inl h1
      · exact .inr ⟨cols', agg', List.mem_cons_of_mem _ hmem, hfe, hfs⟩

theorem bucketGroupRules_mem {rules : List (String × Rule)}
    {b : List String × List GroupAgg} {x : GroupAgg}
    (hb : b ∈ bucketGroupRules rules) (hx : x ∈ b.2) :
    ∃ cols agg, (x.1, Rule.group cols agg) ∈ rules ∧
      (x.2 = fun rs => (agg rs).getD true) ∧ b.1.toFinset = cols.toFinset := by
  rcases foldl_buckets_mem rules [] b x hb hx with ⟨b0, hb0, -⟩ | h
  · cases hb0
  · exact h

theorem all_congr_toFinset {cols1 cols2 : List String}
    (h : cols1.toFinset = cols2.toFinset) (p : String → Bool) :
    cols1.all p = cols2.all p := by
  have hm : ∀ x : String, x ∈ cols1 ↔ x ∈ cols2 := by
    intro x
    rw [← List.mem_toFinset, ← List.mem_toFinset, h]
  cases hall : cols2.all p with
  | true =>
    rw [List.all_eq_true] at hall ⊢
    exact fun x hx => hall x ((hm x).1 hx)
  | false =>
    rw [List.all_eq_false] at hall ⊢
    obtain ⟨x, hx, hpx⟩ := hall
    exact ⟨x, (hm x).2 hx, hpx⟩

theorem sameGroup_congr {cols1 cols2 : List String}
    (h : cols1.toFinset = cols2.toFinset) (r1 r2 : Row) :
    sameGroup cols1 r1 r2 = sameGroup cols2 r1 r2 :=
  all_congr_toFinset h _

theorem groupRows_congr {cols1 cols2 : List String}
    (h : cols1.toFinset = cols2.toFinset) (rows : List Row) (r : Row) :
    groupRows cols1 rows r = groupRows cols2 rows r := by
  unfold groupRows
  exact List.filter_congr (fun r2 _ => sameGroup_congr h r2 r)

theorem mem_simpleExprs_iff {rules : List (String × Rule)} {n : String}
    {e : List Row → Row → Option Bool} :
    (n, e) ∈ simpleExprs rules ↔ (n, Rule.simple e) ∈ rules := by
  unfold simpleExprs
  rw [List.mem_filterMap]
  constructor
  · rintro ⟨⟨m, rule⟩, hmem, hf⟩
    cases rule <;> simp at hf
    · obtain ⟨h1, h2⟩ := hf
      subst h1; subst h2
      exact hmem
  · intro hmem
    exact ⟨(n, Rule.simple e), hmem, rfl⟩

theorem simpleExprs_names_sublist (rules : List (String × Rule)) :
    ((simpleExprs rules).map Prod.fst).Sublist (rules.map Prod.fst) := by
  induction rules with
  | nil => simp [simpleExprs]
  | cons nr rules ih =>
    rcases nr with ⟨m, rule⟩
    cases rule with
    | simple e =>
      simp only [simpleExprs, List.filterMap_cons, List.map_cons] at ih ⊢
      exact List.Sublist.cons₂ m ih
    | group gcols agg =>
      simp only [simpleExprs, List.filterMap_cons, List.map_cons] at ih ⊢
      exact List.Sublist.cons m ih
    | lazySimple =>
      simp only [simpleExprs, List.filterMap_cons, List.map_cons] at ih ⊢
      exact List.Sublist.cons m ih
    | lazyGroup gcols =>
      simp only [simpleExprs, List.filterMap_cons, List.map_cons] at ih ⊢
      exact List.Sublist.cons m ih

theorem groupAggList_names_sublist (rules : List (String × Rule)) :
    ((groupAggList rules).map Prod.fst).Sublist (rules.map Prod.fst) := by
  induction rules with
  | nil => simp [groupAggList]
  | cons nr rules ih =>
    rcases nr with ⟨m, rule⟩
    cases rule with
    | simple e =>
      simp only [groupAggList, List.filterMap_cons, List.map_cons] at ih ⊢
      exact List.Sublist.cons m ih
    | group gcols agg =>
      simp only [groupAggList, List.filterMap_cons, List.map_cons] at ih ⊢
      exact List.Sublist.cons₂ m ih
    | lazySimple =>
      simp only [groupAggList, List.filterMap_cons, List.map_cons] at ih ⊢
      exact List.Sublist.cons m ih
    | lazyGroup gcols =>
      simp only [groupAggList, List.filterMap_cons, List.map_cons] at ih ⊢
      exact List.Sublist.cons m ih

theorem mem_groupAggList {rules : List (String × Rule)} {n : String}
    {gcols : List String} {agg : List Row → Option Bool}
    (hmem : (n, Rule.group gcols agg) ∈ rules) :
    ((n, fun rs => (agg rs).getD true) : GroupAgg) ∈ groupAggList rules := by
  unfold groupAggList
  rw [List.mem_filterMap]
  exact ⟨(n, Rule.group gcols agg), hmem, rfl⟩

/-- The cells appended by the group joins, per row. -/
def groupCells (rows : List Row) (rules : List (String × Rule)) (r : Row) : Row :=
  (bucketGroupRules rules).flatMap
    (fun b => b.2.map (fun na =>
      (na.1, (some (Val.bool (na.2 (groupRows b.1 rows r))) : Cell))))

theorem enrichGroup_eq (rows : List Row) (rules : List (String × Rule)) (r : Row) :
    enrichGroup rows rules r = r ++ groupCells rows rules r := rfl

theorem groupCells_names (rows : List Row) (rules : List (String × Rule)) (r : Row) :
    (groupCells rows rules r).map Prod.fst =
      (bucketItems (bucketGroupRules rules)).map Prod.fst := by
  unfold groupCells bucketItems
  induction bucketGroupRules rules with
  | nil => simp
  | cons b bs ih => simp [List.flatMap_cons, ih, Function.comp]

theorem groupCells_names_nodup {rules : List (String × Rule)}
    (hnd : (rules.map Prod.fst).Nodup) (rows : List Row) (r : Row) :
    ((groupCells rows rules r).map Prod.fst).Nodup := by
  rw [groupCells_names]
  have hperm := (bucketGroupRules_items_perm rules).map Prod.fst
  rw [hperm.nodup_iff]
  exact (groupAggList_names_sublist rules).nodup hnd

/-- The group-rule outcome cell of a row: the left join broadcasts, to each
row, the null-filled aggregate of the rule's expression over the rows of
that row's own group, taken over the full input frame. -/
theorem getCol_enrichGroup_group {rules : List (String × Rule)} {n : String}
    {gcols : List String} {agg : List Row → Option Bool}
    (hnd : (rules.map Prod.fst).Nodup)
    (hmem : (n, Rule.group gcols agg) ∈ rules)
    (rows : List Row) (r : Row) :
    getCol (enrichGroup rows rules r) n =
      some (Val.bool ((agg (groupRows gcols rows r)).getD true)) := by
  rw [enrichGroup_eq]
  have hitem := mem_groupAggList hmem
  have hitem2 : ((n, fun rs => (agg rs).getD true) : GroupAgg) ∈
      bucketItems (bucketGroupRules rules) :=
    (bucketGroupRules_items_perm rules).symm.subset hitem
  rw [bucketItems, List.mem_flatMap] at hitem2
  obtain ⟨b, hb, hxb⟩ := hitem2
  obtain ⟨cols2, agg2, hmem2, hfe2, hfs2⟩ := bucketGroupRules_mem hb hxb
  have heqrule : Rule.group gcols agg = Rule.group cols2 agg2 :=
    keyval_unique hnd hmem hmem2
  have hcols : gcols = cols2 := by cases heqrule; rfl
  have hagg : agg = agg2 := by cases heqrule; rfl
  subst hcols; subst hagg
  have hbind : (n, (some (Val.bool ((agg (groupRows b.1 rows r)).getD true)) : Cell)) ∈
      groupCells rows rules r := by
    unfold groupCells
    rw [List.mem_flatMap]
    refine ⟨b, hb, ?_⟩
    rw [List.mem_map]
    refine ⟨(n, fun rs => (agg rs).getD true), hxb, ?_⟩
    simp
  have hval : groupRows b.1 rows r = groupRows gcols rows r :=
    groupRows_congr hfs2 rows r
  rw [hval] at hbind
  have hhas : hasCol (groupCells rows rules r) n = true := by
    unfold hasCol
    rw [List.any_eq_true]
    exact ⟨_, hbind, by simp⟩
  rw [getCol_append_of_hasCol hhas]
  exact getCol_of_mem_nodup (groupCells_names_nodup hnd rows r) hbind

/-- The cells appended by the final `with_columns` of
`with_evaluation_rules`, per row. -/
def simpleCells (joined : List Row) (rules : List (String × Rule)) (r : Row) : Row :=
  (simpleExprs rules).map (fun ne =>
    (ne.1, (some (Val.bool ((ne.2 joined r).getD true)) : Cell)))

theorem enrichSimple_eq (joined : List Row) (rules : List (String × Rule)) (r : Row) :
    enrichSimple joined rules r = r ++ simpleCells joined rules r := rfl

theorem simpleCells_names (joined : List Row) (rules : List (String × Rule)) (r : Row) :
    (simpleCells joined rules r).map Prod.fst = (simpleExprs rules).map Prod.fst := by
  unfold simpleCells
  simp [Function.comp]

theorem simpleCells_names_nodup {rules : List (String × Rule)}
    (hnd : (rules.map Prod.fst).Nodup) (joined : List Row) (r : Row) :
    ((simpleCells joined rules r).map Prod.fst).Nodup := by
  rw [simpleCells_names]
  exact (simpleExprs_names_sublist rules).nodup hnd

theorem hasCol_simpleCells_iff {rules : List (String × Rule)}
    (joined : List Row) (r : Row) (n : String) :
    hasCol (simpleCells joined rules r) n = true ↔
      ∃ e, (n, Rule.simple e) ∈ rules := by
  unfold hasCol simpleCells
  rw [List.any_eq_true]
  constructor
  · rintro ⟨p, hp, hpn⟩
    rw [List.mem_map] at hp
    obtain ⟨ne, hne, rfl⟩ := hp
    simp only [beq_iff_eq] at hpn
    rcases ne with ⟨m, e⟩
    cases hpn
    exact ⟨e, mem_simpleExprs_iff.1 hne⟩
  · rintro ⟨e, hmem⟩
    refine ⟨(n, some (Val.bool ((e joined r).getD true))), ?_, by simp⟩
    rw [List.mem_map]
    exact ⟨(n, e), mem_simpleExprs_iff.2 hmem, rfl⟩

/-- The row-rule outcome cell of a row: the expression's value on the
group-joined frame, null-filled with `true`. -/
theorem getCol_enrichSimple_simple {rules : List (String × Rule)} {n : String}
    {e : List Row → Row → Option Bool}
    (hnd : (rules.map Prod.fst).Nodup)
    (hmem : (n, Rule.simple e) ∈ rules)
    (joined : List Row) (r : Row) :
    getCol (enrichSimple joined rules r) n =
      some (Val.bool ((e joined r).getD true)) := by
  rw [enrichSimple_eq]
  have hbind : (n, (some (Val.bool ((e joined r).getD true)) : Cell)) ∈
      simpleCells joined rules r := by
    unfold simpleCells
    rw [List.mem_map]
    exact ⟨(n, e), mem_simpleExprs_iff.2 hmem, rfl⟩
  have hhas : hasCol (simpleCells joined rules r) n = true := by
    unfold hasCol
    rw [List.any_eq_true]
    exact ⟨_, hbind, by simp⟩
  rw [getCol_append_of_hasCol hhas]
  exact getCol_of_mem_nodup (simpleCells_names_nodup hnd joined r) hbind

theorem getCol_enrichSimple_of_group {rules : List (String × Rule)} {n : String}
    {gcols : List String} {agg : List Row → Option Bool}
    (hnd : (rules.map Prod.fst).Nodup)
    (hmem : (n, Rule.group gcols agg) ∈ rules)
    (joined : List Row) (r : Row) :
    getCol (enrichSimple joined rules r) n = getCol r n := by
  rw [enrichSimple_eq]
  refine getCol_append_of_not_hasCol ?_ r
  cases hh : hasCol (simpleCells joined rules r) n
  · rfl
  · obtain ⟨e, hmem2⟩ := (hasCol_simpleCells_iff joined r n).1 hh
    exact absurd (keyval_unique hnd hmem hmem2) (by intro hc; cases hc)

/-- The combined enrichment applied to every row by
`with_evaluation_rules`. -/
def enrichFull (rows : List Row) (rules : List (String × Rule)) (r : Row) : Row :=
  enrichSimple (withGroupRules rows rules) rules (enrichGroup rows rules r)

theorem withEvaluationRules_eq_map_enrichFull (rows : List Row)
    (rules : List (String × Rule)) :
    withEvaluationRules rows rules = rows.map (enrichFull rows rules) :=
  withEvaluationRules_eq_map rows rules

/-- The raw (pre-fill) evaluation of a rule for a row: the expression's
value in the evaluation context for a simple rule, the aggregate over the
row's group for a group rule, nothing for an unresolved lazy rule. -/
def rawRuleEval (rows : List Row) (rules : List (String × Rule)) (r : Row) :
    String × Rule → Option Bool
  | (_, .simple e) => e (withGroupRules rows rules) (enrichGroup rows rules r)
  | (_, .group gcols agg) => agg (groupRows gcols rows r)
  | _ => none

/-- The outcome cell of every non-lazy rule in the fully enriched row is
the rule's raw evaluation filled with `true`. -/
theorem getCol_enrichFull {rules : List (String × Rule)} {nr : String × Rule}
    (hnd : (rules.map Prod.fst).Nodup) (hmem : nr ∈ rules)
    (hnl : nr.2.isLazy = false) (rows : List Row) (r : Row) :
    getCol (enrichFull rows rules r) nr.1 =
      some (Val.bool ((rawRuleEval rows rules r nr).getD true)) := by
  rcases nr with ⟨n, rule⟩
  cases rule with
  | simple e => exact getCol_enrichSimple_simple hnd hmem _ _
  | group gcols agg =>
    unfold enrichFull
    rw [getCol_enrichSimple_of_group hnd hmem]
    exact getCol_enrichGroup_group hnd hmem rows r
  | lazySimple => exact absurd hnl (by simp [Rule.isLazy])
  | lazyGroup gcols => exact absurd hnl (by simp [Rule.isLazy])

theorem all_map_general (f : α → β) (l : List α) (p : β → Bool) :
    (l.map f).all p = l.all (fun a => p (f a)) := by
  induction l with
  | nil => rfl
  | cons a l ih => simp [List.all_cons, ih]

theorem all_congr_mem {l : List α} {p q : α → Bool}
    (h : ∀ a ∈ l, p a = q a) : l.all p = l.all q := by
  induction l with
  | nil => rfl
  | cons a l ih =>
    simp only [List.all_cons]
    rw [h a (List.mem_cons_self _ _), ih (fun b hb => h b (List.mem_cons_of_mem a hb))]

theorem cellBeq_bool_true (b : Bool) :
    ((some (Val.bool b) : Cell) == some (Val.bool true)) = b := by
  cases b <;> rfl

theorem cellBeq_bool_false (b : Bool) :
    ((some (Val.bool b) : Cell) == some (Val.bool false)) = !b := by
  cases b <;> rfl

theorem fillNullTrue_bool (b : Bool) :
    fillNullTrue (some (Val.bool b)) = b := rfl

theorem groupCells_names_subset {rules : List (String × Rule)}
    {rows : List Row} {r : Row} {p : String × Cell}
    (h : p ∈ groupCells rows rules r) : p.1 ∈ rules.map Prod.fst := by
  have h1 : p.1 ∈ (groupCells rows rules r).map Prod.fst :=
    List.mem_map.2 ⟨p, h, rfl⟩
  rw [groupCells_names] at h1
  have h2 := ((bucketGroupRules_items_perm rules).map Prod.fst).subset h1
  exact (groupAggList_names_sublist rules).subset h2

theorem simpleCells_names_subset {rules : List (String × Rule)}
    {joined : List Row} {r : Row} {p : String × Cell}
    (h : p ∈ simpleCells joined rules r) : p.1 ∈ rules.map Prod.fst := by
  have h1 : p.1 ∈ (simpleCells joined rules r).map Prod.fst :=
    List.mem_map.2 ⟨p, h, rfl⟩
  rw [simpleCells_names] at h1
  exact (simpleExprs_names_sublist rules).subset h1

theorem evaluatedFrame_false_eq (er : List (String × Rule)) (lfRows : List Row) :
    evaluatedFrame er false lfRows =
      lfRows.map (fun r0 =>
        enrichFull lfRows er r0 ++
          [(finalValidName,
            (some (Val.bool (finalValid (er.map (·.1)) (enrichFull lfRows er r0))) : Cell))]) := by
  rw [show evaluatedFrame er false lfRows =
    (withEvaluationRules lfRows er).map (fun r =>
      r ++ [(finalValidName,
        (some (Val.bool (finalValid (er.map (·.1)) r)) : Cell))]) from rfl]
  rw [withEvaluationRules_eq_map_enrichFull, List.map_map]
  rfl

theorem nonlazy_of_filter_isEmpty {rules : List (String × Rule)}
    (h : (rules.filter (fun nr => nr.2.isLazy)).isEmpty = true) :
    ∀ nr ∈ rules, nr.2.isLazy = false := by
  rw [List.isEmpty_iff, List.filter_eq_nil_iff] at h
  intro nr hmem
  have := h nr hmem
  simpa using this

/-- The raw-evaluation filter predicate: a row passes iff no rule's raw
evaluation is `false` for it. -/
def noRuleFalse (rows : List Row) (rules : List (String × Rule)) (r0 : Row) : Bool :=
  rules.all (fun nr => !(rawRuleEval rows rules r0 nr == some false))

theorem dropCols_enrichFull {rules : List (String × Rule)} {r0 : Row}
    (h0 : ∀ p ∈ r0, ¬ (finalValidName :: rules.map Prod.fst).contains p.1)
    (rows : List Row) :
    dropCols (enrichFull rows rules r0 ++
        [(finalValidName,
          (some (Val.bool (finalValid (rules.map (·.1)) (enrichFull rows rules r0))) : Cell))])
      (finalValidName :: rules.map Prod.fst) = r0 := by
  have hfv : ∀ n : String, n ∈ rules.map Prod.fst →
      (finalValidName :: rules.map Prod.fst).contains n = true := by
    intro n hn
    simp [List.mem_cons_of_mem finalValidName hn]
  unfold enrichFull
  rw [enrichSimple_eq, enrichGroup_eq, dropCols_append, dropCols_append, dropCols_append]
  rw [dropCols_eq_self h0]
  rw [dropCols_eq_nil (fun p hp => hfv p.1 (groupCells_names_subset hp))]
  rw [dropCols_eq_nil (fun p hp => hfv p.1 (simpleCells_names_subset hp))]
  rw [dropCols_eq_nil (fun p hp => by
    simp only [List.mem_singleton] at hp
    subst hp
    simp [List.contains_cons])]
  simp

theorem finalValid_enrichFull_eq_noRuleFalse {rules : List (String × Rule)}
    (hnd : (rules.map Prod.fst).Nodup)
    (hnl : ∀ nr ∈ rules, nr.2.isLazy = false)
    (lfRows : List Row) (r0 : Row) :
    finalValid (rules.map Prod.fst) (enrichFull lfRows rules r0) =
      noRuleFalse lfRows rules r0 := by
  unfold finalValid noRuleFalse
  rw [all_map_general]
  refine all_congr_mem ?_
  intro nr hmem
  rw [getCol_enrichFull hnd hmem (hnl nr hmem) lfRows r0, fillNullTrue_bool]
  cases hraw : rawRuleEval lfRows rules r0 nr with
  | none => rfl
  | some b => cases b <;> rfl

theorem validSubset_evaluatedFrame_false {rules : List (String × Rule)}
    {lfRows : List Row}
    (hnd : (rules.map Prod.fst).Nodup)
    (hnl : ∀ nr ∈ rules, nr.2.isLazy = false)
    (hshape : ∀ r0 ∈ lfRows, ∀ p ∈ r0,
      ¬ (finalValidName :: rules.map Prod.fst).contains p.1) :
    validSubset (rules.map (·.1)) (evaluatedFrame rules false lfRows) =
      lfRows.filter (noRuleFalse lfRows rules) := by
  rw [evaluatedFrame_false_eq]
  unfold validSubset
  rw [List.filter_map, List.map_map]
  have hq : ∀ r0 ∈ lfRows,
      ((fun r => getCol r finalValidName == some (Val.bool true)) ∘
        (fun r0 => enrichFull lfRows rules r0 ++
          [(finalValidName,
            (some (Val.bool (finalValid (rules.map (·.1)) (enrichFull lfRows rules r0))) : Cell))])) r0 =
      noRuleFalse lfRows rules r0 := by
    intro r0 _
    simp only [Function.comp]
    rw [getCol_append_single, cellBeq_bool_true]
    exact finalValid_enrichFull_eq_noRuleFalse hnd hnl lfRows r0
  rw [List.filter_congr hq]
  have hmap : ∀ r0 ∈ lfRows.filter (noRuleFalse lfRows rules),
      ((fun r => dropCols r (finalValidName :: (rules.map (·.1)))) ∘
        (fun r0 => enrichFull lfRows rules r0 ++
          [(finalValidName,
            (some (Val.bool (finalValid (rules.map (·.1)) (enrichFull lfRows rules r0))) : Cell))])) r0 =
      r0 := by
    intro r0 hr0
    simp only [Function.comp]
    exact dropCols_enrichFull (hshape r0 (List.mem_of_mem_filter hr0)) lfRows
  rw [List.map_congr_left hmap]
  simp

/-! ## C1 -/

/-- C1: a rule evaluating to null never attributes a failure.  For every
input table and compiled rule set (with the definition-time name hygiene):
every rule's outcome column equals its raw evaluation filled with `true`
(row rules after evaluation against the joined frame, group rules filled
immediately after aggregation and broadcast by the join); the derived
`__final_valid__` value is the conjunction over all rules with null treated
as `true`; and the valid subset keeps exactly the rows for which no rule's
raw evaluation is `false` — so a row is excluded only if some rule
evaluated to `false` for it. -/
theorem null_is_valid {castFn : CastFn} {cols : List (String × DType)}
    {rules : List (String × Rule)} {f : Frame} {valid ev : List Row} {lf : Frame}
    (h : filterRaw castFn cols rules f false = .ok (valid, some ev))
    (hv : validateSchema castFn cols .nocast f = .ok lf)
    (hnd : (rules.map Prod.fst).Nodup)
    (hdisjc : ∀ n ∈ cols.map Prod.fst, n ∉ rules.map Prod.fst ∧ n ≠ finalValidName) :
    (∀ nr ∈ rules, ∀ r0 : Row,
      getCol (enrichFull lf.rows rules r0) nr.1 =
        some (Val.bool ((rawRuleEval lf.rows rules r0 nr).getD true))) ∧
    (∀ r0 : Row,
      finalValid (rules.map Prod.fst) (enrichFull lf.rows rules r0) =
        noRuleFalse lf.rows rules r0) ∧
    valid = lf.rows.filter (noRuleFalse lf.rows rules) := by
  obtain ⟨lf2, hv2, hne, hlazy, hev, hvv⟩ := filterRaw_ok_some h
  have heff : effectiveRules (cols.map (·.1)) rules false = rules := rfl
  rw [heff] at hne hlazy hev hvv
  have hlf : lf2 = lf := by
    have hv2b : validateSchema castFn cols .nocast f = .ok lf2 := hv2
    rw [hv2b] at hv
    exact Except.ok.inj hv
  rw [hlf] at hev
  have hnl := nonlazy_of_filter_isEmpty hlazy
  refine ⟨fun nr hmem r0 => getCol_enrichFull hnd hmem (hnl nr hmem) lf.rows r0,
    fun r0 => finalValid_enrichFull_eq_noRuleFalse hnd hnl lf.rows r0, ?_⟩
  have hshape : ∀ r0 ∈ lf.rows, ∀ p ∈ r0,
      ¬ (finalValidName :: rules.map Prod.fst).contains p.1 := by
    intro r0 hr0 p hp
    rw [validateSchema_nocast_rows hv] at hr0
    obtain ⟨rf, -, rfl⟩ := List.mem_map.1 hr0
    unfold projRow at hp
    obtain ⟨n, hn, rfl⟩ := List.mem_map.1 hp
    obtain ⟨hn1, hn2⟩ := hdisjc n hn
    simp [List.contains_cons, hn1, hn2]
  rw [hvv, hev]
  exact validSubset_evaluatedFrame_false hnd hnl hshape

/-! ## Counting lemmas for the failure statistics -/

theorem sum_map_add (l : List α) (f g : α → Nat) :
    (l.map (fun a => f a + g a)).sum = (l.map f).sum + (l.map g).sum := by
  induction l with
  | nil => rfl
  | cons a l ih =>
    simp only [List.map_cons, List.sum_cons, ih]
    omega

theorem sum_ite_one (l : List α) (p : α → Bool) :
    (l.map (fun a => if p a then 1 else 0)).sum = l.countP p := by
  induction l with
  | nil => rfl
  | cons a l ih =>
    cases hp : p a <;>
      simp only [List.map_cons, List.sum_cons, List.countP_cons, hp, ih] <;> omega

theorem sum_filter_ne_zero (l : List (String × Nat)) :
    ((l.filter (fun p => p.2 ≠ 0)).map (·.2)).sum = (l.map (·.2)).sum := by
  induction l with
  | nil => rfl
  | cons p l ih =>
    rw [List.filter_cons]
    by_cases hp : p.2 = 0
    · rw [if_neg (by simp [hp]), List.map_cons, List.sum_cons, ih, hp]
      omega
    · rw [if_pos (by simp [hp]), List.map_cons, List.map_cons,
        List.sum_cons, List.sum_cons, ih]

theorem length_le_sum_countP {rows : List Row} {cs : List String}
    {p : String → Row → Bool}
    (h : ∀ r ∈ rows, ∃ n ∈ cs, p n r) :
    rows.length ≤ (cs.map (fun n => rows.countP (p n))).sum := by
  induction rows with
  | nil => simp
  | cons r rest ih =>
    have hsum : (cs.map (fun n => (r :: rest).countP (p n))).sum
        = (cs.map (fun n => rest.countP (p n))).sum
          + (cs.map (fun n => if p n r then 1 else 0)).sum := by
      rw [← sum_map_add]
      apply congrArg List.sum
      apply List.map_congr_left
      intro n _
      rw [List.countP_cons]
    rw [hsum, sum_ite_one]
    obtain ⟨n, hn, hpn⟩ := h r (List.mem_cons_self _ _)
    have h1 : 0 < cs.countP (fun n => p n r) :=
      List.countP_pos_iff.2 ⟨n, hn, hpn⟩
    have h2 := ih (fun x hx => h x (List.mem_cons_of_mem r hx))
    simp only [List.length_cons]
    omega

theorem countP_beq_eq_one {β : Type _} [BEq β] [LawfulBEq β] {d : List β} {x : β}
    (hnd : d.Nodup) (hx : x ∈ d) : d.countP (fun b => x == b) = 1 := by
  induction d with
  | nil => cases hx
  | cons b d ih =>
    rw [List.countP_cons]
    simp only [List.nodup_cons] at hnd
    rcases List.mem_cons.1 hx with rfl | hmem
    · have hz : d.countP (fun c => x == c) = 0 := by
        rw [List.countP_eq_zero]
        intro c hc
        simp only [beq_iff_eq]
        intro hxc
        rw [hxc] at hnd
        exact hnd.1 hc
      simp [hz]
    · rw [ih hnd.2 hmem]
      have hxb : (x == b) = false := by
        have hne : x ≠ b := by
          intro hxb
          rw [hxb] at hmem
          exact hnd.1 hmem
        simpa using hne
      simp [hxb]

theorem sum_countP_classes {β : Type _} [BEq β] [LawfulBEq β] (l : List α) (f : α → β) :
    ∀ d : List β, d.Nodup → (∀ a ∈ l, f a ∈ d) →
      (d.map (fun b => l.countP (fun a => f a == b))).sum = l.length := by
  induction l with
  | nil =>
    intro d _ _
    simp
  | cons a l ih =>
    intro d hnd hmem
    have h1 : (d.map (fun b => (a :: l).countP (fun x => f x == b))).sum
        = (d.map (fun b => l.countP (fun x => f x == b))).sum
          + (d.map (fun b => if f a == b then 1 else 0)).sum := by
      rw [← sum_map_add]
      apply congrArg List.sum
      apply List.map_congr_left
      intro b _
      rw [List.countP_cons]
    rw [h1, ih d hnd (fun x hx => hmem x (List.mem_cons_of_mem a hx)), sum_ite_one]
    rw [countP_beq_eq_one hnd (hmem a (List.mem_cons_self _ _))]
    simp

/-- The co-occurrence buckets always partition the failing rows. -/
theorem cooccurrence_sum (fi : FailureInfo) :
    (fi.cooccurrenceCounts.map (·.2)).sum = fi.rows.length := by
  unfold FailureInfo.cooccurrenceCounts
  rw [List.map_map]
  have hcomp : ((fun x : (List String) × Nat => x.2) ∘
      (fun s => (s, fi.rows.countP (fun r => failingRuleSet fi.ruleColumns r == s)))) =
      (fun s => fi.rows.countP (fun r => failingRuleSet fi.ruleColumns r == s)) := rfl
  rw [hcomp]
  exact sum_countP_classes fi.rows (failingRuleSet fi.ruleColumns)
    ((fi.rows.map (failingRuleSet fi.ruleColumns)).dedup)
    (List.nodup_dedup _)
    (fun a ha => List.mem_dedup.2 (List.mem_map.2 ⟨a, ha, rfl⟩))

theorem fillNullTrue_eq_false_iff (c : Cell) :
    fillNullTrue c = false ↔ c = some (Val.bool false) := by
  cases c with
  | none => simp [fillNullTrue]
  | some v =>
    cases v with
    | bool b => cases b <;> simp [fillNullTrue]
    | int i => simp [fillNullTrue]
    | str s => simp [fillNullTrue]

/-- Every failing row of a filter call fails at least one rule. -/
theorem failure_rows_fail_some_rule {castFn : CastFn} {cols : List (String × DType)}
    {rules : List (String × Rule)} {f : Frame} {cast : Bool}
    {valid : List Row} {fi : FailureInfo}
    (h : filterMethod castFn cols rules f cast = .ok (valid, fi))
    (hfv : finalValidName ∉ (effectiveRules (cols.map (·.1)) rules cast).map (·.1)) :
    ∀ r ∈ fi.rows, ∃ n ∈ fi.ruleColumns, rowFails r n := by
  rcases filterMethod_ok_cases h with ⟨hr, hrow, hcols⟩ | ⟨ev, hr, hrow, hcols⟩
  · rw [hrow]
    intro r hrmem
    cases hrmem
  · obtain ⟨lf, hv, hne, hlazy, hev, hvv⟩ := filterRaw_ok_some hr
    intro r hrmem
    rw [hrow] at hrmem
    rw [List.mem_map] at hrmem
    obtain ⟨w, hwmem, rfl⟩ := hrmem
    have hwf := List.mem_of_mem_filter hwmem
    have hwp := List.of_mem_filter hwmem
    rw [hev] at hwf
    obtain ⟨u, rfl⟩ := mem_evaluatedFrame hwf
    rw [getCol_append_single] at hwp
    have hfalse : finalValid ((effectiveRules (cols.map (·.1)) rules cast).map (·.1)) u
        = false := by
      have := cellBeq_bool_false (finalValid
        ((effectiveRules (cols.map (·.1)) rules cast).map (·.1)) u)
      rw [this] at hwp
      simpa using hwp
    unfold finalValid at hfalse
    rw [List.all_eq_false] at hfalse
    obtain ⟨n, hn, hfn⟩ := hfalse
    rw [Bool.not_eq_true, fillNullTrue_eq_false_iff] at hfn
    refine ⟨n, by rw [hcols]; exact hn, ?_⟩
    unfold rowFails
    have hn_ne : n ≠ finalValidName := by
      intro hc
      subst hc
      exact hfv hn
    rw [getCol_dropCols_of_not_mem (by simpa using hn_ne)]
    rw [getCol_append_single_ne hn_ne, hfn]
    simp

/-! ## C7 -/

/-- C7: for every failure info produced by `filter`, the sum of the per-rule
failure counts is at least the number of failing rows (every failing row
fails at least one rule, and each failed rule of a row contributes to its
count), and the co-occurrence counts (keyed by the exact set of
simultaneously failed rules) sum to exactly the number of failing rows. -/
theorem failure_counts_consistency {castFn : CastFn} {cols : List (String × DType)}
    {rules : List (String × Rule)} {f : Frame} {cast : Bool}
    {valid : List Row} {fi : FailureInfo}
    (h : filterMethod castFn cols rules f cast = .ok (valid, fi))
    (hfv : finalValidName ∉ (effectiveRules (cols.map (·.1)) rules cast).map (·.1)) :
    fi.rows.length ≤ (fi.counts.map (·.2)).sum ∧
    (fi.cooccurrenceCounts.map (·.2)).sum = fi.rows.length := by
  refine ⟨?_, cooccurrence_sum fi⟩
  have hfails := failure_rows_fail_some_rule h hfv
  unfold FailureInfo.counts
  rw [sum_filter_ne_zero, List.map_map]
  have heq : ((fun p : String × Nat => p.2) ∘
      (fun n => (n, fi.rows.countP (fun r => rowFails r n)))) =
      fun n => fi.rows.countP (fun r => rowFails r n) := rfl
  rw [heq]
  exact length_le_sum_countP hfails

/-! ## Lemmas about the cast postprocessing -/

theorem strEndsWith_append_self (c sfx : String) : strEndsWith (c ++ sfx) sfx = true := by
  unfold strEndsWith
  rw [String.data_append]
  simp [List.suffix_append]

theorem dtypeRuleName_endsWith (c : String) :
    strEndsWith (dtypeRuleName c) "|dtype" = true :=
  strEndsWith_append_self c "|dtype"

theorem dtypeRuleName_not_orig (c : String) :
    strEndsWith (dtypeRuleName c) origNullSuffix = false := by
  unfold strEndsWith
  cases hdec : decide (origNullSuffix.data <:+ (dtypeRuleName c).data) with
  | false => rfl
  | true =>
    exfalso
    obtain ⟨pre, hpre⟩ := of_decide_eq_true hdec
    have h1 : (dtypeRuleName c).data.getLast? = some 'e' := by
      unfold dtypeRuleName
      rw [String.data_append, List.getLast?_append]
      rfl
    have h2 : (dtypeRuleName c).data.getLast? = some '_' := by
      rw [← hpre, List.getLast?_append]
      rfl
    rw [h1] at h2
    exact absurd h2 (by decide)

theorem mem_of_lookup_some {α : Type _} {l : List (String × α)} {n : String} {c : α}
    (h : List.lookup n l = some c) : (n, c) ∈ l := by
  induction l with
  | nil => cases h
  | cons p l ih =>
    rcases p with ⟨k, d⟩
    cases hnk : (n == k) with
    | true =>
      rw [List.lookup_cons, hnk] at h
      cases h
      have hk : n = k := by simpa using hnk
      subst hk
      exact List.mem_cons_self _ _
    | false =>
      rw [List.lookup_cons, hnk] at h
      exact List.mem_cons_of_mem _ (ih h)

theorem getCol_some_mem {r : Row} {n : String} {v : Val}
    (h : getCol r n = some v) : (n, (some v : Cell)) ∈ r := by
  unfold getCol at h
  cases hl : List.lookup n r.reverse with
  | none => rw [hl] at h; cases h
  | some c =>
    rw [hl] at h
    have hc : c = some v := by simpa using h
    subst hc
    exact List.mem_reverse.1 (mem_of_lookup_some hl)

theorem lookup_eq_none_of_not_mem {α : Type _} {l : List (String × α)} {n : String}
    (h : n ∉ l.map Prod.fst) : List.lookup n l = none := by
  induction l with
  | nil => rfl
  | cons p l ih =>
    rcases p with ⟨k, v⟩
    simp only [List.map_cons, List.mem_cons] at h
    push_neg at h
    have hk : (n == k) = false := by simpa using h.1
    rw [List.lookup_cons, hk]
    exact ih h.2

theorem dictUpdate_disjoint {α : Type _} {base upd : List (String × α)}
    (h : ∀ n ∈ base.map Prod.fst, n ∉ upd.map Prod.fst)
    (h2 : ∀ n ∈ upd.map Prod.fst, n ∉ base.map Prod.fst) :
    dictUpdate base upd = base ++ upd := by
  unfold dictUpdate
  congr 1
  · have heach : ∀ p ∈ base, (p.1, (List.lookup p.1 upd).getD p.2) = p := by
      intro p hp
      rw [lookup_eq_none_of_not_mem (h p.1 (List.mem_map.2 ⟨p, hp, rfl⟩))]
      rfl
    rw [List.map_congr_left heach]
    simp
  · rw [List.filter_eq_self]
    intro p hp
    rw [lookup_eq_none_of_not_mem (h2 p.1 (List.mem_map.2 ⟨p, hp, rfl⟩))]
    rfl

theorem kleeneAnd2_false_left (b : Option Bool) :
    kleeneAnd2 (some false) b = some false := by
  rcases b with - | bb
  · rfl
  · cases bb <;> rfl

theorem kleeneAnd2_false_right (a : Option Bool) :
    kleeneAnd2 a (some false) = some false := by
  rcases a with - | aa
  · rfl
  · cases aa <;> rfl

theorem kleeneAll_eq_false_of_mem {l : List (Option Bool)} (h : some false ∈ l) :
    kleeneAll l = some false := by
  induction l with
  | nil => cases h
  | cons c l ih =>
    rcases List.mem_cons.1 h with rfl | hmem
    · exact kleeneAnd2_false_left _
    · rw [show kleeneAll (c :: l) = kleeneAnd2 c (kleeneAll l) from rfl, ih hmem]
      exact kleeneAnd2_false_right c

theorem hasCol_eq_mem_names (r : Row) (n : String) :
    hasCol r n = true ↔ n ∈ r.map Prod.fst := by
  unfold hasCol
  rw [List.any_eq_true]
  constructor
  · rintro ⟨p, hp, hb⟩
    have hpn : p.1 = n := by simpa using hb
    exact List.mem_map.2 ⟨p, hp, hpn⟩
  · rintro hm
    obtain ⟨p, hp, rfl⟩ := List.mem_map.1 hm
    exact ⟨p, hp, by simp⟩

theorem map_fst_map_pair (names : List String) (f : String → Cell) :
    ((names.map (fun n => (n, f n))).map Prod.fst) = names := by
  rw [List.map_map]
  have hcomp : (Prod.fst ∘ fun n : String => (n, f n)) = id := rfl
  rw [hcomp, List.map_id]

theorem getCol_filter_names (pred : String → Bool) {n : String}
    (hn : pred n = true) (r : Row) :
    getCol (r.filter (fun p => pred p.1)) n = getCol r n := by
  unfold getCol
  rw [← List.filter_reverse, lookup_filter_keep]
  intro c
  exact hn

/-- The row after dropping the null-mask snapshot columns
(`drop(cs.matches(...))`). -/
def keptRow (u : Row) : Row :=
  u.filter (fun p => !(strEndsWith p.1 origNullSuffix))

/-- The cast postprocessing of one row: drop the snapshot columns, then
replace every non-dtype rule column by null unless all dtype casts of the
row succeeded. -/
def castOverride (ruleNames : List String) (u : Row) : Row :=
  keptRow u ++ (ruleNames.filter (fun n => !(strEndsWith n "|dtype"))).map
    (fun n => (n, if allDtypeCastsValid (keptRow u) = some true
      then getCol (keptRow u) n else (none : Cell)))

theorem castPostprocess_eq_map (ruleNames : List String) (rows : List Row) :
    castPostprocess ruleNames rows = rows.map (castOverride ruleNames) := rfl

theorem evaluatedFrame_true_eq (er : List (String × Rule)) (lfRows : List Row) :
    evaluatedFrame er true lfRows = lfRows.map (fun r0 =>
      castOverride (er.map (·.1)) (enrichFull lfRows er r0) ++
        [(finalValidName, (some (Val.bool (finalValid (er.map (·.1))
          (castOverride (er.map (·.1)) (enrichFull lfRows er r0)))) : Cell))]) := by
  rw [show evaluatedFrame er true lfRows =
    (castPostprocess (er.map (·.1)) (withEvaluationRules lfRows er)).map (fun r =>
      r ++ [(finalValidName,
        (some (Val.bool (finalValid (er.map (·.1)) r)) : Cell))]) from rfl]
  rw [castPostprocess_eq_map, withEvaluationRules_eq_map_enrichFull,
    List.map_map, List.map_map]
  rfl

theorem getCol_keptRow {n : String} (hn : strEndsWith n origNullSuffix = false)
    (u : Row) : getCol (keptRow u) n = getCol u n := by
  unfold keptRow
  exact getCol_filter_names (fun m => !(strEndsWith m origNullSuffix))
    (by simp only []; rw [hn]; rfl) u

theorem getCol_castOverride_nonDtype {ruleNames : List String} {n : String}
    (hnodup : (ruleNames.filter (fun m => !(strEndsWith m "|dtype"))).Nodup)
    (hn : n ∈ ruleNames.filter (fun m => !(strEndsWith m "|dtype"))) (u : Row) :
    getCol (castOverride ruleNames u) n =
      if allDtypeCastsValid (keptRow u) = some true then getCol (keptRow u) n
      else none := by
  unfold castOverride
  have hbind : ((n, if allDtypeCastsValid (keptRow u) = some true
      then getCol (keptRow u) n else (none : Cell)) : String × Cell) ∈
      (ruleNames.filter (fun m => !(strEndsWith m "|dtype"))).map
        (fun m => (m, if allDtypeCastsValid (keptRow u) = some true
          then getCol (keptRow u) m else (none : Cell))) :=
    List.mem_map.2 ⟨n, hn, rfl⟩
  have hnd2 : ((((ruleNames.filter (fun m => !(strEndsWith m "|dtype"))).map
      (fun m => (m, if allDtypeCastsValid (keptRow u) = some true
        then getCol (keptRow u) m else (none : Cell)))).map Prod.fst)).Nodup := by
    rw [map_fst_map_pair]
    exact hnodup
  rw [getCol_append_of_hasCol ((hasCol_eq_mem_names _ _).2
    (List.mem_map.2 ⟨_, hbind, rfl⟩))]
  exact getCol_of_mem_nodup hnd2 hbind

theorem getCol_castOverride_other {ruleNames : List String} {n : String}
    (hn : n ∉ ruleNames.filter (fun m => !(strEndsWith m "|dtype"))) (u : Row) :
    getCol (castOverride ruleNames u) n = getCol (keptRow u) n := by
  unfold castOverride
  apply getCol_append_of_not_hasCol
  cases hh : hasCol ((ruleNames.filter (fun m => !(strEndsWith m "|dtype"))).map
      (fun m => (m, if allDtypeCastsValid (keptRow u) = some true
        then getCol (keptRow u) m else (none : Cell)))) n
  · rfl
  · exfalso
    have := (hasCol_eq_mem_names _ n).1 hh
    rw [map_fst_map_pair] at this
    exact hn this

theorem dtypeRules_names (cn : List String) :
    (dtypeRules cn).map Prod.fst = cn.map dtypeRuleName := by
  unfold dtypeRules
  rw [List.map_map]
  rfl

theorem effectiveRules_true_eq {cols : List (String × DType)}
    {rules : List (String × Rule)}
    (hndt : ∀ n ∈ rules.map Prod.fst, strEndsWith n "|dtype" = false) :
    effectiveRules (cols.map (·.1)) rules true =
      rules ++ dtypeRules (cols.map (·.1)) := by
  unfold effectiveRules
  rw [if_pos rfl]
  apply dictUpdate_disjoint
  · intro n hn hmem
    rw [dtypeRules_names] at hmem
    obtain ⟨c, -, rfl⟩ := List.mem_map.1 hmem
    have h1 := hndt _ hn
    rw [dtypeRuleName_endsWith] at h1
    cases h1
  · intro n hn hmem
    rw [dtypeRules_names] at hn
    obtain ⟨c, -, rfl⟩ := List.mem_map.1 hn
    have h1 := hndt _ hmem
    rw [dtypeRuleName_endsWith] at h1
    cases h1

theorem dtypeRuleName_inj : Function.Injective dtypeRuleName := by
  intro a b h
  unfold dtypeRuleName at h
  have hd : a.data ++ "|dtype".data = b.data ++ "|dtype".data := by
    rw [← String.data_append, ← String.data_append, h]
  have hde := List.append_cancel_right hd
  cases a
  cases b
  exact congrArg String.mk (by simpa using hde)

theorem er_names_nodup {cols : List (String × DType)} {rules : List (String × Rule)}
    (hnd : (rules.map Prod.fst).Nodup) (hndc : (cols.map (·.1) : List String).Nodup)
    (hndt : ∀ n ∈ rules.map Prod.fst, strEndsWith n "|dtype" = false) :
    ((rules ++ dtypeRules (cols.map (·.1))).map Prod.fst).Nodup := by
  rw [List.map_append, dtypeRules_names, List.nodup_append]
  refine ⟨hnd, hndc.map dtypeRuleName_inj, ?_⟩
  intro n hn hmem
  obtain ⟨c, -, rfl⟩ := List.mem_map.1 hmem
  have h1 := hndt _ hn
  rw [dtypeRuleName_endsWith] at h1
  cases h1

theorem finalValidName_ne_dtypeRuleName (c : String) :
    finalValidName ≠ dtypeRuleName c := by
  intro hcontra
  have h1 : (dtypeRuleName c).data.getLast? = some 'e' := by
    unfold dtypeRuleName
    rw [String.data_append, List.getLast?_append]
    rfl
  rw [← hcontra] at h1
  have h2 : finalValidName.data.getLast? = some '_' := rfl
  rw [h2] at h1
  exact absurd h1 (by decide)

theorem dtype_not_mem_nonDtype (c : String) (names : List String) :
    dtypeRuleName c ∉ names.filter (fun m => !(strEndsWith m "|dtype")) := by
  intro hcontra
  have h1 : (!(strEndsWith (dtypeRuleName c) "|dtype")) = true :=
    (List.mem_filter.1 hcontra).2
  rw [dtypeRuleName_endsWith] at h1
  cases h1

theorem allDtypeCastsValid_false_of_mem {u : Row} {c : String}
    (h : getCol u (dtypeRuleName c) = some (Val.bool false)) :
    allDtypeCastsValid u = some false := by
  have hmem : ((dtypeRuleName c, (some (Val.bool false) : Cell)) : String × Cell) ∈ u :=
    getCol_some_mem h
  have hmem2 : ((dtypeRuleName c, (some (Val.bool false) : Cell)) : String × Cell) ∈
      u.filter (fun p => strEndsWith p.1 "|dtype") :=
    List.mem_filter.2 ⟨hmem, dtypeRuleName_endsWith c⟩
  unfold allDtypeCastsValid
  exact kleeneAll_eq_false_of_mem
    (List.mem_map.2 ⟨(dtypeRuleName c, (some (Val.bool false) : Cell)), hmem2, rfl⟩)

theorem failingRuleSet_append_left_none {r : Row} {ns1 ns2 : List String}
    (h : ∀ n ∈ ns1, getCol r n = none) :
    failingRuleSet (ns1 ++ ns2) r = failingRuleSet ns2 r := by
  unfold failingRuleSet
  rw [List.filter_append]
  have h1 : ns1.filter (fun n => rowFails r n) = ns1.filter (fun _ => false) := by
    apply List.filter_congr
    intro n hn
    show rowFails r n = false
    unfold rowFails
    rw [h n hn]
    rfl
  rw [h1, List.filter_false, List.nil_append]

/-- One row of the evaluated frame on the cast path: the cast override of
the fully enriched row, plus its `__final_valid__` cell. -/
def castEvalRow (er : List (String × Rule)) (rows : List Row) (r0 : Row) : Row :=
  castOverride (er.map (·.1)) (enrichFull rows er r0) ++
    [(finalValidName, (some (Val.bool (finalValid (er.map (·.1))
      (castOverride (er.map (·.1)) (enrichFull rows er r0)))) : Cell))]

theorem evaluatedFrame_true_eq_castEvalRow (er : List (String × Rule))
    (lfRows : List Row) :
    evaluatedFrame er true lfRows = lfRows.map (castEvalRow er lfRows) :=
  evaluatedFrame_true_eq er lfRows

/-- A `"<col>|dtype"` outcome cell survives the cast override untouched:
the final-validity cell and the non-dtype overrides do not shadow it and
only the snapshot columns are dropped. -/
theorem getCol_castEvalRow_dtype {er : List (String × Rule)} (c : String)
    (rows : List Row) (r0 : Row) :
    getCol (castEvalRow er rows r0) (dtypeRuleName c) =
      getCol (keptRow (enrichFull rows er r0)) (dtypeRuleName c) := by
  unfold castEvalRow
  rw [getCol_append_single_ne (finalValidName_ne_dtypeRuleName c).symm]
  exact getCol_castOverride_other (dtype_not_mem_nonDtype c _) _

/-- A non-dtype rule outcome cell after the cast override: kept when every
dtype cast of the row succeeded, null otherwise. -/
theorem getCol_castEvalRow_rule {er : List (String × Rule)} {n : String}
    (hnodup : ((er.map (·.1) : List String)).Nodup)
    (hmem : n ∈ er.map (·.1))
    (hn : strEndsWith n "|dtype" = false) (hne : finalValidName ≠ n)
    (rows : List Row) (r0 : Row) :
    getCol (castEvalRow er rows r0) n =
      if allDtypeCastsValid (keptRow (enrichFull rows er r0)) = some true
      then getCol (keptRow (enrichFull rows er r0)) n else none := by
  unfold castEvalRow
  rw [getCol_append_single_ne hne.symm]
  refine getCol_castOverride_nonDtype (hnodup.filter _) ?_ _
  refine List.mem_filter.2 ⟨hmem, ?_⟩
  show (!(strEndsWith n "|dtype")) = true
  rw [hn]
  rfl

/-- C3: when `filter` is called with `cast = true`, the evaluated rule set
is the user rules with the synthesized `"<col>|dtype"` rules appended, and
every row of the evaluated frame carries a non-null boolean outcome for
every dtype rule; on any row where some dtype rule evaluated to false, all
non-dtype rule outcome columns are forced to null — never false — so the
row's attributed failure set is exactly its set of failing dtype rules. -/
theorem cast_failure_suppression {castFn : CastFn} {cols : List (String × DType)}
    {rules : List (String × Rule)} {f : Frame} {valid ev : List Row}
    (h : filterRaw castFn cols rules f true = .ok (valid, some ev))
    (hnd : (rules.map Prod.fst).Nodup)
    (hndc : ((cols.map (·.1)) : List String).Nodup)
    (hndt : ∀ n ∈ rules.map Prod.fst, strEndsWith n "|dtype" = false)
    (hfv : finalValidName ∉ rules.map Prod.fst) :
    effectiveRules (cols.map (·.1)) rules true =
      rules ++ dtypeRules (cols.map (·.1)) ∧
    ∀ r ∈ ev,
      (∀ c ∈ (cols.map (·.1) : List String), ∃ b : Bool,
          getCol r (dtypeRuleName c) = some (Val.bool b)) ∧
      ((∃ c ∈ (cols.map (·.1) : List String),
          getCol r (dtypeRuleName c) = some (Val.bool false)) →
        (∀ n ∈ rules.map Prod.fst, getCol r n = none) ∧
        failingRuleSet ((rules ++ dtypeRules (cols.map (·.1))).map (·.1)) r =
          failingRuleSet ((cols.map (·.1)).map dtypeRuleName) r) := by
  obtain ⟨lf, hval, hne, hlazy, hev, hvv⟩ := filterRaw_ok_some h
  have heff : effectiveRules (cols.map (·.1)) rules true =
      rules ++ dtypeRules (cols.map (·.1)) := effectiveRules_true_eq hndt
  refine ⟨heff, ?_⟩
  intro r hr
  rw [hev, heff, evaluatedFrame_true_eq_castEvalRow, List.mem_map] at hr
  obtain ⟨r0, hr0, rfl⟩ := hr
  have hernodup : (((rules ++ dtypeRules (cols.map (·.1))).map (·.1) :
      List String)).Nodup := er_names_nodup hnd hndc hndt
  refine ⟨?_, ?_⟩
  · intro c hc
    have hmemd : ((dtypeRuleName c, Rule.simple (fun _ r =>
        polarsEq (some (Val.bool (getCol r c).isNone))
          (getCol r (c ++ origNullSuffix)))) : String × Rule) ∈
        rules ++ dtypeRules (cols.map (·.1)) :=
      List.mem_append.2 (.inr (List.mem_map.2 ⟨c, hc, rfl⟩))
    have hx := getCol_enrichFull hernodup hmemd rfl lf.rows r0
    rw [← getCol_keptRow (dtypeRuleName_not_orig c),
      ← getCol_castEvalRow_dtype c] at hx
    exact ⟨_, hx⟩
  · rintro ⟨c0, hc0, hfalse⟩
    rw [getCol_castEvalRow_dtype c0] at hfalse
    have hall : allDtypeCastsValid (keptRow (enrichFull lf.rows
        (rules ++ dtypeRules (cols.map (·.1))) r0)) = some false :=
      allDtypeCastsValid_false_of_mem hfalse
    have hcond : ¬ (allDtypeCastsValid (keptRow (enrichFull lf.rows
        (rules ++ dtypeRules (cols.map (·.1))) r0)) = some true) := by
      rw [hall]
      decide
    have hforced : ∀ n ∈ rules.map Prod.fst,
        getCol (castEvalRow (rules ++ dtypeRules (cols.map (·.1))) lf.rows r0) n
          = none := by
      intro n hn
      have hmem2 : n ∈ (rules ++ dtypeRules (cols.map (·.1))).map (·.1) := by
        rw [List.map_append]
        exact List.mem_append.2 (.inl hn)
      have hne2 : finalValidName ≠ n := by
        intro hcontra
        rw [hcontra] at hfv
        exact hfv hn
      rw [getCol_castEvalRow_rule hernodup hmem2 (hndt n hn) hne2, if_neg hcond]
    refine ⟨hforced, ?_⟩
    have hern : (((rules ++ dtypeRules (cols.map (·.1))).map (·.1)) :
        List String) =
        rules.map Prod.fst ++ (cols.map (·.1)).map dtypeRuleName := by
      rw [List.map_append]
      show rules.map Prod.fst ++ (dtypeRules (cols.map (·.1))).map Prod.fst =
        rules.map Prod.fst ++ (cols.map (·.1)).map dtypeRuleName
      rw [dtypeRules_names]
    rw [hern]
    exact failingRuleSet_append_left_none hforced

/-! ## C8 -/

theorem mem_columnRules_names_bar {columns : List (String × Column)} {m : String}
    (h : m ∈ (columnRules columns).map Prod.fst) : '|' ∈ m.data := by
  rw [List.mem_map] at h
  obtain ⟨p, hp, rfl⟩ := h
  unfold columnRules at hp
  rw [List.mem_flatMap] at hp
  obtain ⟨nc, hnc, hmem⟩ := hp
  rw [List.mem_map] at hmem
  obtain ⟨nr, hnr, rfl⟩ := hmem
  show '|' ∈ (columnRuleName nc.1 nr.1).data
  unfold columnRuleName
  rw [String.data_append, String.data_append]
  refine List.mem_append.2 (.inl (List.mem_append.2 (.inr ?_)))
  decide

/-- C8: all name-consistency violations are caught at schema-definition
time — the metaclass accepts a schema iff no custom rule is named
`primary_key`, no column name collides with any rule name (including the
synthesized `"<col>|dtype"` names), and every group rule references only
schema columns; and for every accepted schema whose custom rule names are
Python identifiers (hence contain no `'|'`), the rule names of the three
sources of the compiled rule set are pairwise distinct. -/
theorem definition_time_checks {columns : List (String × Column)}
    {custom : List (String × Rule)}
    (hcb : ∀ n ∈ custom.map Prod.fst, ¬ ('|' ∈ n.data)) :
    (checkSchemaDefinition columns custom = .ok () ↔
      ((¬ ∃ nr ∈ custom, nr.1 = "primary_key") ∧
       (∀ n ∈ columns.map (·.1),
         ¬ (n ∈ (buildRules custom columns).map (·.1) ∨
            n ∈ (columns.map (·.1)).map dtypeRuleName)) ∧
       (∀ nr ∈ custom, ∀ gcols, nr.2.groupColumnsOf = some gcols →
         ∀ c ∈ gcols, c ∈ columns.map (·.1)))) ∧
    (checkSchemaDefinition columns custom = .ok () →
      ("primary_key" ∉ custom.map Prod.fst ∧
       "primary_key" ∉ (columnRules columns).map Prod.fst ∧
       ∀ n ∈ custom.map Prod.fst, n ∉ (columnRules columns).map Prod.fst)) := by
  have hdistinct : "primary_key" ∉ (columnRules columns).map Prod.fst ∧
      ∀ n ∈ custom.map Prod.fst, n ∉ (columnRules columns).map Prod.fst := by
    constructor
    · intro hc
      have := mem_columnRules_names_bar hc
      revert this
      decide
    · intro n hn hc
      exact hcb n hn (mem_columnRules_names_bar hc)
  unfold checkSchemaDefinition
  by_cases hany : custom.any (fun nr => nr.1 == "primary_key") = true
  · rw [if_pos hany]
    have hX2 : ∃ nr ∈ custom, nr.1 = "primary_key" := by
      rw [List.any_eq_true] at hany
      obtain ⟨nr, hmem, hb⟩ := hany
      exact ⟨nr, hmem, by simpa using hb⟩
    refine ⟨⟨fun h => absurd h (by simp), fun hr => absurd hX2 hr.1⟩,
      fun h => absurd h (by simp)⟩
  · rw [if_neg hany]
    have hnX2 : ¬ ∃ nr ∈ custom, nr.1 = "primary_key" := by
      intro ⟨nr, hmem, hname⟩
      exact hany (List.any_eq_true.2 ⟨nr, hmem, by simpa using hname⟩)
    have hpk_custom : "primary_key" ∉ custom.map Prod.fst := by
      intro hc
      rw [List.mem_map] at hc
      obtain ⟨nr, hmem, hname⟩ := hc
      exact hnX2 ⟨nr, hmem, hname⟩
    dsimp only
    by_cases hcom : (List.filter
        (fun n => ((buildRules custom columns).map (·.1) ++
          (columns.map (·.1)).map dtypeRuleName).contains n)
        (columns.map (·.1))).isEmpty = true
    · have hcom2 : ∀ n ∈ columns.map (·.1),
          ¬ (n ∈ (buildRules custom columns).map (·.1) ∨
             n ∈ (columns.map (·.1)).map dtypeRuleName) := by
        rw [List.isEmpty_eq_true, List.filter_eq_nil_iff] at hcom
        intro n hn hor
        exact hcom n hn (List.elem_iff.2 (List.mem_append.2 hor))
      rw [if_neg (by simpa using hcom)]
      cases hfind : custom.findSome? (fun nr =>
          match nr.2.groupColumnsOf with
          | some gcols =>
            let missing := gcols.filter (fun c => !((columns.map (·.1)).contains c))
            if missing.isEmpty then none else some (nr.1, missing)
          | none => none) with
      | none =>
        have hX3 : ∀ nr ∈ custom, ∀ gcols, nr.2.groupColumnsOf = some gcols →
            ∀ c ∈ gcols, c ∈ columns.map (·.1) := by
          rw [List.findSome?_eq_none_iff] at hfind
          intro nr hmem gcols hg c hc
          have := hfind nr hmem
          rw [hg] at this
          dsimp only at this
          by_cases hm : (gcols.filter (fun c => !((columns.map (·.1)).contains c))).isEmpty = true
          · rw [List.isEmpty_eq_true, List.filter_eq_nil_iff] at hm
            have := hm c hc
            simpa using this
          · rw [if_neg (by simpa using hm)] at this
            cases this
        refine ⟨⟨fun _ => ⟨hnX2, hcom2, hX3⟩, fun _ => rfl⟩,
          fun _ => ⟨hpk_custom, hdistinct.1, hdistinct.2⟩⟩
      | some nm =>
        have hX3bad : ¬ (∀ nr ∈ custom, ∀ gcols, nr.2.groupColumnsOf = some gcols →
            ∀ c ∈ gcols, c ∈ columns.map (·.1)) := by
          obtain ⟨nr, hmem, hf⟩ := List.exists_of_findSome?_eq_some hfind
          intro hall
          revert hf
          cases hg : nr.2.groupColumnsOf with
          | none => intro hf; cases hf
          | some gcols =>
            dsimp only
            by_cases hm : (gcols.filter
                (fun c => !((columns.map (·.1)).contains c))).isEmpty = true
            · rw [if_pos hm]
              intro hf
              cases hf
            · intro hf
              have hne : (gcols.filter
                  (fun c => !((columns.map (·.1)).contains c))) ≠ [] := by
                intro h0
                exact hm (by rw [List.isEmpty_eq_true]; exact h0)
              obtain ⟨c, hcmem⟩ := List.exists_mem_of_ne_nil _ hne
              have hc := List.mem_of_mem_filter hcmem
              have hcc := List.of_mem_filter hcmem
              have hmemcol := hall nr hmem gcols hg c hc
              have hcon : ((columns.map (·.1)).contains c) = true :=
                List.elem_iff.2 hmemcol
              rw [hcon] at hcc
              cases hcc
        refine ⟨⟨fun h => absurd h (by simp), fun hr => absurd hr.2.2 hX3bad⟩,
          fun h => absurd h (by simp)⟩
    · rw [if_pos (by simpa using hcom)]
      have hX1 : ¬ (∀ n ∈ columns.map (·.1),
          ¬ (n ∈ (buildRules custom columns).map (·.1) ∨
             n ∈ (columns.map (·.1)).map dtypeRuleName)) := by
        intro hall
        refine hcom ?_
        rw [List.isEmpty_eq_true, List.filter_eq_nil_iff]
        intro n hn
        have hni := hall n hn
        simp only [Bool.not_eq_true]
        cases hcon : ((buildRules custom columns).map (·.1) ++
            (columns.map (·.1)).map dtypeRuleName).contains n
        · rfl
        · exact absurd (List.mem_append.1 (List.elem_iff.1 hcon)) hni
      refine ⟨⟨fun h => absurd h (by simp), fun hr => absurd hr.2.1 hX1⟩,
        fun h => absurd h (by simp)⟩

/-- A concrete column with one validation rule, for the C8 witness. -/
def c8col : Column :=
  ⟨.int, true,
   [("max", fun _ c =>
     match c with
     | some (.int i) => some (decide (i ≤ 10))
     | _ => none)],
   fun _ k => (List.range k).map (fun j => some (.int j))⟩

/-- Columns of the C8 witness schema. -/
def c8columns : List (String × Column) := [("a", c8col)]

/-- Custom rules of the C8 witness schema: one group rule over `a`. -/
def c8custom : List (String × Rule) :=
  [("myrule", .group ["a"] (fun rs => some (decide (rs.length ≤ 5))))]

/-- Witness for C8: the concrete schema passes the definition-time checks
and its three rule-name sources are pairwise distinct. -/
theorem definition_time_checks_witness :
    checkSchemaDefinition c8columns c8custom = .ok () ∧
    ("primary_key" ∉ c8custom.map Prod.fst ∧
     "primary_key" ∉ (columnRules c8columns).map Prod.fst ∧
     ∀ n ∈ c8custom.map Prod.fst, n ∉ (columnRules c8columns).map Prod.fst) :=
  have hok : checkSchemaDefinition c8columns c8custom = .ok () := by rfl
  ⟨hok, (definition_time_checks (by decide)).2 hok⟩

/-! ## Concrete instances used by the witnesses -/

/-- A concrete cast function for witnesses: no cross-type cast is
representable (every actual cast attempt yields null). -/
def noCastFn : CastFn := fun _ _ _ => none

/-- A concrete row rule for witnesses: the column `a` must be positive
(null where `a` is null, polars comparison semantics). -/
def exRule : String × Rule :=
  ("r", .simple (fun _ r =>
    match getCol r "a" with
    | some (.int i) => some (decide (0 < i))
    | _ => none))

/-- A concrete input frame for witnesses: a positive, a negative and a null
value of the single column `a`. -/
def exFrame : Frame :=
  ⟨[("a", .int)],
   [[("a", some (.int 1))], [("a", some (.int (-1)))], [("a", none)]]⟩

/-- The valid subset `filter` returns on `exFrame`: the null row is valid. -/
def exValid : List Row := [[("a", some (.int 1))], [("a", none)]]

/-- The failure info rows `filter` returns on `exFrame`. -/
def exFailRows : List Row :=
  [[("a", some (.int (-1))), ("r", some (.bool false))]]

/-- Columns of the two-column witness schema with a group rule. -/
def c1cols : List (String × DType) := [("g", .int), ("v", .int)]

/-- Witness rules: a row rule on `v` (null when `v` is null) and a group
rule over `g` requiring groups of at least two rows. -/
def c1rules : List (String × Rule) :=
  [("rv", .simple (fun _ r =>
      match getCol r "v" with
      | some (.int i) => some (decide (0 < i))
      | _ => none)),
   ("rg", .group ["g"] (fun rs => some (decide (2 ≤ rs.length))))]

/-- Witness frame: the second row has `v = null` (the row rule evaluates to
null there), the third row is alone in its group. -/
def c1frame : Frame :=
  ⟨[("g", .int), ("v", .int)],
   [[("g", some (.int 1)), ("v", some (.int 1))],
    [("g", some (.int 1)), ("v", none)],
    [("g", some (.int 2)), ("v", some (.int (-1)))]]⟩

/-- The valid subset on `c1frame`: the null-rule row is kept. -/
def c1valid : List Row :=
  [[("g", some (.int 1)), ("v", some (.int 1))],
   [("g", some (.int 1)), ("v", none)]]

/-- The evaluated frame on `c1frame`. -/
def c1ev : List Row :=
  [[("g", some (.int 1)), ("v", some (.int 1)),
    ("rg", some (.bool true)), ("rv", some (.bool true)),
    ("__final_valid__", some (.bool true))],
   [("g", some (.int 1)), ("v", none),
    ("rg", some (.bool true)), ("rv", some (.bool true)),
    ("__final_valid__", some (.bool true))],
   [("g", some (.int 2)), ("v", some (.int (-1))),
    ("rg", some (.bool false)), ("rv", some (.bool false)),
    ("__final_valid__", some (.bool false))]]

/-- The validated frame on `c1frame` (identical columns and dtypes). -/
def c1lf : Frame := ⟨[("g", .int), ("v", .int)], c1frame.rows⟩

/-- Witness for C1: on `c1frame`, the row whose row-rule evaluation is null
is kept in the valid subset; the valid subset is exactly the rows where no
rule evaluated to false. -/
theorem null_is_valid_witness :
    filterRaw noCastFn c1cols c1rules c1frame false = .ok (c1valid, some c1ev) ∧
    validateSchema noCastFn c1cols .nocast c1frame = .ok c1lf ∧
    c1valid = c1lf.rows.filter (noRuleFalse c1lf.rows c1rules) :=
  have h : filterRaw noCastFn c1cols c1rules c1frame false =
      .ok (c1valid, some c1ev) := by rfl
  have hv : validateSchema noCastFn c1cols .nocast c1frame = .ok c1lf := by rfl
  ⟨h, hv, (null_is_valid h hv (by decide) (by decide)).2.2⟩

/-! ## C2 -/

/-- C2: the valid subset is a subsequence of the input's rows (projected
onto the schema columns): the validated frame is the input rows in order,
the group joins are an order- and count-preserving per-row enrichment, and
the valid subset is obtained by a plain filter, so it keeps exactly the
rows whose final validity holds, in their original relative order. -/
theorem filter_order_preservation {castFn : CastFn} {cols : List (String × DType)}
    {rules : List (String × Rule)} {f : Frame} {valid ev : List Row} {lf : Frame}
    (h : filterRaw castFn cols rules f false = .ok (valid, some ev))
    (hv : validateSchema castFn cols .nocast f = .ok lf)
    (hnd : (rules.map Prod.fst).Nodup)
    (hdisjc : ∀ n ∈ cols.map Prod.fst, n ∉ rules.map Prod.fst ∧ n ≠ finalValidName) :
    lf.rows = f.rows.map (projRow (cols.map (·.1))) ∧
    withGroupRules lf.rows rules = lf.rows.map (enrichGroup lf.rows rules) ∧
    ev.length = f.rows.length ∧
    valid = lf.rows.filter (noRuleFalse lf.rows rules) ∧
    valid.Sublist (f.rows.map (projRow (cols.map (·.1)))) := by
  obtain ⟨lf2, hv2, hne, hlazy, hev, hvv⟩ := filterRaw_ok_some h
  have heff : effectiveRules (cols.map (·.1)) rules false = rules := rfl
  rw [heff] at hne hlazy hev hvv
  have hlf : lf2 = lf := by
    have hv2b : validateSchema castFn cols .nocast f = .ok lf2 := hv2
    rw [hv2b] at hv
    exact Except.ok.inj hv
  rw [hlf] at hev
  have hnl := nonlazy_of_filter_isEmpty hlazy
  have hrows := validateSchema_nocast_rows hv
  have hshape : ∀ r0 ∈ lf.rows, ∀ p ∈ r0,
      ¬ (finalValidName :: rules.map Prod.fst).contains p.1 := by
    intro r0 hr0 p hp
    rw [hrows] at hr0
    obtain ⟨rf, -, rfl⟩ := List.mem_map.1 hr0
    unfold projRow at hp
    obtain ⟨n, hn, rfl⟩ := List.mem_map.1 hp
    obtain ⟨hn1, hn2⟩ := hdisjc n hn
    simp [List.contains_cons, hn1, hn2]
  have hvalid : valid = lf.rows.filter (noRuleFalse lf.rows rules) := by
    rw [hvv, hev]
    exact validSubset_evaluatedFrame_false hnd hnl hshape
  refine ⟨hrows, rfl, ?_, hvalid, ?_⟩
  · rw [hev, length_evaluatedFrame]
    exact validateSchema_ok_length hv
  · rw [hvalid, ← hrows]
    exact List.filter_sublist lf.rows

/-- Witness for C2 on the concrete group-rule schema of the C1 witness. -/
theorem filter_order_preservation_witness :
    filterRaw noCastFn c1cols c1rules c1frame false = .ok (c1valid, some c1ev) ∧
    c1valid.Sublist (c1frame.rows.map (projRow (c1cols.map (·.1)))) :=
  have h : filterRaw noCastFn c1cols c1rules c1frame false =
      .ok (c1valid, some c1ev) := by rfl
  have hv : validateSchema noCastFn c1cols .nocast c1frame = .ok c1lf := by rfl
  ⟨h, (filter_order_preservation h hv (by decide) (by decide)).2.2.2.2⟩

/-- Columns of the C3 witness schema: one int column. -/
def c3cols : List (String × DType) := [("a", DType.int)]

/-- The single user rule of the C3 witness: `a` must be non-negative. -/
def c3rules : List (String × Rule) :=
  [("a_nonneg", Rule.simple (fun _ r =>
    match getCol r "a" with
    | some (.int i) => some (decide (0 ≤ i))
    | _ => none))]

/-- Input frame of the C3 witness: a string value no cast can represent as
an int. -/
def c3frame : Frame := ⟨[("a", DType.str)], [[("a", some (Val.str "x"))]]⟩

/-- The single evaluated row `filter` produces on `c3frame` when casting:
the cast failure makes the dtype rule false and shadows the `a_nonneg`
outcome with null. -/
def c3evRow : Row :=
  [("a", none),
   ("a_nonneg", some (Val.bool true)),
   ("a|dtype", some (Val.bool false)),
   ("a_nonneg", none),
   ("__final_valid__", some (Val.bool false))]

/-- Witness for C3: on `c3frame` the lenient cast of `"x"` to int fails,
the synthesized dtype rule evaluates to false, the user rule's outcome is
forced to null, and the row's failure set is exactly the dtype rules. -/
theorem cast_failure_suppression_witness :
    filterRaw noCastFn c3cols c3rules c3frame true = .ok ([], some [c3evRow]) ∧
    (∀ n ∈ c3rules.map Prod.fst, getCol c3evRow n = none) ∧
    failingRuleSet ((c3rules ++ dtypeRules (c3cols.map (·.1))).map (·.1)) c3evRow =
      failingRuleSet ((c3cols.map (·.1)).map dtypeRuleName) c3evRow :=
  have h : filterRaw noCastFn c3cols c3rules c3frame true =
      .ok ([], some [c3evRow]) := by rfl
  have hrow := (cast_failure_suppression h (by decide) (by decide) (by decide)
      (by decide)).2 c3evRow (List.Mem.head _)
  have hsup := hrow.2 ⟨"a", by decide, by rfl⟩
  ⟨h, hsup.1, hsup.2⟩

/-! ## C10 -/

/-- First row of the C10 dependence scenario (valid under both rules when
its group is large enough). -/
def c10row1 : Row := [("g", some (.int 1)), ("v", some (.int 1))]

/-- Sibling row of the same group that fails the row rule `rv`. -/
def c10rowBad : Row := [("g", some (.int 1)), ("v", some (.int (-1)))]

/-- Frame with the invalid sibling present. -/
def c10rowsA : List Row := [c10row1, c10rowBad]

/-- Frame with the invalid sibling removed. -/
def c10rowsB : List Row := [c10row1]

/-- C10: group rules are aggregated over all rows of the input frame,
including rows failing other rules: every group-rule outcome cell is the
aggregate over the row's group taken in the full validated frame (no rule
filtering happens first), and concretely, removing a sibling row that
itself fails a row rule flips the surviving row's group verdict. -/
theorem group_rules_unfiltered {castFn : CastFn} {cols : List (String × DType)}
    {rules : List (String × Rule)} {f : Frame} {valid ev : List Row} {lf : Frame}
    (h : filterRaw castFn cols rules f false = .ok (valid, some ev))
    (hv : validateSchema castFn cols .nocast f = .ok lf)
    (hnd : (rules.map Prod.fst).Nodup) :
    (ev = lf.rows.map (fun r0 =>
        enrichFull lf.rows rules r0 ++
          [(finalValidName,
            (some (Val.bool (finalValid (rules.map (·.1)) (enrichFull lf.rows rules r0))) : Cell))]) ∧
      ∀ n gcols agg, (n, Rule.group gcols agg) ∈ rules → ∀ r0 : Row,
        getCol (enrichFull lf.rows rules r0) n =
          some (Val.bool ((agg (groupRows gcols lf.rows r0)).getD true))) ∧
    (c10rowsA = c10rowsB ++ [c10rowBad] ∧
      noRuleFalse c10rowsA c1rules c10rowBad = false ∧
      getCol (enrichFull c10rowsA c1rules c10row1) "rg" = some (Val.bool true) ∧
      getCol (enrichFull c10rowsB c1rules c10row1) "rg" = some (Val.bool false)) := by
  obtain ⟨lf2, hv2, hne, hlazy, hev, hvv⟩ := filterRaw_ok_some h
  have heff : effectiveRules (cols.map (·.1)) rules false = rules := rfl
  rw [heff] at hne hlazy hev hvv
  have hlf : lf2 = lf := by
    have hv2b : validateSchema castFn cols .nocast f = .ok lf2 := hv2
    rw [hv2b] at hv
    exact Except.ok.inj hv
  rw [hlf] at hev
  refine ⟨⟨?_, ?_⟩, rfl, by rfl, by rfl, by rfl⟩
  · rw [hev, evaluatedFrame_false_eq]
  · intro n gcols agg hmem r0
    have hgc := getCol_enrichGroup_group hnd hmem lf.rows r0
    unfold enrichFull
    rw [getCol_enrichSimple_of_group hnd hmem]
    exact hgc

/-- Witness for C10 at the concrete group-rule schema. -/
theorem group_rules_unfiltered_witness :
    filterRaw noCastFn c1cols c1rules c1frame false = .ok (c1valid, some c1ev) ∧
    getCol (enrichFull c1lf.rows c1rules (c1lf.rows.getD 0 []))  "rg" =
      some (Val.bool ((some (decide (2 ≤ (groupRows ["g"] c1lf.rows
        (c1lf.rows.getD 0 [])).length)) : Option Bool).getD true)) :=
  have h : filterRaw noCastFn c1cols c1rules c1frame false =
      .ok (c1valid, some c1ev) := by rfl
  have hv : validateSchema noCastFn c1cols .nocast c1frame = .ok c1lf := by rfl
  ⟨h, (group_rules_unfiltered h hv (by decide)).1.2 "rg" ["g"]
    (fun rs => some (decide (2 ≤ rs.length)))
    (by simp [c1rules]) (c1lf.rows.getD 0 [])⟩

/-- Witness for C7 on the single-rule witness schema: one failing row, one
count bucket. -/
theorem failure_counts_consistency_witness :
    filterMethod noCastFn [("a", DType.int)] [exRule] exFrame false =
      .ok (exValid, ⟨exFailRows, ["r"]⟩) ∧
    ("__final_valid__" ∉ (effectiveRules ["a"] [exRule] false).map (·.1)) ∧
    exFailRows.length ≤ ((FailureInfo.mk exFailRows ["r"]).counts.map (·.2)).sum :=
  have hfm : filterMethod noCastFn [("a", DType.int)] [exRule] exFrame false =
      .ok (exValid, ⟨exFailRows, ["r"]⟩) := by rfl
  have hfv : ("__final_valid__" : String) ∉
      (effectiveRules ["a"] [exRule] false).map (·.1) := by
    simp [effectiveRules, exRule]
  ⟨hfm, hfv, (failure_counts_consistency hfm hfv).1⟩

/-! ## C9 -/

/-- C9: for every `filter` call that returns, the two outputs partition the
input rows: the height of the valid subset plus the number of failing rows
equals the input height (group joins preserve row count, `__final_valid__`
is never null, and the two outputs are selected by complementary
predicates on it). -/
theorem filter_partition {castFn : CastFn} {cols : List (String × DType)}
    {rules : List (String × Rule)} {f : Frame} {cast : Bool}
    {valid : List Row} {fi : FailureInfo}
    (h : filterMethod castFn cols rules f cast = .ok (valid, fi)) :
    valid.length + fi.rows.length = f.rows.length := by
  rcases filterMethod_ok_cases h with ⟨hr, hrow, -⟩ | ⟨ev, hr, hrow, -⟩
  · obtain ⟨lf, hv, -, hvv⟩ := filterRaw_ok_none hr
    rw [hrow, hvv, ← validateSchema_ok_length hv]
    simp
  · obtain ⟨lf, hv, -, -, hev, hvv⟩ := filterRaw_ok_some hr
    rw [hrow, hvv, hev, List.length_map, ← validateSchema_ok_length hv]
    exact length_validSubset_add _ _ _ _

/-- Witness for C9 at a concrete schema, rule and frame. -/
theorem filter_partition_witness :
    filterMethod noCastFn [("a", DType.int)] [exRule] exFrame false =
      .ok (exValid, ⟨exFailRows, ["r"]⟩) ∧
    exValid.length + exFailRows.length = exFrame.rows.length :=
  have hfm : filterMethod noCastFn [("a", DType.int)] [exRule] exFrame false =
      .ok (exValid, ⟨exFailRows, ["r"]⟩) := by rfl
  ⟨hfm, filter_partition hfm⟩

/-! ## C6 -/

/-- C6: once the structural schema check passes (i.e. `filter` returns),
`validate` raises a rule-validation error iff `filter` reports at least one
failing row, and otherwise returns exactly the valid subset `filter`
returns: rule violations are soft at the `filter` layer and hard only at
the `validate` layer. -/
theorem validate_iff_filter_failures {castFn : CastFn}
    {cols : List (String × DType)} {rules : List (String × Rule)} {f : Frame}
    {cast : Bool} {valid : List Row} {fi : FailureInfo}
    (h : filterMethod castFn cols rules f cast = .ok (valid, fi)) :
    ((∃ cts, validateMethod castFn cols rules f cast = .error (.rules cts)) ↔
      fi.rows ≠ []) ∧
    (fi.rows = [] → validateMethod castFn cols rules f cast = .ok valid) ∧
    (fi.rows ≠ [] →
      validateMethod castFn cols rules f cast = .error (.rules fi.counts)) := by
  unfold validateMethod
  rw [h]
  dsimp only
  by_cases hl : fi.rows.length > 0
  · rw [if_pos hl]
    have hne : fi.rows ≠ [] := by
      intro h0
      rw [h0] at hl
      simp at hl
    exact ⟨⟨fun _ => hne, fun _ => ⟨fi.counts, rfl⟩⟩,
      fun h0 => absurd h0 hne, fun _ => rfl⟩
  · have hnil : fi.rows = [] := by
      cases hrows : fi.rows with
      | nil => rfl
      | cons a l => rw [hrows] at hl; simp at hl
    rw [if_neg hl]
    refine ⟨⟨fun hex => ?_, fun hc => absurd hnil hc⟩,
      fun _ => rfl, fun hc => absurd hnil hc⟩
    obtain ⟨cts, hc⟩ := hex
    cases hc

/-- Witness for C6: on `exFrame` one row fails, so `validate` raises with
the failure counts. -/
theorem validate_iff_filter_failures_witness :
    filterMethod noCastFn [("a", DType.int)] [exRule] exFrame false =
      .ok (exValid, ⟨exFailRows, ["r"]⟩) ∧
    ((∃ cts, validateMethod noCastFn [("a", DType.int)] [exRule] exFrame false =
        .error (.rules cts)) ↔ exFailRows ≠ []) :=
  have hfm : filterMethod noCastFn [("a", DType.int)] [exRule] exFrame false =
      .ok (exValid, ⟨exFailRows, ["r"]⟩) := by rfl
  ⟨hfm, (validate_iff_filter_failures hfm).1⟩

/-! ## Lemmas about the sampling loop (C5) -/

theorem length_sampledRows (columns : List (String × Column)) (ovCols : List String)
    (round k : Nat) (remaining : List Row) :
    (sampledRows columns ovCols round k remaining).length = k := by
  unfold sampledRows
  simp

theorem maskFilter_nil (mask : List Bool) : maskFilter ([] : List α) mask = [] := rfl

theorem maskFilter_cons_true (a : α) (l : List α) (mask : List Bool) :
    maskFilter (a :: l) (true :: mask) = a :: maskFilter l mask := rfl

theorem maskFilter_cons_false (a : α) (l : List α) (mask : List Bool) :
    maskFilter (a :: l) (false :: mask) = maskFilter l mask := rfl

theorem length_maskFilter_add (l : List α) (mask : List Bool)
    (h : l.length = mask.length) :
    (maskFilter l mask).length + (maskFilter l (mask.map (!·))).length = l.length := by
  induction l generalizing mask with
  | nil => simp [maskFilter_nil]
  | cons a l ih =>
    cases mask with
    | nil => cases h
    | cons b mask =>
      have hlen : l.length = mask.length := by simpa using h
      have hrec := ih mask hlen
      cases b
      · simp only [List.map_cons, Bool.not_false, maskFilter_cons_false,
          maskFilter_cons_true, List.length_cons]
        omega
      · simp only [List.map_cons, Bool.not_true, maskFilter_cons_true,
          maskFilter_cons_false, List.length_cons]
        omega

theorem length_maskFilter_map_pred (l : List α) (ev : List Row) (pred : Row → Bool)
    (h : l.length = ev.length) :
    (maskFilter l (ev.map pred)).length = (ev.filter pred).length := by
  induction l generalizing ev with
  | nil =>
    cases ev with
    | nil => rfl
    | cons q ev => cases h
  | cons a l ih =>
    cases ev with
    | nil => cases h
    | cons q ev =>
      have hlen : l.length = ev.length := by simpa using h
      cases hp : pred q
      · rw [List.map_cons, hp, maskFilter_cons_false, List.filter_cons, hp]
        simpa using ih ev hlen
      · rw [List.map_cons, hp, maskFilter_cons_true, List.filter_cons, hp]
        simpa using ih ev hlen

/-- Case analysis of one successful `_sample_filter` call: either there are
no rules at all (the whole combined frame is valid and all remaining
override values are consumed), or the outputs are the valid subset and the
mask split of the concatenated override values. -/
theorem sampleFilterStep_ok_cases {castFn : CastFn} {columns : List (String × Column)}
    {custom : List (String × Rule)} {ovCols : List String} {round k : Nat}
    {previous used remaining r u rem : List Row}
    (h : sampleFilterStep castFn columns custom ovCols round k previous used remaining
      = .ok (r, u, rem)) :
    ((buildRules custom columns).isEmpty = true ∧
      r.length = previous.length + k ∧ u = remaining ∧ rem = []) ∨
    ((buildRules custom columns).isEmpty = false ∧
      ∃ ev : List Row, ev.length = previous.length + k ∧
        r.length = (ev.filter
          (fun q => getCol q finalValidName == some (Val.bool true))).length ∧
        (((used ++ remaining).length = 0 ∧ u = used ++ remaining ∧
            rem = used ++ remaining) ∨
         ((used ++ remaining).length ≠ 0 ∧
          u = maskFilter (used ++ remaining) (ev.map
            (fun q => getCol q finalValidName == some (Val.bool true))) ∧
          rem = maskFilter (used ++ remaining) ((ev.map
            (fun q => getCol q finalValidName == some (Val.bool true))).map (!·))))) := by
  unfold sampleFilterStep at h
  split at h
  · exact absurd h (by simp)
  · next filtered heq =>
    obtain ⟨lf, hval, hemp, hrows⟩ := filterRaw_ok_none heq
    cases h
    refine .inl ⟨hemp, ?_, rfl, rfl⟩
    rw [hrows, validateSchema_ok_length hval]
    show (mkFrame columns
      (previous ++ sampledRows columns ovCols round k remaining)).rows.length = _
    rw [show (mkFrame columns
        (previous ++ sampledRows columns ovCols round k remaining)).rows =
      previous ++ sampledRows columns ovCols round k remaining from rfl]
    rw [List.length_append, length_sampledRows]
  · next filtered ev heq =>
    obtain ⟨lf, hval, hne, hlazy, hev, hvv⟩ := filterRaw_ok_some heq
    have hevlen : ev.length = previous.length + k := by
      rw [hev, length_evaluatedFrame, validateSchema_ok_length hval]
      rw [show (mkFrame columns
          (previous ++ sampledRows columns ovCols round k remaining)).rows =
        previous ++ sampledRows columns ovCols round k remaining from rfl]
      rw [List.length_append, length_sampledRows]
    have hrlen : filtered.length = (ev.filter
        (fun q => getCol q finalValidName == some (Val.bool true))).length := by
      rw [hvv]
      unfold validSubset
      rw [List.length_map]
    split at h
    · next hz =>
      cases h
      exact .inr ⟨hne, ev, hevlen, hrlen, .inl ⟨hz, rfl, rfl⟩⟩
    · next hz =>
      cases h
      exact .inr ⟨hne, ev, hevlen, hrlen, .inr ⟨hz, rfl, rfl⟩⟩

/-- The used/remaining bookkeeping invariant of the sampling loop: the
result and the used overrides always have the same height and the used and
remaining overrides always partition the supplied override values — unless
no override values were supplied at all, in which case both stay empty. -/
theorem sampleFilterStep_inv {castFn : CastFn} {columns : List (String × Column)}
    {custom : List (String × Rule)} {ovCols : List String} {numRows round : Nat}
    {previous used remaining r u rem : List Row}
    (h : sampleFilterStep castFn columns custom ovCols round
      (numRows - previous.length) previous used remaining = .ok (r, u, rem))
    (hQ : (previous.length = used.length ∧ used.length + remaining.length = numRows) ∨
          (used = [] ∧ remaining = []))
    (hner : (buildRules custom columns).isEmpty = false ∨ used = []) :
    ((r.length = u.length ∧ u.length + rem.length = numRows) ∨ (u = [] ∧ rem = [])) ∧
    (r.length ≠ numRows → (buildRules custom columns).isEmpty = false ∨ u = []) := by
  rcases sampleFilterStep_ok_cases h with
    ⟨hemp, hrl, hu, hrem⟩ | ⟨hnemp, ev, hevlen, hrl, hsplit⟩
  · -- no rules at all: everything is valid
    have husd : used = [] := by
      rcases hner with hner | hner
      · rw [hemp] at hner
        cases hner
      · exact hner
    rcases hQ with ⟨hq1, hq2⟩ | ⟨-, hq2⟩
    · have hu0 : used.length = 0 := by rw [husd]; rfl
      have hp0 : previous.length = 0 := by rw [hq1, hu0]
      have hrn : r.length = numRows := by
        rw [hrl, hp0]
        omega
      refine ⟨.inl ⟨?_, ?_⟩, fun hc => absurd hrn hc⟩
      · rw [hrn, hu]
        omega
      · rw [hu, hrem]
        simp only [List.length_nil, Nat.add_zero]
        omega
    · refine ⟨.inr ⟨?_, hrem⟩, fun _ => .inr ?_⟩
      · rw [hu, hq2]
      · rw [hu, hq2]
  · -- rules exist: the outputs are the mask split
    refine ⟨?_, fun _ => .inl hnemp⟩
    rcases hsplit with ⟨hz, hu, hrem⟩ | ⟨hz, hu, hrem⟩
    · have hcz : used ++ remaining = [] := List.length_eq_zero.1 hz
      exact .inr ⟨by rw [hu, hcz], by rw [hrem, hcz]⟩
    · rcases hQ with ⟨hq1, hq2⟩ | ⟨hq1, hq2⟩
      · have hple : previous.length ≤ numRows := by omega
        have hcomb : previous.length + (numRows - previous.length) = numRows :=
          Nat.add_sub_cancel' hple
        have hclen : (used ++ remaining).length = ev.length := by
          rw [List.length_append, hq2, hevlen, hcomb]
        have hulen : u.length = (ev.filter
            (fun q => getCol q finalValidName == some (Val.bool true))).length := by
          rw [hu]
          exact length_maskFilter_map_pred _ _ _ hclen
        have hsum : u.length + rem.length = (used ++ remaining).length := by
          rw [hu, hrem]
          exact length_maskFilter_add _ _ (by rw [hclen, List.length_map])
        refine .inl ⟨?_, ?_⟩
        · rw [hrl, hulen]
        · rw [hsum, List.length_append, hq2]
      · exfalso
        apply hz
        rw [hq1, hq2]
        rfl

/-- Every successful exit of the retry loop carries exactly the target
number of rows, and the used overrides either match that height or are
empty (when no overrides were supplied). -/
theorem sampleWhileLoop_ok_spec {castFn : CastFn} {columns : List (String × Column)}
    {custom : List (String × Rule)} {ovCols : List String} {numRows maxIter : Nat} :
    ∀ (fuel rounds : Nat) (result used remaining res u : List Row),
    ((result.length = used.length ∧ used.length + remaining.length = numRows) ∨
      (used = [] ∧ remaining = [])) →
    (result.length ≠ numRows → (buildRules custom columns).isEmpty = false ∨
      used = []) →
    sampleWhileLoop castFn columns custom ovCols numRows maxIter
      fuel rounds result used remaining = .ok (res, u) →
    res.length = numRows ∧ (u.length = numRows ∨ u = []) := by
  intro fuel
  induction fuel with
  | zero =>
    intro rounds result used remaining res u hQ hcond h
    unfold sampleWhileLoop at h
    by_cases hl : result.length = numRows
    · rw [if_pos hl] at h
      cases h
      refine ⟨hl, ?_⟩
      rcases hQ with ⟨hq1, -⟩ | ⟨hq1, -⟩
      · exact .inl (by rw [← hq1, hl])
      · exact .inr hq1
    · rw [if_neg hl] at h
      cases h
  | succ fuel ih =>
    intro rounds result used remaining res u hQ hcond h
    unfold sampleWhileLoop at h
    by_cases hl : result.length = numRows
    · rw [if_pos hl] at h
      cases h
      refine ⟨hl, ?_⟩
      rcases hQ with ⟨hq1, -⟩ | ⟨hq1, -⟩
      · exact .inl (by rw [← hq1, hl])
      · exact .inr hq1
    · rw [if_neg hl] at h
      split at h
      · exact absurd h (by simp)
      · next r2 u2 rem2 heq =>
        obtain ⟨hQ2, hcond2⟩ := sampleFilterStep_inv heq hQ (hcond hl)
        exact ih _ _ _ _ _ _ hQ2 hcond2 h

/-- The retry loop can only fail with the exhaustion error or by
propagating a structural schema failure of a filter call. -/
theorem sampleWhileLoop_error_spec {castFn : CastFn} {columns : List (String × Column)}
    {custom : List (String × Rule)} {ovCols : List String} {numRows maxIter : Nat} :
    ∀ (fuel rounds : Nat) (result used remaining : List Row) (e : SampleError),
    sampleWhileLoop castFn columns custom ovCols numRows maxIter
      fuel rounds result used remaining = .error e →
    e = .exhausted (exhaustedMessage maxIter) ∨ ∃ se, e = .schemaFailure se := by
  intro fuel
  induction fuel with
  | zero =>
    intro rounds result used remaining e h
    unfold sampleWhileLoop at h
    by_cases hl : result.length = numRows
    · rw [if_pos hl] at h
      cases h
    · rw [if_neg hl] at h
      cases h
      exact .inl rfl
  | succ fuel ih =>
    intro rounds result used remaining e h
    unfold sampleWhileLoop at h
    by_cases hl : result.length = numRows
    · rw [if_pos hl] at h
      cases h
    · rw [if_neg hl] at h
      split at h
      · next e2 heq =>
        cases h
        exact .inr ⟨e2, rfl⟩
      · next r2 u2 rem2 heq =>
        exact ih _ _ _ _ _ h

/-- With the iteration budget used up, a still-short result raises exactly
the exhaustion error. -/
theorem sampleWhileLoop_exhausts {castFn : CastFn} {columns : List (String × Column)}
    {custom : List (String × Rule)} {ovCols : List String} {numRows maxIter : Nat}
    (rounds : Nat) (result used remaining : List Row)
    (h : result.length ≠ numRows) :
    sampleWhileLoop castFn columns custom ovCols numRows maxIter
      0 rounds result used remaining =
      .error (.exhausted (exhaustedMessage maxIter)) := by
  unfold sampleWhileLoop
  rw [if_neg h]

theorem length_restoreOverrideOrder {result used : List Row}
    (h : used.length = result.length ∨ used = []) :
    (restoreOverrideOrder result used).length = result.length := by
  unfold restoreOverrideOrder
  rcases h with h | h
  · by_cases hz : used.length > 0
    · rw [if_pos hz, List.length_map,
        (List.perm_insertionSort (fun p q : Row × Cell => cellIdx p.2 ≤ cellIdx q.2)
          _).length_eq,
        List.length_zip, List.length_map, h, Nat.min_self]
    · rw [if_neg hz]
  · rw [h]
    rw [if_neg (by decide)]

/-- A successful `sampleRun` returns exactly the requested number of rows,
provided the override values are either absent or exactly one per requested
row (which `sample` guarantees). -/
theorem sampleRun_ok_length {castFn : CastFn} {columns : List (String × Column)}
    {custom : List (String × Rule)} {ovCols : List String} {maxIter numRows : Nat}
    {values : List Row} {out : List Row}
    (hv : values.length = numRows ∨ values = [])
    (h : sampleRun castFn columns custom ovCols maxIter numRows values = .ok out) :
    out.length = numRows := by
  unfold sampleRun at h
  split at h
  · exact absurd h (by simp)
  · next result0 used0 remaining0 heq0 =>
    have heq0b : sampleFilterStep castFn columns custom ovCols 0
        (numRows - ([] : List Row).length) [] [] values =
        .ok (result0, used0, remaining0) := heq0
    have hQ0 : (([] : List Row).length = ([] : List Row).length ∧
        ([] : List Row).length + values.length = numRows) ∨
        (([] : List Row) = [] ∧ values = []) := by
      rcases hv with hv | hv
      · refine .inl ⟨rfl, ?_⟩
        simp only [List.length_nil, Nat.zero_add]
        exact hv
      · exact .inr ⟨rfl, hv⟩
    obtain ⟨hQ1, hcond1⟩ := sampleFilterStep_inv heq0b hQ0 (.inr rfl)
    split at h
    · exact absurd h (by simp)
    · next res u heq1 =>
      cases h
      obtain ⟨hres, hu⟩ := sampleWhileLoop_ok_spec _ _ _ _ _ _ _ hQ1 hcond1 heq1
      have hlen : u.length = res.length ∨ u = [] := by
        rcases hu with hu | hu
        · exact .inl (by rw [hu, hres])
        · exact .inr hu
      rw [length_restoreOverrideOrder hlen, hres]

/-- A failing `sampleRun` fails with the exhaustion error or a structural
schema failure of a filter call — never with any other error. -/
theorem sampleRun_error_spec {castFn : CastFn} {columns : List (String × Column)}
    {custom : List (String × Rule)} {ovCols : List String} {maxIter numRows : Nat}
    {values : List Row} {e : SampleError}
    (h : sampleRun castFn columns custom ovCols maxIter numRows values = .error e) :
    e = .exhausted (exhaustedMessage maxIter) ∨ ∃ se, e = .schemaFailure se := by
  unfold sampleRun at h
  split at h
  · next e0 heq0 =>
    cases h
    exact .inr ⟨e0, rfl⟩
  · next result0 used0 remaining0 heq0 =>
    split at h
    · next e1 heq1 =>
      cases h
      exact sampleWhileLoop_error_spec _ _ _ _ _ _ heq1
    · exact absurd h (by simp)

/-- The remedies tail of the exhaustion message: everything after the
iteration count. -/
def exhaustedTail : String :=
  " iterations. Consider increasing " ++
  "the maximum number of sampling iterations via `dy.Config` or implement " ++
  "your custom sampling logic. Alternatively, passing predefined value to " ++
  "`overrides` or implementing `_sampling_overrides` for your schema can " ++
  "also help the sampling procedure find a valid data frame."

theorem infix_trans_suffix {α : Type _} {p t l2 : List α}
    (h1 : p <:+: t) (h2 : t <:+ l2) : p <:+: l2 := by
  obtain ⟨s1, t1, he1⟩ := h1
  obtain ⟨s2, he2⟩ := h2
  refine ⟨s2 ++ s1, t1, ?_⟩
  rw [List.append_assoc s2 s1 p, List.append_assoc s2 (s1 ++ p) t1, he1]
  exact he2

set_option maxRecDepth 8192 in
theorem exhaustedTail_suffix (maxIter : Nat) :
    exhaustedTail.data <:+ (exhaustedMessage maxIter).data := by
  refine ⟨("Sampling exceeded " ++ toString maxIter).data, ?_⟩
  simp only [exhaustedMessage, exhaustedTail, String.data_append, List.append_assoc]

set_option maxRecDepth 8192 in
theorem exhaustedMessage_mentions_budget (maxIter : Nat) :
    (toString maxIter).data <:+: (exhaustedMessage maxIter).data := by
  refine ⟨"Sampling exceeded ".data, exhaustedTail.data, ?_⟩
  simp only [exhaustedMessage, exhaustedTail, String.data_append, List.append_assoc]

set_option maxRecDepth 200000 in
/-- C5: `sample` never loops past its iteration budget and never silently
returns fewer rows than requested.  The default budget is 10,000; on
success `sample` returns exactly the target number of rows; a failing run
can only report the exhaustion error, a structural schema failure of a
filter call, or an overrides-precondition violation — rule-based rejection
itself never raises anything but the exhaustion error; once the iteration
counter exhausts the budget a still-short result raises exactly the
exhaustion error; and the error message names the budget and suggests the
remedies (raising the budget via `dy.Config`, custom sampling logic, or
supplying overrides). -/
theorem sampling_exhaustion {castFn : CastFn} {columns : List (String × Column)}
    {custom : List (String × Rule)} {maxIter : Nat}
    {numRowsArg : Option Nat} {overrides : Option (List String × List Row)} :
    defaultMaxSamplingIterations = 10000 ∧
    (∀ out, sample castFn columns custom maxIter numRowsArg overrides = .ok out →
      out.length = (match overrides with
        | some ov => ov.2.length
        | none => numRowsArg.getD 1)) ∧
    (∀ e, sample castFn columns custom maxIter numRowsArg overrides = .error e →
      e = .exhausted (exhaustedMessage maxIter) ∨
      (∃ se, e = .schemaFailure se) ∨
      (∃ extra, e = .invalidOverrides extra) ∨ e = .numRowsMismatch) ∧
    (∀ (ovCols : List String) (numRows rounds : Nat)
        (result used remaining : List Row),
      result.length ≠ numRows →
      sampleWhileLoop castFn columns custom ovCols numRows maxIter 0 rounds
        result used remaining = .error (.exhausted (exhaustedMessage maxIter))) ∧
    (toString maxIter).data <:+: (exhaustedMessage maxIter).data ∧
    "`dy.Config`".data <:+: (exhaustedMessage maxIter).data ∧
    "overrides".data <:+: (exhaustedMessage maxIter).data ∧
    "custom sampling logic".data <:+: (exhaustedMessage maxIter).data := by
  refine ⟨rfl, ?_, ?_, ?_, exhaustedMessage_mentions_budget maxIter,
    infix_trans_suffix (by decide) (exhaustedTail_suffix maxIter),
    infix_trans_suffix (by decide) (exhaustedTail_suffix maxIter),
    infix_trans_suffix (by decide) (exhaustedTail_suffix maxIter)⟩
  · intro out h
    unfold sample at h
    split at h
    · next ov =>
      split at h
      · exact absurd h (by simp)
      · split at h
        · exact absurd h (by simp)
        · have hv : (ov.2.enum.map (fun ir =>
              (rowIndexName, (some (Val.int ir.1) : Cell)) :: ir.2)).length =
              ov.2.length ∨ (ov.2.enum.map (fun ir =>
              (rowIndexName, (some (Val.int ir.1) : Cell)) :: ir.2)) = [] :=
            .inl (by rw [List.length_map, List.enum_length])
          exact sampleRun_ok_length hv h
    · exact sampleRun_ok_length (.inr rfl) h
  · intro e h
    unfold sample at h
    split at h
    · next ov =>
      split at h
      · cases h
        exact .inr (.inr (.inl ⟨_, rfl⟩))
      · split at h
        · cases h
          exact .inr (.inr (.inr rfl))
        · rcases sampleRun_error_spec h with he | ⟨se, he⟩
          · exact .inl he
          · exact .inr (.inl ⟨se, he⟩)
    · rcases sampleRun_error_spec h with he | ⟨se, he⟩
      · exact .inl he
      · exact .inr (.inl ⟨se, he⟩)
  · intro ovCols numRows rounds result used remaining hshort
    exact sampleWhileLoop_exhausts rounds result used remaining hshort

/-- Column of the C5 witness schema: its sampler emits consecutive ints. -/
def c5col : Column :=
  ⟨.int, false, [], fun _ k => (List.range k).map (fun i => (some (Val.int i) : Cell))⟩

/-- Columns of the C5 witness schema. -/
def c5columns : List (String × Column) := [("a", c5col)]

/-- The C5 witness rule set: a rule that rejects every row, so sampling can
never accumulate a valid row. -/
def c5rules : List (String × Rule) := [("never", Rule.simple (fun _ _ => some false))]

/-- Witness for C5: with an always-false rule and budget 2, `sample` raises
exactly the exhaustion error; a successful run would have had exactly one
row; and the message mentions the overrides remedy. -/
theorem sampling_exhaustion_witness :
    sample noCastFn c5columns c5rules 2 (some 1) none =
      .error (.exhausted (exhaustedMessage 2)) ∧
    (∀ out, sample noCastFn c5columns c5rules 2 (some 1) none = .ok out →
      out.length = 1) ∧
    "overrides".data <:+: (exhaustedMessage 2).data :=
  have h : sample noCastFn c5columns c5rules 2 (some 1) none =
      .error (.exhausted (exhaustedMessage 2)) := by rfl
  ⟨h,
   fun out ho =>
     (@sampling_exhaustion noCastFn c5columns c5rules 2 (some 1) none).2.1 out ho,
   (@sampling_exhaustion noCastFn c5columns c5rules 2 (some 1) none).2.2.2.2.2.2.1⟩

/-! ## Lemmas for the sampling contract (C4) -/

theorem flatMap_congr_mem {α β : Type _} {l : List α} {f g : α → List β}
    (h : ∀ a ∈ l, f a = g a) : l.flatMap f = l.flatMap g := by
  induction l with
  | nil => rfl
  | cons a l ih =>
    rw [List.flatMap_cons, List.flatMap_cons, h a (List.mem_cons_self _ _),
      ih (fun b hb => h b (List.mem_cons_of_mem a hb))]

theorem groupRows_perm {rows rows' : List Row} (h : rows.Perm rows')
    (gcols : List String) (r : Row) :
    (groupRows gcols rows r).Perm (groupRows gcols rows' r) :=
  h.filter _

/-- Group enrichment only depends on the multiset of frame rows when every
group aggregate is permutation-invariant. -/
theorem enrichGroup_eq_of_perm {rules : List (String × Rule)}
    (hpermg : ∀ nr ∈ rules, ∀ gcols agg, nr.2 = Rule.group gcols agg →
      ∀ l l' : List Row, l.Perm l' → agg l = agg l')
    {rows rows' : List Row} (h : rows.Perm rows') (r : Row) :
    enrichGroup rows rules r = enrichGroup rows' rules r := by
  unfold enrichGroup
  refine congrArg (r ++ ·) ?_
  refine flatMap_congr_mem ?_
  intro b hb
  refine List.map_congr_left ?_
  intro na hna
  obtain ⟨cols, agg, hmem, hfe, -⟩ := bucketGroupRules_mem hb hna
  have hval : na.2 (groupRows b.1 rows r) = na.2 (groupRows b.1 rows' r) := by
    rw [hfe]
    show (agg (groupRows b.1 rows r)).getD true = (agg (groupRows b.1 rows' r)).getD true
    rw [hpermg (na.1, Rule.group cols agg) hmem cols agg rfl _ _
      (groupRows_perm h b.1 r)]
  rw [hval]

theorem withGroupRules_perm {rules : List (String × Rule)}
    (hpermg : ∀ nr ∈ rules, ∀ gcols agg, nr.2 = Rule.group gcols agg →
      ∀ l l' : List Row, l.Perm l' → agg l = agg l')
    {rows rows' : List Row} (h : rows.Perm rows') :
    (withGroupRules rows rules).Perm (withGroupRules rows' rules) := by
  unfold withGroupRules
  rw [List.map_congr_left (fun r _ => enrichGroup_eq_of_perm hpermg h r)]
  exact h.map _

/-- Raw rule evaluations only depend on the multiset of frame rows when the
rules are permutation-invariant (polars aggregations and row expressions do
not read the frame's physical row order). -/
theorem rawRuleEval_eq_of_perm {rules : List (String × Rule)}
    (hperme : ∀ nr ∈ rules, ∀ e, nr.2 = Rule.simple e →
      ∀ (ctx ctx' : List Row) (r : Row), ctx.Perm ctx' → e ctx r = e ctx' r)
    (hpermg : ∀ nr ∈ rules, ∀ gcols agg, nr.2 = Rule.group gcols agg →
      ∀ l l' : List Row, l.Perm l' → agg l = agg l')
    {rows rows' : List Row} (h : rows.Perm rows') (r0 : Row) :
    ∀ nr ∈ rules, rawRuleEval rows rules r0 nr = rawRuleEval rows' rules r0 nr := by
  intro nr hmem
  rcases nr with ⟨n, rule⟩
  cases rule with
  | simple e =>
    show e (withGroupRules rows rules) (enrichGroup rows rules r0) =
      e (withGroupRules rows' rules) (enrichGroup rows' rules r0)
    rw [enrichGroup_eq_of_perm hpermg h r0]
    exact hperme (n, .simple e) hmem e rfl _ _ _ (withGroupRules_perm hpermg h)
  | group gcols agg =>
    show agg (groupRows gcols rows r0) = agg (groupRows gcols rows' r0)
    exact hpermg (n, .group gcols agg) hmem gcols agg rfl _ _
      (groupRows_perm h gcols r0)
  | lazySimple => rfl
  | lazyGroup gcols => rfl

theorem noRuleFalse_eq_of_perm {rules : List (String × Rule)}
    (hperme : ∀ nr ∈ rules, ∀ e, nr.2 = Rule.simple e →
      ∀ (ctx ctx' : List Row) (r : Row), ctx.Perm ctx' → e ctx r = e ctx' r)
    (hpermg : ∀ nr ∈ rules, ∀ gcols agg, nr.2 = Rule.group gcols agg →
      ∀ l l' : List Row, l.Perm l' → agg l = agg l')
    {rows rows' : List Row} (h : rows.Perm rows') (r0 : Row) :
    noRuleFalse rows rules r0 = noRuleFalse rows' rules r0 := by
  unfold noRuleFalse
  refine all_congr_mem ?_
  intro nr hmem
  rw [rawRuleEval_eq_of_perm hperme hpermg h r0 nr hmem]

theorem lookup_of_mem_nodup {α : Type _} {l : List (String × α)} {n : String} {v : α}
    (hnd : (l.map Prod.fst).Nodup) (h : (n, v) ∈ l) : List.lookup n l = some v := by
  induction l with
  | nil => cases h
  | cons p l ih =>
    rcases p with ⟨k, d⟩
    simp only [List.map_cons, List.nodup_cons] at hnd
    rcases List.mem_cons.1 h with heq | hmem
    · cases heq
      simp [List.lookup_cons]
    · have hk : ¬ n = k := by
        intro hnk
        subst hnk
        exact hnd.1 (List.mem_map.2 ⟨(n, v), hmem, rfl⟩)
      have hkb : (n == k) = false := by simpa using hk
      simp [List.lookup_cons, hkb, ih hnd.2 hmem]

theorem lookup_isSome_of_mem {α : Type _} {l : List (String × α)} {n : String}
    (h : n ∈ l.map Prod.fst) : (List.lookup n l).isSome = true := by
  induction l with
  | nil => cases h
  | cons p l ih =>
    rcases p with ⟨k, d⟩
    rcases List.mem_cons.1 h with heq | hmem
    · have hk : (n == k) = true := by simpa using heq
      rw [List.lookup_cons, hk]
      rfl
    · cases hk : (n == k) with
      | true => rw [List.lookup_cons, hk]; rfl
      | false => rw [List.lookup_cons, hk]; exact ih hmem

theorem projRow_idem (names : List String) (r : Row) :
    projRow names (projRow names r) = projRow names r := by
  show names.map (fun n => (n, getCol (projRow names r) n)) = projRow names r
  rw [List.map_congr_left (fun n hn => by
    show (n, getCol (projRow names r) n) = (n, getCol r n)
    rw [getCol_projRow, if_pos hn])]
  rfl

/-- A frame of already-projected rows with the schema's declared dtypes
passes the structural schema check unchanged. -/
theorem validateSchema_mkFrame_proj {castFn : CastFn}
    {columns : List (String × Column)} {rows : List Row}
    (hndc : ((columns.map (·.1)) : List String).Nodup)
    (hproj : ∀ r ∈ rows, projRow (columns.map (·.1)) r = r) :
    ∃ lf2, validateSchema castFn (columns.map (fun nc => (nc.1, nc.2.dtype)))
        .nocast (mkFrame columns rows) = .ok lf2 ∧ lf2.rows = rows := by
  have hnames : ((columns.map (fun nc => (nc.1, nc.2.dtype))).map (·.1) :
      List String) = columns.map (·.1) := by
    rw [List.map_map]
    rfl
  have hndD : (((columns.map (fun nc => (nc.1, nc.2.dtype))).map Prod.fst) :
      List String).Nodup := by
    rw [show ((columns.map (fun nc => (nc.1, nc.2.dtype))).map Prod.fst :
      List String) = columns.map (·.1) from hnames]
    exact hndc
  have hlook : ∀ nd ∈ columns.map (fun nc => (nc.1, nc.2.dtype)),
      List.lookup nd.1 (columns.map (fun nc => (nc.1, nc.2.dtype))) =
        some nd.2 := by
    intro nd hnd
    exact lookup_of_mem_nodup hndD hnd
  have hmiss : ((((columns.map (fun nc => (nc.1, nc.2.dtype))).map (·.1))).filter
      (fun n => ((mkFrame columns rows).schema.lookup n).isNone)).isEmpty = true := by
    rw [List.isEmpty_iff, List.filter_eq_nil_iff]
    intro n hn
    have hm : n ∈ (mkFrame columns rows).schema.map Prod.fst := by
      rw [hnames] at hn
      rw [show (mkFrame columns rows).schema =
        columns.map (fun nc => (nc.1, nc.2.dtype)) from rfl, hnames]
      exact hn
    intro hcontra
    rw [Option.isNone_iff_eq_none] at hcontra
    have hs := lookup_isSome_of_mem hm
    rw [hcontra] at hs
    cases hs
  have hcols : validateColumns ((columns.map (fun nc => (nc.1, nc.2.dtype))).map (·.1))
      (mkFrame columns rows) =
      .ok ⟨((columns.map (fun nc => (nc.1, nc.2.dtype))).map (·.1)).map
        (fun n => (n, ((mkFrame columns rows).schema.lookup n).getD .int)),
        (mkFrame columns rows).rows.map
          (projRow (((columns.map (fun nc => (nc.1, nc.2.dtype))).map (·.1))))⟩ := by
    unfold validateColumns
    rw [if_pos hmiss]
  have hrowsEq : ((mkFrame columns rows).rows.map
      (projRow (((columns.map (fun nc => (nc.1, nc.2.dtype))).map (·.1))))) = rows := by
    rw [show (mkFrame columns rows).rows = rows from rfl, hnames,
      List.map_congr_left hproj]
    exact List.map_id rows
  have hschemaChar : (((columns.map (fun nc => (nc.1, nc.2.dtype))).map (·.1)).map
      (fun n => (n, ((mkFrame columns rows).schema.lookup n).getD .int))) =
      columns.map (fun nc => (nc.1, nc.2.dtype)) := by
    rw [show ((columns.map (fun nc => (nc.1, nc.2.dtype))).map (·.1) : List String) =
      (columns.map (fun nc => (nc.1, nc.2.dtype))).map Prod.fst from rfl]
    rw [List.map_map]
    refine (List.map_congr_left ?_).trans
      (List.map_id (columns.map (fun nc => (nc.1, nc.2.dtype))))
    intro nd hnd
    show (nd.1, (((mkFrame columns rows).schema.lookup nd.1)).getD .int) = nd
    rw [show (mkFrame columns rows).schema =
      columns.map (fun nc => (nc.1, nc.2.dtype)) from rfl]
    rw [hlook nd hnd]
    rfl
  have hbad : ((columns.map (fun nc => (nc.1, nc.2.dtype))).filter
      (fun nd => decide (¬ ((((columns.map (fun nc => (nc.1, nc.2.dtype))).map (·.1)).map
        (fun n => (n, ((mkFrame columns rows).schema.lookup n).getD .int)) :
        List (String × DType)).lookup nd.1 = some nd.2)))).isEmpty = true := by
    rw [List.isEmpty_iff, List.filter_eq_nil_iff]
    intro nd hnd
    rw [hschemaChar, hlook nd hnd]
    simp
  refine ⟨⟨((columns.map (fun nc => (nc.1, nc.2.dtype))).map (·.1)).map
      (fun n => (n, ((mkFrame columns rows).schema.lookup n).getD .int)),
      (mkFrame columns rows).rows.map
        (projRow (((columns.map (fun nc => (nc.1, nc.2.dtype))).map (·.1))))⟩,
    ?_, hrowsEq⟩
  unfold validateSchema
  rw [hcols]
  show validateDtypes castFn (columns.map (fun nc => (nc.1, nc.2.dtype))) .nocast
      ⟨((columns.map (fun nc => (nc.1, nc.2.dtype))).map (·.1)).map
        (fun n => (n, ((mkFrame columns rows).schema.lookup n).getD .int)),
        (mkFrame columns rows).rows.map
          (projRow (((columns.map (fun nc => (nc.1, nc.2.dtype))).map (·.1))))⟩ =
      .ok ⟨((columns.map (fun nc => (nc.1, nc.2.dtype))).map (·.1)).map
        (fun n => (n, ((mkFrame columns rows).schema.lookup n).getD .int)),
        (mkFrame columns rows).rows.map
          (projRow (((columns.map (fun nc => (nc.1, nc.2.dtype))).map (·.1))))⟩
  unfold validateDtypes
  simp only []
  rw [if_pos hbad]

/-- Alignment of two row lists on the override columns: same height and
pointwise agreement on every override column (the source's invariant that
`previous_result`/`used_values` and `sampled`/`remaining_values` hold the
same override values in the same order). -/
def alignedOn (ovCols : List String) : List Row → List Row → Prop :=
  List.Forall₂ (fun a b => ∀ c ∈ ovCols, getCol a c = getCol b c)

theorem alignedOn_length {ovCols : List String} {x y : List Row}
    (h : alignedOn ovCols x y) : x.length = y.length :=
  List.Forall₂.length_eq h

theorem alignedOn_append {ovCols : List String} {x1 x2 y1 y2 : List Row}
    (h1 : alignedOn ovCols x1 y1) (h2 : alignedOn ovCols x2 y2) :
    alignedOn ovCols (x1 ++ x2) (y1 ++ y2) := by
  induction h1 with
  | nil => exact h2
  | cons ha htail ih => exact List.Forall₂.cons ha ih

theorem maskFilter_nil_mask (l : List α) : maskFilter l ([] : List Bool) = [] := by
  unfold maskFilter
  rw [List.zip_nil_right]
  rfl

theorem alignedOn_maskFilter {ovCols : List String} {x y : List Row}
    (h : alignedOn ovCols x y) :
    ∀ mask : List Bool,
      alignedOn ovCols (maskFilter x mask) (maskFilter y mask) := by
  induction h with
  | nil =>
    intro mask
    exact List.Forall₂.nil
  | cons ha htail ih =>
    intro mask
    cases mask with
    | nil =>
      rw [maskFilter_nil_mask, maskFilter_nil_mask]
      exact List.Forall₂.nil
    | cons b mask =>
      cases b
      · rw [maskFilter_cons_false, maskFilter_cons_false]
        exact ih mask
      · rw [maskFilter_cons_true, maskFilter_cons_true]
        exact List.Forall₂.cons ha (ih mask)

theorem alignedOn_getElem {ovCols : List String} {x y : List Row}
    (h : alignedOn ovCols x y) :
    ∀ (i : Nat) (hi : i < x.length) (hiy : i < y.length),
      ∀ c ∈ ovCols, getCol x[i] c = getCol y[i] c := by
  induction h with
  | nil =>
    intro i hi hiy
    cases hi
  | cons ha htail ih =>
    intro i hi hiy
    cases i with
    | zero => exact ha
    | succ j =>
      exact ih j (Nat.lt_of_succ_lt_succ hi) (Nat.lt_of_succ_lt_succ hiy)

theorem alignedOn_of_getElem {ovCols : List String} :
    ∀ {x y : List Row}, x.length = y.length →
    (∀ (i : Nat) (hi : i < x.length) (hiy : i < y.length),
      ∀ c ∈ ovCols, getCol x[i] c = getCol y[i] c) →
    alignedOn ovCols x y := by
  intro x
  induction x with
  | nil =>
    intro y hlen hpt
    cases y with
    | nil => exact List.Forall₂.nil
    | cons b y => cases hlen
  | cons a x ih =>
    intro y hlen hpt
    cases y with
    | nil => cases hlen
    | cons b y =>
      refine List.Forall₂.cons ?_ ?_
      · exact hpt 0 (Nat.succ_pos _) (Nat.succ_pos _)
      · refine ih (by simpa using hlen) ?_
        intro i hi hiy
        exact hpt (i + 1) (Nat.succ_lt_succ hi) (Nat.succ_lt_succ hiy)

theorem alignedOn_map_projRow {ovCols colNames : List String} {x y : List Row}
    (hsub : ∀ c ∈ ovCols, c ∈ colNames)
    (h : alignedOn ovCols x y) :
    alignedOn ovCols (x.map (projRow colNames)) y := by
  induction h with
  | nil => exact List.Forall₂.nil
  | cons ha htail ih =>
    refine List.Forall₂.cons ?_ ih
    intro c hc
    rw [getCol_projRow, if_pos (hsub c hc)]
    exact ha c hc

theorem map_fst_map_withKey {β : Type _} (l : List (String × Column))
    (f : String × Column → β) :
    ((l.map (fun nc => (nc.1, f nc))).map Prod.fst) = l.map (·.1) := by
  rw [List.map_map]
  rfl

/-- The sampled frame agrees with the remaining override values on every
override column, row by row: `_sample_filter` copies those columns from
`remaining_values` verbatim. -/
theorem alignedOn_sampledRows {columns : List (String × Column)}
    {ovCols : List String} {remaining : List Row} (round : Nat)
    (hndc : ((columns.map (·.1)) : List String).Nodup)
    (hsub : ∀ c ∈ ovCols, c ∈ columns.map (·.1)) :
    alignedOn ovCols
      (sampledRows columns ovCols round remaining.length remaining) remaining := by
  refine alignedOn_of_getElem ?_ ?_
  · rw [length_sampledRows]
  · intro i hi hiy c hc
    have hi2 : i < remaining.length := by
      rw [length_sampledRows] at hi
      exact hi
    have hrow : (sampledRows columns ovCols round remaining.length remaining)[i] =
        columns.map (fun nc =>
          (nc.1, if ovCols.contains nc.1 then getCol (remaining.getD i []) nc.1
            else (nc.2.sampler round remaining.length).getD i none)) := by
      unfold sampledRows
      rw [List.getElem_map, List.getElem_range]
    rw [hrow]
    have hcon : ovCols.contains c = true := by
      rw [List.elem_iff]
      exact hc
    obtain ⟨nc, hnc, hnceq⟩ := List.mem_map.1 (hsub c hc)
    have hmem2 : ((c, getCol (remaining.getD i []) c) : String × Cell) ∈
        columns.map (fun nc =>
          (nc.1, if ovCols.contains nc.1 then getCol (remaining.getD i []) nc.1
            else (nc.2.sampler round remaining.length).getD i none)) := by
      refine List.mem_map.2 ⟨nc, hnc, ?_⟩
      rw [hnceq, hcon]
      rfl
    have hnd2 : (((columns.map (fun nc =>
        (nc.1, if ovCols.contains nc.1 then getCol (remaining.getD i []) nc.1
          else (nc.2.sampler round remaining.length).getD i none))).map
        Prod.fst) : List String).Nodup := by
      rw [map_fst_map_withKey]
      exact hndc
    rw [getCol_of_mem_nodup hnd2 hmem2]
    rw [List.getD_eq_getElem remaining [] hi2]

theorem maskFilter_partition_perm (l : List α) (mask : List Bool)
    (h : l.length = mask.length) :
    (maskFilter l mask ++ maskFilter l (mask.map (!·))).Perm l := by
  induction l generalizing mask with
  | nil =>
    cases mask with
    | nil => exact List.Perm.refl _
    | cons b mask => cases h
  | cons a l ih =>
    cases mask with
    | nil => cases h
    | cons b mask =>
      have hlen : l.length = mask.length := by simpa using h
      cases b
      · rw [List.map_cons, Bool.not_false, maskFilter_cons_false,
          maskFilter_cons_true]
        exact List.perm_middle.trans ((ih mask hlen).cons a)
      · rw [List.map_cons, Bool.not_true, maskFilter_cons_true,
          maskFilter_cons_false, List.cons_append]
        exact (ih mask hlen).cons a

theorem maskFilter_self_map (l : List α) (p : α → Bool) :
    maskFilter l (l.map p) = l.filter p := by
  induction l with
  | nil => rfl
  | cons a l ih =>
    cases hp : p a
    · rw [List.map_cons, hp, maskFilter_cons_false, List.filter_cons, hp, ih]
      simp
    · rw [List.map_cons, hp, maskFilter_cons_true, List.filter_cons, hp, ih]
      simp

theorem colsD_names (columns : List (String × Column)) :
    (((columns.map (fun nc => (nc.1, nc.2.dtype))).map (·.1)) : List String) =
      columns.map (·.1) := by
  rw [List.map_map]
  rfl

theorem shape_of_proj {columns : List (String × Column)}
    {rules : List (String × Rule)} {rows : List Row}
    (hdisjc : ∀ n ∈ columns.map (·.1),
      n ∉ rules.map Prod.fst ∧ n ≠ finalValidName)
    (hproj : ∀ r ∈ rows, projRow (columns.map (·.1)) r = r) :
    ∀ r0 ∈ rows, ∀ p ∈ r0,
      ¬ (finalValidName :: rules.map Prod.fst).contains p.1 := by
  intro r0 hr0 p hp
  rw [← hproj r0 hr0] at hp
  unfold projRow at hp
  obtain ⟨n, hn, rfl⟩ := List.mem_map.1 hp
  obtain ⟨hn1, hn2⟩ := hdisjc n hn
  simp [List.contains_cons, hn1, hn2]

/-- The validity mask of the evaluated frame is the row-wise
`noRuleFalse` verdict of the validated rows. -/
theorem evalMask_eq {rules : List (String × Rule)} {lfRows : List Row}
    (hnd : (rules.map Prod.fst).Nodup)
    (hnl : ∀ nr ∈ rules, nr.2.isLazy = false) :
    (evaluatedFrame rules false lfRows).map
      (fun q => getCol q finalValidName == some (Val.bool true)) =
      lfRows.map (noRuleFalse lfRows rules) := by
  rw [evaluatedFrame_false_eq, List.map_map]
  refine List.map_congr_left ?_
  intro r0 hr0
  show (getCol (enrichFull lfRows rules r0 ++
    [(finalValidName, (some (Val.bool (finalValid (rules.map (·.1))
      (enrichFull lfRows rules r0))) : Cell))]) finalValidName ==
    some (Val.bool true)) = noRuleFalse lfRows rules r0
  rw [getCol_append_single, cellBeq_bool_true]
  exact finalValid_enrichFull_eq_noRuleFalse hnd hnl lfRows r0

/-- One successful sampling step in override mode preserves the loop's
bookkeeping: result/used alignment on the override columns, the used and
remaining overrides forming a permutation of the supplied values, the
shortfall arithmetic, and — when the result reaches the target height —
full validity of the result frame. -/
theorem sampleFilterStep_override {castFn : CastFn}
    {columns : List (String × Column)} {custom : List (String × Rule)}
    {ovCols : List String} {numRows round : Nat}
    {previous used remaining r u rem values : List Row}
    (h : sampleFilterStep castFn columns custom ovCols round
      (numRows - previous.length) previous used remaining = .ok (r, u, rem))
    (hndc : ((columns.map (·.1)) : List String).Nodup)
    (hnd : ((buildRules custom columns).map Prod.fst).Nodup)
    (hdisjc : ∀ n ∈ columns.map (·.1),
      n ∉ (buildRules custom columns).map Prod.fst ∧ n ≠ finalValidName)
    (hsub : ∀ c ∈ ovCols, c ∈ columns.map (·.1))
    (hA : alignedOn ovCols previous used)
    (hM : (used ++ remaining).Perm values)
    (hrem : remaining.length = numRows - previous.length)
    (hRle : previous.length ≤ numRows)
    (hprev : previous.length ≠ numRows ∨ (previous = [] ∧ used = []))
    (hner : (buildRules custom columns).isEmpty = false ∨
      (previous = [] ∧ used = [])) :
    alignedOn ovCols r u ∧ (u ++ rem).Perm values ∧
    rem.length = numRows - r.length ∧ r.length ≤ numRows ∧
    (r.length ≠ numRows → (buildRules custom columns).isEmpty = false ∨
      (r = [] ∧ u = [])) ∧
    (r.length = numRows →
      (∀ r0 ∈ r, projRow (columns.map (·.1)) r0 = r0) ∧
      ((buildRules custom columns).isEmpty = true ∨
        ((buildRules custom columns).isEmpty = false ∧
         ((buildRules custom columns).filter
          (fun nr => nr.2.isLazy)).isEmpty = true ∧
         ∀ r0 ∈ r, noRuleFalse r (buildRules custom columns) r0 = true))) := by
  have hkrem : numRows - previous.length = remaining.length := hrem.symm
  have hcombrows : (mkFrame columns (previous ++ sampledRows columns ovCols round
      (numRows - previous.length) remaining)).rows =
      previous ++ sampledRows columns ovCols round
        (numRows - previous.length) remaining := rfl
  have hcomblen : (previous ++ sampledRows columns ovCols round
      (numRows - previous.length) remaining).length = numRows := by
    rw [List.length_append, length_sampledRows]
    omega
  have hAused : previous.length = used.length := alignedOn_length hA
  have heff : effectiveRules (((columns.map (fun nc => (nc.1, nc.2.dtype))).map (·.1)))
      (buildRules custom columns) false = buildRules custom columns := rfl
  have hAsam : alignedOn ovCols (sampledRows columns ovCols round
      (numRows - previous.length) remaining) remaining := by
    rw [hkrem]
    exact alignedOn_sampledRows round hndc hsub
  have hAcomb : alignedOn ovCols
      (previous ++ sampledRows columns ovCols round
        (numRows - previous.length) remaining) (used ++ remaining) :=
    alignedOn_append hA hAsam
  unfold sampleFilterStep at h
  split at h
  · exact absurd h (by simp)
  · next filtered heq =>
    -- no rules at all
    obtain ⟨lfc, hval, hempER, hfiltered⟩ := filterRaw_ok_none heq
    rw [heff] at hempER
    cases h
    obtain ⟨hpnil, hunil⟩ : previous = [] ∧ used = [] := by
      rcases hner with hner | hner
      · rw [hempER] at hner
        cases hner
      · exact hner
    have hrows : lfc.rows = (previous ++ sampledRows columns ovCols round
        (numRows - previous.length) remaining).map
        (projRow (columns.map (·.1))) := by
      have h1 := validateSchema_nocast_rows hval
      rw [hcombrows, colsD_names] at h1
      exact h1
    have hrlen : r.length = numRows := by
      rw [hfiltered, hrows, List.length_map, hcomblen]
    rw [hpnil, hunil] at hAcomb
    simp only [List.nil_append] at hAcomb
    refine ⟨?_, ?_, ?_, Nat.le_of_eq hrlen, fun hc => absurd hrlen hc,
      fun _ => ⟨?_, .inl hempER⟩⟩
    · rw [hfiltered, hrows, hpnil]
      simp only [List.nil_append]
      exact alignedOn_map_projRow hsub hAcomb
    · rw [List.append_nil]
      rw [hunil, List.nil_append] at hM
      exact hM
    · rw [hrlen]
      simp
    · intro r0 hr0
      rw [hfiltered, hrows] at hr0
      obtain ⟨src, -, rfl⟩ := List.mem_map.1 hr0
      exact projRow_idem _ _
  · next filtered ev heq =>
    obtain ⟨lfc, hval, hne2, hlazy2, hevEq, hvvEq⟩ := filterRaw_ok_some heq
    rw [heff] at hne2 hlazy2 hevEq hvvEq
    have hnl := nonlazy_of_filter_isEmpty hlazy2
    have hrows : lfc.rows = (previous ++ sampledRows columns ovCols round
        (numRows - previous.length) remaining).map
        (projRow (columns.map (·.1))) := by
      have h1 := validateSchema_nocast_rows hval
      rw [hcombrows, colsD_names] at h1
      exact h1
    have hlfclen : lfc.rows.length = numRows := by
      rw [hrows, List.length_map, hcomblen]
    have hproj : ∀ r0 ∈ lfc.rows, projRow (columns.map (·.1)) r0 = r0 := by
      intro r0 hr0
      rw [hrows] at hr0
      obtain ⟨src, -, rfl⟩ := List.mem_map.1 hr0
      exact projRow_idem _ _
    have hshape := shape_of_proj hdisjc hproj
    have hvalidSub : filtered = lfc.rows.filter
        (noRuleFalse lfc.rows (buildRules custom columns)) := by
      rw [hvvEq, hevEq]
      exact validSubset_evaluatedFrame_false hnd hnl hshape
    have hflen : filtered.length ≤ numRows := by
      rw [hvalidSub, ← hlfclen]
      exact List.length_filter_le _ _
    have hmask : ev.map (fun q => getCol q finalValidName == some (Val.bool true)) =
        lfc.rows.map (noRuleFalse lfc.rows (buildRules custom columns)) := by
      rw [hevEq]
      exact evalMask_eq hnd hnl
    have hfull : filtered.length = numRows →
        (∀ r0 ∈ lfc.rows,
          noRuleFalse lfc.rows (buildRules custom columns) r0 = true) ∧
        filtered = lfc.rows := by
      intro hlenf
      have hlen2 : (lfc.rows.filter
          (noRuleFalse lfc.rows (buildRules custom columns))).length =
          lfc.rows.length := by
        rw [← hvalidSub, hlenf, hlfclen]
      have hall : ∀ r0 ∈ lfc.rows,
          noRuleFalse lfc.rows (buildRules custom columns) r0 = true := by
        rw [← List.filter_length_eq_length]
        exact hlen2
      exact ⟨hall, by rw [hvalidSub, List.filter_eq_self.2 hall]⟩
    have hgood : filtered.length = numRows →
        (∀ r0 ∈ filtered, projRow (columns.map (·.1)) r0 = r0) ∧
        ((buildRules custom columns).isEmpty = true ∨
          ((buildRules custom columns).isEmpty = false ∧
           ((buildRules custom columns).filter
            (fun nr => nr.2.isLazy)).isEmpty = true ∧
           ∀ r0 ∈ filtered, noRuleFalse filtered (buildRules custom columns)
             r0 = true)) := by
      intro hlenf
      obtain ⟨hall, hfeq⟩ := hfull hlenf
      refine ⟨?_, .inr ⟨hne2, hlazy2, ?_⟩⟩
      · intro r0 hr0
        rw [hfeq] at hr0
        exact hproj r0 hr0
      · intro r0 hr0
        rw [hfeq] at hr0 ⊢
        exact hall r0 hr0
    split at h
    · next hz =>
      -- no override values at all were supplied
      cases h
      have hcz : used ++ remaining = [] := List.length_eq_zero.1 hz
      obtain ⟨hunil, hrnil⟩ := List.append_eq_nil.1 hcz
      have hprev2 : previous = [] := by
        rcases hprev with hprev | hprev
        · exfalso
          apply hprev
          have h1 : remaining.length = 0 := by rw [hrnil]; rfl
          omega
        · exact hprev.1
      have hvalues : values = [] := by
        have h1 := hM.symm
        rw [hcz] at h1
        exact h1.eq_nil
      have hplen : previous.length = 0 := by rw [hprev2]; rfl
      have hrlen0 : remaining.length = 0 := by rw [hrnil]; rfl
      have hnum0 : numRows = 0 := by omega
      have hfnil : r = [] := by
        refine List.length_eq_zero.1 ?_
        have h1 := hflen
        omega
      refine ⟨?_, ?_, ?_, hflen, ?_, fun hlenf => hgood hlenf⟩
      · rw [hfnil, hcz]
        exact List.Forall₂.nil
      · rw [hcz, hvalues]
        exact List.Perm.refl _
      · rw [hcz, hfnil, hnum0]
        rfl
      · intro hc
        exact absurd (by rw [hfnil, hnum0]; rfl) hc
    · next hz =>
      cases h
      have hconlen : (used ++ remaining).length = numRows := by
        rw [List.length_append]
        omega
      have hevlen : ev.length = numRows := by
        rw [hevEq, length_evaluatedFrame, hlfclen]
      have hmasklen : (used ++ remaining).length =
          (ev.map (fun q => getCol q finalValidName ==
            some (Val.bool true))).length := by
        rw [List.length_map, hevlen, hconlen]
      have hr2 : r = maskFilter lfc.rows
          (ev.map (fun q => getCol q finalValidName == some (Val.bool true))) := by
        rw [hvalidSub,
          ← maskFilter_self_map lfc.rows
            (noRuleFalse lfc.rows (buildRules custom columns)), ← hmask]
      have halignlfc : alignedOn ovCols lfc.rows (used ++ remaining) := by
        rw [hrows]
        exact alignedOn_map_projRow hsub hAcomb
      have hulen : (maskFilter (used ++ remaining)
          (ev.map (fun q => getCol q finalValidName ==
            some (Val.bool true)))).length = r.length := by
        rw [hr2]
        rw [hmask]
        rw [length_maskFilter_map_pred _ _ _ (by rw [hconlen, hlfclen])]
        rw [length_maskFilter_map_pred _ _ _ (by rw [hlfclen])]
      have hsum : (maskFilter (used ++ remaining)
            (ev.map (fun q => getCol q finalValidName ==
              some (Val.bool true)))).length +
          (maskFilter (used ++ remaining)
            ((ev.map (fun q => getCol q finalValidName ==
              some (Val.bool true))).map (!·))).length =
          numRows := by
        rw [length_maskFilter_add _ _ hmasklen, hconlen]
      refine ⟨?_, ?_, ?_, hflen, fun _ => .inl hne2, fun hlenf => hgood hlenf⟩
      · rw [hr2]
        exact alignedOn_maskFilter halignlfc _
      · exact (maskFilter_partition_perm _ _ hmasklen).trans hM
      · omega

/-- The retry loop preserves the override bookkeeping and exits only with a
target-height, fully valid result. -/
theorem sampleWhileLoop_override {castFn : CastFn}
    {columns : List (String × Column)} {custom : List (String × Rule)}
    {ovCols : List String} {numRows maxIter : Nat} {values : List Row}
    (hndc : ((columns.map (·.1)) : List String).Nodup)
    (hnd : ((buildRules custom columns).map Prod.fst).Nodup)
    (hdisjc : ∀ n ∈ columns.map (·.1),
      n ∉ (buildRules custom columns).map Prod.fst ∧ n ≠ finalValidName)
    (hsub : ∀ c ∈ ovCols, c ∈ columns.map (·.1)) :
    ∀ (fuel rounds : Nat) (result used remaining res u : List Row),
    alignedOn ovCols result used →
    (used ++ remaining).Perm values →
    remaining.length = numRows - result.length →
    result.length ≤ numRows →
    (result.length ≠ numRows → (buildRules custom columns).isEmpty = false ∨
      (result = [] ∧ used = [])) →
    (result.length = numRows →
      (∀ r0 ∈ result, projRow (columns.map (·.1)) r0 = r0) ∧
      ((buildRules custom columns).isEmpty = true ∨
        ((buildRules custom columns).isEmpty = false ∧
         ((buildRules custom columns).filter
          (fun nr => nr.2.isLazy)).isEmpty = true ∧
         ∀ r0 ∈ result, noRuleFalse result (buildRules custom columns)
           r0 = true))) →
    sampleWhileLoop castFn columns custom ovCols numRows maxIter
      fuel rounds result used remaining = .ok (res, u) →
    res.length = numRows ∧ alignedOn ovCols res u ∧ u.Perm values ∧
    (∀ r0 ∈ res, projRow (columns.map (·.1)) r0 = r0) ∧
    ((buildRules custom columns).isEmpty = true ∨
      ((buildRules custom columns).isEmpty = false ∧
       ((buildRules custom columns).filter
        (fun nr => nr.2.isLazy)).isEmpty = true ∧
       ∀ r0 ∈ res, noRuleFalse res (buildRules custom columns) r0 = true)) := by
  intro fuel
  induction fuel with
  | zero =>
    intro rounds result used remaining res u hA hM hrem hRle hcond hgood h
    unfold sampleWhileLoop at h
    by_cases hl : result.length = numRows
    · rw [if_pos hl] at h
      cases h
      obtain ⟨hproj, hval⟩ := hgood hl
      refine ⟨hl, hA, ?_, hproj, hval⟩
      have hrnil : remaining = [] := by
        refine List.length_eq_zero.1 ?_
        omega
      rw [hrnil, List.append_nil] at hM
      exact hM
    · rw [if_neg hl] at h
      cases h
  | succ fuel ih =>
    intro rounds result used remaining res u hA hM hrem hRle hcond hgood h
    unfold sampleWhileLoop at h
    by_cases hl : result.length = numRows
    · rw [if_pos hl] at h
      cases h
      obtain ⟨hproj, hval⟩ := hgood hl
      refine ⟨hl, hA, ?_, hproj, hval⟩
      have hrnil : remaining = [] := by
        refine List.length_eq_zero.1 ?_
        omega
      rw [hrnil, List.append_nil] at hM
      exact hM
    · rw [if_neg hl] at h
      split at h
      · exact absurd h (by simp)
      · next r2 u2 rem2 heq =>
        obtain ⟨hA2, hM2, hrem2, hRle2, hcond2, hgood2⟩ :=
          sampleFilterStep_override heq hndc hnd hdisjc hsub hA hM hrem hRle
            (.inl hl) (hcond hl)
        exact ih _ _ _ _ _ _ hA2 hM2 hrem2 hRle2 hcond2 hgood2 h

/-- A successful `sampleRun` in override mode: the pre-reorder result has
the target height, is aligned with the used override values (a permutation
of all supplied values), and is a fully valid frame. -/
theorem sampleRun_override {castFn : CastFn}
    {columns : List (String × Column)} {custom : List (String × Rule)}
    {ovCols : List String} {maxIter numRows : Nat} {values out : List Row}
    (hndc : ((columns.map (·.1)) : List String).Nodup)
    (hnd : ((buildRules custom columns).map Prod.fst).Nodup)
    (hdisjc : ∀ n ∈ columns.map (·.1),
      n ∉ (buildRules custom columns).map Prod.fst ∧ n ≠ finalValidName)
    (hsub : ∀ c ∈ ovCols, c ∈ columns.map (·.1))
    (hvlen : values.length = numRows)
    (h : sampleRun castFn columns custom ovCols maxIter numRows values = .ok out) :
    ∃ res u, out = restoreOverrideOrder res u ∧ res.length = numRows ∧
      alignedOn ovCols res u ∧ u.Perm values ∧
      (∀ r0 ∈ res, projRow (columns.map (·.1)) r0 = r0) ∧
      ((buildRules custom columns).isEmpty = true ∨
        ((buildRules custom columns).isEmpty = false ∧
         ((buildRules custom columns).filter
          (fun nr => nr.2.isLazy)).isEmpty = true ∧
         ∀ r0 ∈ res, noRuleFalse res (buildRules custom columns) r0 = true)) := by
  unfold sampleRun at h
  split at h
  · exact absurd h (by simp)
  · next result0 used0 remaining0 heq0 =>
    have heq0b : sampleFilterStep castFn columns custom ovCols 0
        (numRows - ([] : List Row).length) [] [] values =
        .ok (result0, used0, remaining0) := heq0
    obtain ⟨hA0, hM0, hrem0, hRle0, hcond0, hgood0⟩ :=
      sampleFilterStep_override heq0b hndc hnd hdisjc hsub List.Forall₂.nil
        (by rw [List.nil_append]) (by
          show values.length = numRows - ([] : List Row).length
          rw [show (([] : List Row).length) = 0 from rfl, Nat.sub_zero]
          exact hvlen)
        (Nat.zero_le _) (.inr ⟨rfl, rfl⟩) (.inr ⟨rfl, rfl⟩)
    split at h
    · exact absurd h (by simp)
    · next res u heq1 =>
      cases h
      obtain ⟨hres, hA1, hM1, hproj1, hval1⟩ :=
        sampleWhileLoop_override hndc hnd hdisjc hsub _ _ _ _ _ _ _
          hA0 hM0 hrem0 hRle0 hcond0 hgood0 heq1
      exact ⟨res, u, rfl, hres, hA1, hM1, hproj1, hval1⟩

theorem filterRaw_eq_ok {castFn : CastFn} {cols : List (String × DType)}
    {rules : List (String × Rule)} {f : Frame} {cast : Bool} {lf : Frame}
    (hval : validateSchema castFn cols (if cast then .lenient else .nocast) f =
      .ok lf)
    (hne : (effectiveRules (cols.map (·.1)) rules cast).isEmpty = false)
    (hlazy : ((effectiveRules (cols.map (·.1)) rules cast).filter
      (fun nr => nr.2.isLazy)).isEmpty = true) :
    filterRaw castFn cols rules f cast =
      .ok (validSubset ((effectiveRules (cols.map (·.1)) rules cast).map (·.1))
          (evaluatedFrame (effectiveRules (cols.map (·.1)) rules cast) cast lf.rows),
        some (evaluatedFrame (effectiveRules (cols.map (·.1)) rules cast)
          cast lf.rows)) := by
  unfold filterRaw
  rw [hval]
  simp only []
  rw [hne, hlazy]
  simp

theorem filterMethod_eq_ok {castFn : CastFn} {cols : List (String × DType)}
    {rules : List (String × Rule)} {f : Frame} {cast : Bool} {v ev : List Row}
    (hraw : filterRaw castFn cols rules f cast = .ok (v, some ev)) :
    filterMethod castFn cols rules f cast =
      .ok (v, ⟨(ev.filter
          (fun x => getCol x finalValidName == some (Val.bool false))).map
          (fun x => dropCols x [finalValidName]),
        (effectiveRules (cols.map (·.1)) rules cast).map (·.1)⟩) := by
  unfold filterMethod
  rw [hraw]

/-- Re-filtering a frame of already-valid rows (in any order) under
permutation-invariant rules keeps every row and reports no failures: the
NOTE in `Schema.sample` that a re-ordered `filter` output needs no second
validation. -/
theorem filterMethod_all_valid {castFn : CastFn}
    {columns : List (String × Column)} {rules : List (String × Rule)}
    {out base : List Row}
    (hndc : ((columns.map (·.1)) : List String).Nodup)
    (hnd : (rules.map Prod.fst).Nodup)
    (hlazy : (rules.filter (fun nr => nr.2.isLazy)).isEmpty = true)
    (hne : rules.isEmpty = false)
    (hdisjc : ∀ n ∈ columns.map (·.1),
      n ∉ rules.map Prod.fst ∧ n ≠ finalValidName)
    (hperme : ∀ nr ∈ rules, ∀ e, nr.2 = Rule.simple e →
      ∀ (ctx ctx' : List Row) (x : Row), ctx.Perm ctx' → e ctx x = e ctx' x)
    (hpermg : ∀ nr ∈ rules, ∀ gcols agg, nr.2 = Rule.group gcols agg →
      ∀ l l' : List Row, l.Perm l' → agg l = agg l')
    (hp : out.Perm base)
    (hbase : ∀ x ∈ base, noRuleFalse base rules x = true)
    (hprojall : ∀ x ∈ base, projRow (columns.map (·.1)) x = x) :
    filterMethod castFn (columns.map (fun nc => (nc.1, nc.2.dtype))) rules
      (mkFrame columns out) false = .ok (out, ⟨[], rules.map (·.1)⟩) := by
  have hnl := nonlazy_of_filter_isEmpty hlazy
  have hprojout : ∀ x ∈ out, projRow (columns.map (·.1)) x = x :=
    fun x hx => hprojall x (hp.subset hx)
  obtain ⟨lf2, hval, hrows⟩ := validateSchema_mkFrame_proj hndc hprojout
  have heff : effectiveRules
      (((columns.map (fun nc => (nc.1, nc.2.dtype))).map (·.1))) rules false =
      rules := rfl
  have hvalb : validateSchema castFn (columns.map (fun nc => (nc.1, nc.2.dtype)))
      (if (false : Bool) then DtypeCasting.lenient else DtypeCasting.nocast)
      (mkFrame columns out) = .ok lf2 := hval
  have hraw := filterRaw_eq_ok hvalb (by rw [heff]; exact hne)
    (by rw [heff]; exact hlazy)
  rw [heff, hrows] at hraw
  have hvalid : ∀ x ∈ out, noRuleFalse out rules x = true := by
    intro x hx
    rw [noRuleFalse_eq_of_perm hperme hpermg hp x]
    exact hbase x (hp.subset hx)
  have hshape := shape_of_proj hdisjc hprojout
  have hvs : validSubset (rules.map (·.1)) (evaluatedFrame rules false out) =
      out := by
    rw [validSubset_evaluatedFrame_false hnd hnl hshape]
    exact List.filter_eq_self.2 hvalid
  have hfail : (evaluatedFrame rules false out).filter
      (fun x => getCol x finalValidName == some (Val.bool false)) = [] := by
    rw [evaluatedFrame_false_eq, List.filter_map]
    have hpred : ∀ x ∈ out,
        ((fun x => getCol x finalValidName == some (Val.bool false)) ∘
          (fun r0 => enrichFull out rules r0 ++
            [(finalValidName,
              (some (Val.bool (finalValid (rules.map (·.1))
                (enrichFull out rules r0))) : Cell))])) x = false := by
      intro x hx
      simp only [Function.comp]
      rw [getCol_append_single, cellBeq_bool_false,
        finalValid_enrichFull_eq_noRuleFalse hnd hnl, hvalid x hx]
      rfl
    rw [List.filter_congr hpred]
    rw [show (fun _ : Row => false) = (fun x : Row => false) from rfl]
    rw [List.filter_false]
    rfl
  rw [filterMethod_eq_ok hraw, heff, hvs, hfail]
  rfl

/-- Re-filtering any frame of projected rows under an empty rule set keeps
every row and reports no failures. -/
theorem filterMethod_no_rules {castFn : CastFn}
    {columns : List (String × Column)} {rules : List (String × Rule)}
    {out : List Row}
    (hndc : ((columns.map (·.1)) : List String).Nodup)
    (hemp : rules.isEmpty = true)
    (hprojout : ∀ x ∈ out, projRow (columns.map (·.1)) x = x) :
    filterMethod castFn (columns.map (fun nc => (nc.1, nc.2.dtype))) rules
      (mkFrame columns out) false = .ok (out, ⟨[], []⟩) := by
  obtain ⟨lf2, hval, hrows⟩ := validateSchema_mkFrame_proj hndc hprojout
  have heff : effectiveRules
      (((columns.map (fun nc => (nc.1, nc.2.dtype))).map (·.1))) rules false =
      rules := rfl
  have hvalb : validateSchema castFn (columns.map (fun nc => (nc.1, nc.2.dtype)))
      (if (false : Bool) then DtypeCasting.lenient else DtypeCasting.nocast)
      (mkFrame columns out) = .ok lf2 := hval
  have hraw : filterRaw castFn (columns.map (fun nc => (nc.1, nc.2.dtype))) rules
      (mkFrame columns out) false = .ok (lf2.rows, none) := by
    unfold filterRaw
    rw [hvalb]
    simp only []
    rw [heff, hemp]
    simp
  rw [hrows] at hraw
  unfold filterMethod
  rw [hraw]

theorem restoreOverrideOrder_perm {result used : List Row}
    (hlen : used.length = result.length) :
    (restoreOverrideOrder result used).Perm result := by
  unfold restoreOverrideOrder
  by_cases hz : used.length > 0
  · rw [if_pos hz]
    have hmf : ((result.zip (used.map (fun q => getCol q rowIndexName))).map
        (·.1) : List Row) = result := by
      have h1 := List.map_fst_zip result
        (used.map (fun q => getCol q rowIndexName))
        (by rw [List.length_map, hlen])
      exact h1
    refine List.Perm.trans ((List.perm_insertionSort
      (fun p q : Row × Cell => cellIdx p.2 ≤ cellIdx q.2)
      (result.zip (used.map (fun q => getCol q rowIndexName)))).map (·.1)) ?_
    rw [hmf]
  · rw [if_neg hz]

theorem getCol_cons_self_of_not_mem {k : String} {v : Cell} {r : Row}
    (h : k ∉ r.map Prod.fst) : getCol ((k, v) :: r) k = v := by
  unfold getCol
  have hnone : List.lookup k r.reverse = none := by
    refine lookup_eq_none_of_not_mem ?_
    rw [List.map_reverse]
    rw [List.mem_reverse]
    exact h
  rw [List.reverse_cons, lookup_append_cell, hnone]
  simp [List.lookup_cons]

theorem getCol_cons_ne {k n : String} (h : n ≠ k) (v : Cell) (r : Row) :
    getCol ((k, v) :: r) n = getCol r n := by
  unfold getCol
  have h2 : List.lookup n [(k, v)] = none := by
    have hkb : (n == k) = false := by simpa using h
    simp [List.lookup_cons, hkb]
  rw [List.reverse_cons, lookup_append_cell]
  cases hl : List.lookup n r.reverse with
  | none => simp [hl, h2]
  | some c => simp [hl]

/-- After the final row-index sort of `sample`, the i-th returned row
carries the override values of the i-th supplied override row: the used
overrides are a permutation of the index-tagged values, they are aligned
with the result row by row, and sorting by the distinct indexes `0..n-1`
restores the original submission order. -/
theorem restoreOverrideOrder_getCol {ovCols : List String}
    {res u values : List Row}
    (hA : alignedOn ovCols res u)
    (hperm : u.Perm values)
    (hidx : ∀ (j : Nat) (hj : j < values.length),
      getCol values[j] rowIndexName = some (Val.int j))
    (hupos : 0 < u.length) :
    ∀ (i : Nat) (hi : i < values.length)
      (hi2 : i < (restoreOverrideOrder res u).length),
      ∀ c ∈ ovCols,
      getCol ((restoreOverrideOrder res u)[i]) c = getCol (values[i]) c := by
  intro i hi hi2 c hc
  have hun : u.length = values.length := hperm.length_eq
  have hru : res.length = u.length := alignedOn_length hA
  haveI hT : IsTotal (Row × Cell)
      (fun p q : Row × Cell => cellIdx p.2 ≤ cellIdx q.2) :=
    ⟨fun a b => Int.le_total _ _⟩
  haveI hTr : IsTrans (Row × Cell)
      (fun p q : Row × Cell => cellIdx p.2 ≤ cellIdx q.2) :=
    ⟨fun a b d h1 h2 => le_trans h1 h2⟩
  have hro : restoreOverrideOrder res u =
      (List.insertionSort (fun p q : Row × Cell => cellIdx p.2 ≤ cellIdx q.2)
        (res.zip (u.map (fun q => getCol q rowIndexName)))).map (·.1) := by
    unfold restoreOverrideOrder
    rw [if_pos hupos]
  have hzlen : (res.zip (u.map (fun q => getCol q rowIndexName))).length =
      values.length := by
    rw [List.length_zip, List.length_map, hru, hun, Nat.min_self]
  have hsperm := List.perm_insertionSort
    (fun p q : Row × Cell => cellIdx p.2 ≤ cellIdx q.2)
    (res.zip (u.map (fun q => getCol q rowIndexName)))
  have hslen : (List.insertionSort
      (fun p q : Row × Cell => cellIdx p.2 ≤ cellIdx q.2)
      (res.zip (u.map (fun q => getCol q rowIndexName)))).length =
      values.length := by
    rw [hsperm.length_eq, hzlen]
  have hssorted := List.sorted_insertionSort
    (fun p q : Row × Cell => cellIdx p.2 ≤ cellIdx q.2)
    (res.zip (u.map (fun q => getCol q rowIndexName)))
  have hksSorted : ((List.insertionSort
      (fun p q : Row × Cell => cellIdx p.2 ≤ cellIdx q.2)
      (res.zip (u.map (fun q => getCol q rowIndexName)))).map
      (fun p => cellIdx p.2)).Sorted (· ≤ ·) :=
    List.pairwise_map.mpr hssorted
  have hvalsSorted : (((List.range values.length).map
      Int.ofNat)).Sorted (· ≤ ·) := by
    refine List.pairwise_map.mpr ?_
    refine List.Pairwise.imp ?_ (List.pairwise_lt_range values.length)
    intro a b hab
    exact Int.ofNat_le.2 (Nat.le_of_lt hab)
  have hmsz : ((res.zip (u.map (fun q => getCol q rowIndexName))).map
      Prod.snd) = u.map (fun q => getCol q rowIndexName) :=
    List.map_snd_zip _ _ (by rw [List.length_map, hru])
  have hzsnd : ((res.zip (u.map (fun q => getCol q rowIndexName))).map
      (fun p => cellIdx p.2)) =
      u.map (fun q => cellIdx (getCol q rowIndexName)) := by
    have h2 : ((res.zip (u.map (fun q => getCol q rowIndexName))).map
        (fun p => cellIdx p.2)) =
        ((res.zip (u.map (fun q => getCol q rowIndexName))).map
          Prod.snd).map cellIdx := by
      rw [List.map_map]
      rfl
    rw [h2, hmsz, List.map_map]
    rfl
  have hvals2 : values.map (fun q => cellIdx (getCol q rowIndexName)) =
      (List.range values.length).map Int.ofNat := by
    refine List.ext_getElem ?_ ?_
    · rw [List.length_map, List.length_map, List.length_range]
    · intro j h1 h2
      have hj : j < values.length := by
        rw [List.length_map] at h1
        exact h1
      rw [List.getElem_map, List.getElem_map, List.getElem_range]
      rw [hidx j hj]
      rfl
  have hksPerm : ((List.insertionSort
      (fun p q : Row × Cell => cellIdx p.2 ≤ cellIdx q.2)
      (res.zip (u.map (fun q => getCol q rowIndexName)))).map
      (fun p => cellIdx p.2)).Perm
      ((List.range values.length).map Int.ofNat) := by
    refine (hsperm.map (fun p => cellIdx p.2)).trans ?_
    rw [hzsnd]
    have h3 : (u.map (fun q => cellIdx (getCol q rowIndexName))).Perm
        (values.map (fun q => cellIdx (getCol q rowIndexName))) :=
      hperm.map _
    rw [hvals2] at h3
    exact h3
  have hkeq := List.eq_of_perm_of_sorted hksPerm hksSorted hvalsSorted
  have hi3 : i < (List.insertionSort
      (fun p q : Row × Cell => cellIdx p.2 ≤ cellIdx q.2)
      (res.zip (u.map (fun q => getCol q rowIndexName)))).length := by
    rw [hslen]
    exact hi
  have hbound : i < ((List.insertionSort
      (fun p q : Row × Cell => cellIdx p.2 ≤ cellIdx q.2)
      (res.zip (u.map (fun q => getCol q rowIndexName)))).map
      (fun p => cellIdx p.2)).length := by
    rw [List.length_map]
    exact hi3
  have hbound2 : i < ((List.range values.length).map
      Int.ofNat).length := by
    rw [List.length_map, List.length_range]
    exact hi
  have h5 : ((List.insertionSort
      (fun p q : Row × Cell => cellIdx p.2 ≤ cellIdx q.2)
      (res.zip (u.map (fun q => getCol q rowIndexName)))).map
      (fun p => cellIdx p.2))[i] =
      ((List.range values.length).map Int.ofNat)[i] := by
    simp only [hkeq]
  rw [List.getElem_map, List.getElem_map, List.getElem_range] at h5
  have hmem_s : ((List.insertionSort
      (fun p q : Row × Cell => cellIdx p.2 ≤ cellIdx q.2)
      (res.zip (u.map (fun q => getCol q rowIndexName))))[i]) ∈
      res.zip (u.map (fun q => getCol q rowIndexName)) :=
    hsperm.subset (List.getElem_mem hi3)
  obtain ⟨j, hj, hget⟩ := List.mem_iff_getElem.1 hmem_s
  have hjr : j < res.length := by
    have := hj
    rw [hzlen] at this
    omega
  have hju : j < (u.map (fun q => getCol q rowIndexName)).length := by
    have := hj
    rw [hzlen] at this
    rw [List.length_map]
    omega
  have hju2 : j < u.length := by
    rw [List.length_map] at hju
    exact hju
  rw [List.getElem_zip] at hget
  have hfst : res[j] = ((List.insertionSort
      (fun p q : Row × Cell => cellIdx p.2 ≤ cellIdx q.2)
      (res.zip (u.map (fun q => getCol q rowIndexName))))[i]).1 := by
    rw [← hget]
  have hsnd : (u.map (fun q => getCol q rowIndexName))[j] =
      ((List.insertionSort
      (fun p q : Row × Cell => cellIdx p.2 ≤ cellIdx q.2)
      (res.zip (u.map (fun q => getCol q rowIndexName))))[i]).2 := by
    rw [← hget]
  rw [List.getElem_map] at hsnd
  have humem : u[j] ∈ values := hperm.subset (List.getElem_mem hju2)
  obtain ⟨j2, hj3, hval2⟩ := List.mem_iff_getElem.1 humem
  have hval2b : values[j2] = u[j] := hval2
  have hidx2 : getCol u[j] rowIndexName = some (Val.int j2) := by
    rw [← hval2b]
    exact hidx j2 hj3
  have hkey2 : cellIdx (getCol u[j] rowIndexName) = (i : Int) := by
    rw [hsnd]
    exact h5
  rw [hidx2] at hkey2
  have hj2i : j2 = i := by
    have h6 : ((j2 : Int)) = (i : Int) := hkey2
    exact_mod_cast h6
  have hj2ib : i = j2 := hj2i.symm
  subst hj2ib
  have halign := alignedOn_getElem hA j hjr hju2 c hc
  have hgoal : (restoreOverrideOrder res u)[i] =
      ((List.insertionSort
      (fun p q : Row × Cell => cellIdx p.2 ≤ cellIdx q.2)
      (res.zip (u.map (fun q => getCol q rowIndexName))))[i]).1 := by
    simp only [hro]
    rw [List.getElem_map]
  rw [hgoal, ← hfst, halign, ← hval2b]

/-- Each tagged override row carries its position as the synthetic row
index (`values.with_row_index("__row_index__")`). -/
theorem values_index_cell {ovRows : List Row}
    (hriov : ∀ x ∈ ovRows, rowIndexName ∉ x.map Prod.fst) :
    ∀ (j : Nat) (hj : j < (ovRows.enum.map (fun ir =>
      (rowIndexName, (some (Val.int ir.1) : Cell)) :: ir.2)).length),
    getCol ((ovRows.enum.map (fun ir =>
      (rowIndexName, (some (Val.int ir.1) : Cell)) :: ir.2))[j]) rowIndexName =
      some (Val.int j) := by
  intro j hj
  have hj2 : j < ovRows.length := by
    rw [List.length_map, List.enum_length] at hj
    exact hj
  rw [List.getElem_map, List.getElem_enum]
  exact getCol_cons_self_of_not_mem (hriov ovRows[j] (List.getElem_mem hj2))

/-- C4: whenever `sample` returns (with overrides supplied) instead of
raising, the returned frame has exactly the requested number of rows,
re-filtering it under the same schema keeps every row and reports zero
failures, and the rows carry the user-supplied override values in exactly
the order the overrides were supplied (restored by sorting on the synthetic
row index).  The rules are assumed permutation-invariant — polars
aggregations and row expressions do not read the frame's physical row
order, which is what the source's NOTE "row order does not affect the
validity of a data frame" relies on. -/
theorem sample_contract {castFn : CastFn} {columns : List (String × Column)}
    {custom : List (String × Rule)} {maxIter : Nat} {numRowsArg : Option Nat}
    {ovCols : List String} {ovRows : List Row} {out : List Row}
    (h : sample castFn columns custom maxIter numRowsArg
      (some (ovCols, ovRows)) = .ok out)
    (hndc : ((columns.map (·.1)) : List String).Nodup)
    (hnd : ((buildRules custom columns).map Prod.fst).Nodup)
    (hdisjc : ∀ n ∈ columns.map (·.1),
      n ∉ (buildRules custom columns).map Prod.fst ∧ n ≠ finalValidName)
    (hri : rowIndexName ∉ columns.map (·.1))
    (hriov : ∀ x ∈ ovRows, rowIndexName ∉ x.map Prod.fst)
    (hperme : ∀ nr ∈ buildRules custom columns, ∀ e, nr.2 = Rule.simple e →
      ∀ (ctx ctx' : List Row) (x : Row), ctx.Perm ctx' → e ctx x = e ctx' x)
    (hpermg : ∀ nr ∈ buildRules custom columns, ∀ gcols agg,
      nr.2 = Rule.group gcols agg →
      ∀ l l' : List Row, l.Perm l' → agg l = agg l') :
    out.length = ovRows.length ∧
    (∃ fi, filterMethod castFn (columns.map (fun nc => (nc.1, nc.2.dtype)))
        (buildRules custom columns) (mkFrame columns out) false =
        .ok (out, fi) ∧ fi.rows = []) ∧
    (∀ (i : Nat) (hi : i < ovRows.length) (hi2 : i < out.length),
      ∀ c ∈ ovCols, getCol out[i] c = getCol (ovRows[i]) c) := by
  have h2 : (if !(ovCols.filter (fun c =>
        !((columns.map (·.1)).contains c))).isEmpty then
      (.error (.invalidOverrides (ovCols.filter (fun c =>
        !((columns.map (·.1)).contains c)))) : Except SampleError (List Row))
    else if numRowsArg.any (fun n => n ≠ ovRows.length) then
      .error .numRowsMismatch
    else sampleRun castFn columns custom ovCols maxIter ovRows.length
      (ovRows.enum.map (fun ir =>
        (rowIndexName, (some (Val.int ir.1) : Cell)) :: ir.2))) = .ok out := h
  by_cases hc1 : (!(ovCols.filter (fun c =>
      !((columns.map (·.1)).contains c))).isEmpty) = true
  · rw [if_pos hc1] at h2
    cases h2
  · rw [if_neg hc1] at h2
    have hsub : ∀ c ∈ ovCols, c ∈ columns.map (·.1) := by
      intro c hcmem
      by_contra hcon
      apply hc1
      have hcc : (columns.map (·.1)).contains c = false := by
        cases hcc2 : (columns.map (·.1)).contains c
        · rfl
        · exact absurd (List.elem_iff.1 hcc2) hcon
      have hfmem : c ∈ ovCols.filter (fun c =>
          !((columns.map (·.1)).contains c)) := by
        refine List.mem_filter.2 ⟨hcmem, ?_⟩
        show (!((columns.map (·.1)).contains c)) = true
        rw [hcc]
        rfl
      have hfe : (ovCols.filter (fun c =>
          !((columns.map (·.1)).contains c))).isEmpty = false := by
        cases hfe2 : (ovCols.filter (fun c =>
            !((columns.map (·.1)).contains c))).isEmpty
        · rfl
        · rw [List.isEmpty_iff] at hfe2
          rw [hfe2] at hfmem
          cases hfmem
      rw [hfe]
      rfl
    by_cases hc2 : (numRowsArg.any (fun n => n ≠ ovRows.length)) = true
    · rw [if_pos hc2] at h2
      cases h2
    · rw [if_neg hc2] at h2
      have hvlen : (ovRows.enum.map (fun ir =>
          (rowIndexName, (some (Val.int ir.1) : Cell)) :: ir.2)).length =
          ovRows.length := by
        rw [List.length_map, List.enum_length]
      obtain ⟨res, u, hout, hres, hA1, hM1, hproj1, hval1⟩ :=
        sampleRun_override hndc hnd hdisjc hsub hvlen h2
      have hulen : u.length = res.length := by
        rw [hM1.length_eq, hvlen, hres]
      have houtperm : out.Perm res := by
        rw [hout]
        exact restoreOverrideOrder_perm hulen
      have houtlen : out.length = ovRows.length := by
        rw [houtperm.length_eq, hres]
      refine ⟨houtlen, ?_, ?_⟩
      · rcases hval1 with hemp | ⟨hneF, hlazyF, hbase⟩
        · exact ⟨⟨[], []⟩, filterMethod_no_rules hndc hemp
            (fun x hx => hproj1 x (houtperm.subset hx)), rfl⟩
        · exact ⟨⟨[], (buildRules custom columns).map (·.1)⟩,
            filterMethod_all_valid hndc hnd hlazyF hneF hdisjc hperme hpermg
              houtperm hbase hproj1, rfl⟩
      · intro i hi hi2 c hcov
        have hupos : 0 < u.length := by
          rw [hulen, hres]
          omega
        have hiv : i < (ovRows.enum.map (fun ir =>
            (rowIndexName, (some (Val.int ir.1) : Cell)) :: ir.2)).length := by
          rw [hvlen]
          exact hi
        have hi3 : i < (restoreOverrideOrder res u).length := by
          rw [← hout]
          exact hi2
        have happ := restoreOverrideOrder_getCol hA1 hM1
          (values_index_cell hriov) hupos i hiv hi3 c hcov
        have hvi : (ovRows.enum.map (fun ir =>
            (rowIndexName, (some (Val.int ir.1) : Cell)) :: ir.2))[i] =
            (rowIndexName, (some (Val.int i) : Cell)) :: ovRows[i] := by
          rw [List.getElem_map, List.getElem_enum]
        have hcne : c ≠ rowIndexName := by
          intro hcr
          rw [hcr] at hcov
          exact hri (hsub rowIndexName hcov)
        have hgoal : getCol ((restoreOverrideOrder res u)[i]) c =
            getCol (ovRows[i]) c := by
          rw [happ, hvi, getCol_cons_ne hcne]
        simp only [hout]
        exact hgoal

/-- Concrete rule expression for the C4 witness: the column a must be
non-negative (and the expression ignores the evaluation context, so it is
trivially permutation-invariant). -/
def c4expr : List Row → Row → Option Bool := fun _ r =>
  match getCol r "a" with
  | some (.int i) => some (decide (0 ≤ i))
  | _ => none

def c4rules : List (String × Rule) := [("a_nonneg", Rule.simple c4expr)]

def c4col : Column :=
  ⟨.int, false, [], fun _ k => (List.range k).map (fun i => (some (Val.int i) : Cell))⟩

def c4columns : List (String × Column) := [("a", c4col)]

def c4ovRows : List Row := [[("a", some (Val.int 5))], [("a", some (Val.int 7))]]

def c4out : List Row := [[("a", some (Val.int 5))], [("a", some (Val.int 7))]]

theorem sample_contract_witness :
    sample noCastFn c4columns c4rules 1 none (some (["a"], c4ovRows)) = .ok c4out ∧
    c4out.length = c4ovRows.length ∧
    (∃ fi, filterMethod noCastFn (c4columns.map (fun nc => (nc.1, nc.2.dtype)))
        (buildRules c4rules c4columns) (mkFrame c4columns c4out) false =
        .ok (c4out, fi) ∧ fi.rows = []) ∧
    (∀ (i : Nat) (hi : i < c4ovRows.length) (hi2 : i < c4out.length),
      ∀ c ∈ (["a"] : List String),
        getCol c4out[i] c = getCol (c4ovRows[i]) c) := by
  have h : sample noCastFn c4columns c4rules 1 none (some (["a"], c4ovRows)) =
      .ok c4out := by rfl
  have hmain := sample_contract h (by decide) (by decide) (by decide) (by decide)
    (by decide)
    (by
      intro nr hnr e he ctx ctx' x hp
      have hb : buildRules c4rules c4columns = [("a_nonneg", Rule.simple c4expr)] :=
        rfl
      rw [hb] at hnr
      have hnr2 : nr = ("a_nonneg", Rule.simple c4expr) := List.mem_singleton.1 hnr
      rw [hnr2] at he
      have he3 : Rule.simple c4expr = Rule.simple e := he
      injection he3 with he2
      rw [← he2]
      rfl)
    (by
      intro nr hnr gcols agg he l l' hp
      have hb : buildRules c4rules c4columns = [("a_nonneg", Rule.simple c4expr)] :=
        rfl
      rw [hb] at hnr
      have hnr2 : nr = ("a_nonneg", Rule.simple c4expr) := List.mem_singleton.1 hnr
      rw [hnr2] at he
      have he3 : Rule.simple c4expr = Rule.group gcols agg := he
      exact Rule.noConfusion he3)
  exact ⟨h, hmain⟩

end Dataframely
